import Mathlib

/-!
# Verification of the kakapo MATLAB formatter (grammar, CST model, formatter)

This file gives a shallow embedding of the kakapo repository
(`model.py`, `grammar.py`, `formatter.py`) and settles the claims about it.

The grammar in `grammar.py` is written against the pyparsing library
(vendored 3.0.x semantics): parsing is PEG-like recursive descent with
atomic alternatives (`MatchFirst` takes the first success, `Or` the longest),
greedy repetition, zero-width lookahead/lookbehind, and per-element
parse actions.  The embedding below models the exact combinators the
grammar instantiates, as functions on `List Char` with a fuel parameter
for the recursive rules (`Forward` references in the source).

Conventions:
* Python token lists are `List Tok`; a pyparsing parse produces
  `(end position, tokens, exact)` where `exact = false` records that the
  run went through a normalizing step that does not preserve input bytes
  (whitespace silently skipped by elements that kept pyparsing's default
  whitespace-skipping, or a numeric literal re-rendered by the
  `common.number` conversion actions).  Runs with `exact = true`
  reproduce consumed input bytes in their tokens verbatim, which is the
  content of the round-trip theorem.
* Python `None` is `Tok.none`; `str` is `Tok.str`; `model.Leaf` is
  `Tok.leaf`; every `model.Composite` subclass is `Tok.node k children`
  with `k` its concrete class.
-/

set_option maxRecDepth 4000

namespace Kakapo

/-- The concrete `model.Composite` subclasses that tag tree nodes.
`whileLoop`, `switchK`, `caseK` and `commandK` are referenced by
`grammar.py`'s `parse_actions` table and by `tests.py` but are absent from
`model.py`; they are modelled from the spec (Block subtypes
`WhileLoop`, `Switch`/`Case`, and the standalone `Command`). -/
inductive Kind where
  | file
  | code
  | statementK
  | commentK
  | commandK
  | functionK
  | ifK
  | forLoop
  | whileLoop
  | tryCatch
  | switchK
  | caseK
  | callK
  | argumentsList
  | outputArguments
  | arrayK
  | anonymousFunction
  | operation
  | singleElementOperation
  | parenthesizedK
  | delimitedList
  deriving DecidableEq, Repr

/-- A parse token / CST child: Python `str`, `None`, `int` and `float`
results of `pyparsing.common.number`'s conversion actions, `model.Leaf`,
or a `model.Composite` node.  For a float the matched literal is kept;
Python's float `str()` is not modelled bit-exactly, and every theorem
quantifying over inputs excludes float literals through the `exact` flag. -/
inductive Tok where
  | str (v : List Char)
  | none
  | intTok (n : Int)
  | floatTok (raw : List Char)
  | leaf (v : List Char)
  | node (k : Kind) (children : List Tok)
  deriving Repr

/-- Serialization of one child, as in `model.Composite.__str__` /
`model.Leaf.__str__`: `str()` of the value, with `None` children skipped. -/
def tokText : Tok → List Char
  | .str v => v
  | .none => []
  | .intTok n => (toString n).toList
  | .floatTok raw => raw
  | .leaf v => v
  | .node _ children => toksText children
where
  /-- Concatenation of every child's text, in order
  (`"".join(str(tok) for tok in self if tok is not None)`). -/
  toksText : List Tok → List Char
    | [] => []
    | t :: ts => tokText t ++ toksText ts

/-- `str()` of a whole token list (used by `join_tokens` and by the
serialization of a parse result). -/
def toksText (ts : List Tok) : List Char := tokText.toksText ts

@[simp] theorem toksText_nil : toksText [] = [] := rfl

@[simp] theorem toksText_cons (t : Tok) (ts : List Tok) :
    toksText (t :: ts) = tokText t ++ toksText ts := rfl

theorem toksText_append (a b : List Tok) :
    toksText (a ++ b) = toksText a ++ toksText b := by
  induction a with
  | nil => simp
  | cons t ts ih => simp [ih]

@[simp] theorem tokText_node (k : Kind) (children : List Tok) :
    tokText (.node k children) = toksText children := rfl

/-! ## Character classes

`grammar.py` builds tokens from pyparsing's ASCII `alphas`/`alphanums`
plus explicit whitespace sets.  `White(chars)` keeps pyparsing's implicit
whitespace skipping for the *other* whitespace characters of its
`whiteStrs` table; `line_end` and `common.number` retain the default
skip set `" \n\t\r"` (they predate the grammar's
`setDefaultWhitespaceChars("")`, which only rewires `empty` and the other
`copyDefaultWhiteChars` module-level instances of `pyparsing.core`). -/

def isAlphaAscii (c : Char) : Bool :=
  ('A' ≤ c && c ≤ 'Z') || ('a' ≤ c && c ≤ 'z')

def isDigitAscii (c : Char) : Bool :=
  '0' ≤ c && c ≤ '9'

/-- `alphanums + "_."`, the identifier body characters. -/
def isAlnumDotU (c : Char) : Bool :=
  isAlphaAscii c || isDigitAscii c || c == '_' || c == '.'

def isWsSTN (c : Char) : Bool := c == ' ' || c == '\t' || c == '\n'

def isWsST (c : Char) : Bool := c == ' ' || c == '\t'

/-- The keys of `pyparsing.White.whiteStrs`. -/
def whiteAuxChars : List Char :=
  [' ', '\t', '\n', '\r', '\x0C', '\u00A0', '\u1680', '\u180E',
   '\u2000', '\u2001', '\u2002', '\u2003', '\u2004', '\u2005', '\u2006',
   '\u2007', '\u2008', '\u2009', '\u200A', '\u200B', '\u202F', '\u205F',
   '\u3000']

/-- The character sets instantiated by the grammar. -/
inductive CC where
  | alpha
  | alnumDotU
  | wsSTN
  | wsST
  | nl
  deriving DecidableEq, Repr

def ccMem : CC → Char → Bool
  | .alpha, c => isAlphaAscii c
  | .alnumDotU, c => isAlnumDotU c
  | .wsSTN, c => isWsSTN c
  | .wsST, c => isWsST c
  | .nl, c => c == '\n'

/-- `White(cc)` skips the `whiteStrs` characters outside its match set
before matching. -/
def whiteSkip (cc : CC) (c : Char) : Bool :=
  whiteAuxChars.contains c && !ccMem cc c

/-- `line_end`'s residual skip set: default whitespace `" \n\t\r"` minus
`"\n"`. -/
def isLineEndSkip (c : Char) : Bool := c == ' ' || c == '\t' || c == '\r'

/-- `common.number`'s skip set: the default whitespace `" \n\t\r"`. -/
def isNumSkip (c : Char) : Bool :=
  c == ' ' || c == '\n' || c == '\t' || c == '\r'

/-! ## Input positions -/

def charAt (s : List Char) (i : Nat) : Option Char := s.get? i

/-- Length of the maximal run of characters satisfying `p` from
position `i`. -/
def runLen (p : Char → Bool) (s : List Char) (i : Nat) : Nat :=
  ((s.drop i).takeWhile p).length

/-- `Literal` test: the literal occurs at position `i`. -/
def litHere (s : List Char) (i : Nat) (l : List Char) : Bool :=
  l.isPrefixOf (s.drop i)

/-- The substring from `i` (inclusive) to `j` (exclusive). -/
def slice (s : List Char) (i j : Nat) : List Char :=
  (s.drop i).take (j - i)

/-! ## The numeric literal token (`pyparsing.common.number`)

`number = (sci_real | real | signed_integer)`, a `MatchFirst` whose
elements are `Regex` tokens with conversion parse actions
(`convert_to_float` / `convert_to_integer`).  The regexes:
`sci_real = [+-]?(?:\d+(?:[eE][+-]?\d+)|(?:\d+\.\d*|\.\d+)(?:[eE][+-]?\d+)?)`,
`real = [+-]?(?:\d+\.\d*|\.\d+)`, `signed_integer = [+-]?\d+`. -/

def isSign (c : Char) : Bool := c == '+' || c == '-'

def matchSignLen (s : List Char) (i : Nat) : Nat :=
  match charAt s i with
  | some c => if isSign c then 1 else 0
  | none => 0

/-- `[eE][+-]?\d+` starting at `i`; returns the end position. -/
def matchExpPart (s : List Char) (i : Nat) : Option Nat :=
  match charAt s i with
  | some c =>
    if c == 'e' || c == 'E' then
      let i1 := i + 1 + matchSignLen s (i + 1)
      let d := runLen isDigitAscii s i1
      if d = 0 then none else some (i1 + d)
    else none
  | none => none

/-- `(?:\d+\.\d*|\.\d+)` starting at `i` (after the sign). -/
def matchFracCore (s : List Char) (i : Nat) : Option Nat :=
  let d := runLen isDigitAscii s i
  if d = 0 then
    if charAt s i = some '.' then
      let d2 := runLen isDigitAscii s (i + 1)
      if d2 = 0 then none else some (i + 1 + d2)
    else none
  else
    if charAt s (i + d) = some '.' then
      some (i + d + 1 + runLen isDigitAscii s (i + d + 1))
    else none

def matchSciReal (s : List Char) (i : Nat) : Option Nat :=
  let i1 := i + matchSignLen s i
  let d := runLen isDigitAscii s i1
  match (if d = 0 then none else matchExpPart s (i1 + d) : Option Nat) with
  | some j => some j
  | none =>
    match matchFracCore s i1 with
    | some j =>
      match matchExpPart s j with
      | some j2 => some j2
      | none => some j
    | none => none

def matchReal (s : List Char) (i : Nat) : Option Nat :=
  let i1 := i + matchSignLen s i
  matchFracCore s i1

def matchSignedInt (s : List Char) (i : Nat) : Option Nat :=
  let i1 := i + matchSignLen s i
  let d := runLen isDigitAscii s i1
  if d = 0 then none else some (i1 + d)

def digitsVal (ds : List Char) : Nat :=
  ds.foldl (fun acc c => 10 * acc + (c.toNat - '0'.toNat)) 0

/-- Python `int()` of a `[+-]?\d+` literal. -/
def intOfRaw (raw : List Char) : Int :=
  match raw with
  | '-' :: ds => -(digitsVal ds : Int)
  | '+' :: ds => (digitsVal ds : Int)
  | ds => (digitsVal ds : Int)

/-- Run `common.number` at position `i`: skip default whitespace, then
`MatchFirst` of the three regexes, with the conversion actions.  Float
conversions and non-identity integer conversions (and any skipped
whitespace) clear the `exact` flag. -/
def runNumber (s : List Char) (i : Nat) : Option (Nat × List Tok × Bool) :=
  let k := runLen isNumSkip s i
  let i0 := i + k
  match matchSciReal s i0 with
  | some j => some (j, [.floatTok (slice s i0 j)], false)
  | none =>
    match matchReal s i0 with
    | some j => some (j, [.floatTok (slice s i0 j)], false)
    | none =>
      match matchSignedInt s i0 with
      | some j =>
        let raw := slice s i0 j
        let v := intOfRaw raw
        some (j, [.intTok v], k == 0 && (toString v).toList == raw)
      | none => none

/-! ## `QuotedString(q, esc_quote=qq, unquote_results=False)`

The compiled pattern is `q(?:qq|[^q\n\r])*q`, matched greedily with
backtracking; a doubled quote continues the string when a closing quote
can still be found, otherwise the first quote closes it. -/

/-- Scan the remainder after the opening quote; returns how many
characters (content plus closing quote) are consumed. -/
def qscan (q : Char) : List Char → Option Nat
  | [] => none
  | c :: rest =>
    if c = q then
      match rest with
      | c2 :: rest2 =>
        if c2 = q then
          match qscan q rest2 with
          | some n => some (n + 2)
          | none => some 1
        else some 1
      | [] => some 1
    else if c = '\n' || c = '\r' then none
    else
      match qscan q rest with
      | some n => some (n + 1)
      | none => none

def runQuoted (q : Char) (s : List Char) (i : Nat) :
    Option (Nat × List Tok × Bool) :=
  if charAt s i = some q then
    match qscan q (s.drop (i + 1)) with
    | some n => some (i + 1 + n, [.str (slice s i (i + 1 + n))], true)
    | none => none
  else none


/-! ## The parser-combinator syntax

A deep embedding of exactly the pyparsing constructs `grammar.py`
instantiates.  `Forward`-declared rules (`expression`, `operation`,
`operand`, `operand_atom`, `call`, `code`) become named references
resolved through `rules`. -/

/-- The parse actions attached by the grammar: `join_tokens`, the
`model` class constructors (`X.from_tokens`), and the
`["", ""] if toks[0] is None else toks` normalizer used for optional
block-terminator semicolons and the optional `catch` clause. -/
inductive Act where
  | join
  | wrap (k : Kind)
  | noneTo2
  deriving DecidableEq, Repr

/-- `Opt`'s behaviour on a failed inner parse: produce no tokens
(`Opt(expr)`) or the single default token (`Opt(expr, default=d)`). -/
inductive OptDef where
  | noDef
  | withDef (t : Tok)
  deriving Repr

inductive RuleId where
  | expressionR
  | operationR
  | operandR
  | operandAtomR
  | callR
  | codeR
  deriving DecidableEq, Repr

inductive PE where
  | failP
  | lit (l : List Char)
  /-- the grammar's `Leaf` ParserElement: a `Literal` whose token is
  wrapped into `model.Leaf`. -/
  | leafLit (l : List Char)
  /-- `Char(...)`: exactly one character of the class. -/
  | charCl (cc : CC)
  /-- `Word(init, body[, max])` with `min=1` (the only form used). -/
  | wordCl (init body : CC) (mx : Option Nat)
  /-- `White(...)`. -/
  | white (cc : CC)
  /-- `nothing(n)`: `Empty()` with a parse action producing `n` empty
  strings. -/
  | emptyToks (n : Nat)
  /-- pyparsing's module-level `empty` (its default-whitespace skip was
  cleared by `setDefaultWhitespaceChars("")`). -/
  | emptyNoTok
  | lineEnd
  | restOfLine
  | quoted (q : Char)
  | pyNumber
  /-- `PrecededBy(";")` (its tokens are deleted by its own parse
  action). -/
  | precededBySemi
  | seq (a b : PE)
  /-- `MatchFirst` (`|`). -/
  | firstOf (a b : PE)
  /-- `Or` (longest match, first on ties). -/
  | longestOf (a b : PE)
  | opt (p : PE) (d : OptDef)
  /-- `expr[m, ...]`; `ZeroOrMore` is `repMin 0`, `OneOrMore` is
  `repMin 1`. -/
  | repMin (m : Nat) (p : PE)
  | followedBy (p : PE)
  | notAny (p : PE)
  | act (a : Act) (p : PE)
  | ref (r : RuleId)
  deriving Repr

/-- Python string literal to `List Char`. -/
def cs (s : String) : List Char := s.toList

/-- `Or(Literal(s) for s in ss)`: longest match, earliest on ties. -/
def orLits : List String → PE
  | [] => .failP
  | [s] => .lit (cs s)
  | s :: rest => .longestOf (.lit (cs s)) (orLits rest)

/-- `Or(Leaf(kw) for kw in kws)`. -/
def orLeafs : List String → PE
  | [] => .failP
  | [s] => .leafLit (cs s)
  | s :: rest => .longestOf (.leafLit (cs s)) (orLeafs rest)

/-! ## The grammar (`grammar.py`) -/

/-- `MAX_IDENTIFIER_LENGTH = 63`. -/
def MAX_IDENTIFIER_LENGTH : Nat := 63

/-- `ReservedKeyword.KEYWORDS`. -/
def KEYWORDS : List String :=
  ["arguments", "break", "case", "catch", "classdef", "continue",
   "else", "elseif", "end", "for", "function", "global", "if",
   "otherwise", "parfor", "persistent", "return", "spmd", "switch",
   "try", "while"]

/-- `ReservedKeyword`: `Or(Literal(s) for s in KEYWORDS)`. -/
def reservedKeyword : PE := orLits KEYWORDS

/-- `ws = OneOrMore(White(" \t\n") | Literal("...")).parse_with_tabs()`
with `join_tokens`. -/
def wsPE : PE :=
  .act .join (.repMin 1 (.firstOf (.white .wsSTN) (.lit (cs "..."))))

/-- `ows = Opt(ws, default="")`. -/
def owsPE : PE := .opt wsPE (.withDef (.str []))

/-- `operator`: the `Or` over the binary operator literals. -/
def operatorPE : PE :=
  orLits ["+", "-", "*", ".*", "/", "./", "^", ".^", "\\", "==", "~=",
          ">", ">=", "<", "<=", "&", "&&", "|", "||", ":"]

/-- `identifier = ~ReservedKeyword() + Word(alphas, alphanums + "_.",
max=MAX_IDENTIFIER_LENGTH, min=1)`. -/
def identifierPE : PE :=
  .seq (.notAny reservedKeyword)
    (.wordCl .alpha .alnumDotU (some MAX_IDENTIFIER_LENGTH))

/-- `comment = Literal("%") + rest_of_line`, wrapped into
`model.Comment` by `parse_actions`. -/
def commentPE : PE :=
  .act (.wrap .commentK) (.seq (.lit (cs "%")) .restOfLine)

/-- `construct_delimiter`: `(PrecededBy(";") + Word(" \t\n"))
| Opt(Word(" \t"), default="") + Char("\n") + Opt(Word(" \t\n"), default="")
| Opt(Word(" \t"), default="") + FollowedBy(comment)
| line_end`, with `join_tokens`. -/
def constructDelimiter : PE :=
  .act .join
    (.firstOf (.seq .precededBySemi (.wordCl .wsSTN .wsSTN Option.none))
      (.firstOf
        (.seq
          (.seq (.opt (.wordCl .wsST .wsST Option.none) (.withDef (.str [])))
            (.charCl .nl))
          (.opt (.wordCl .wsSTN .wsSTN Option.none) (.withDef (.str []))))
        (.firstOf
          (.seq (.opt (.wordCl .wsST .wsST Option.none) (.withDef (.str [])))
            (.followedBy commentPE))
          .lineEnd)))

/-- `string`: double- or single-quoted with doubled-quote escapes,
`unquote_results=False`. -/
def stringPE : PE := .firstOf (.quoted '"') (.quoted '\'')

/-- The grammar's `DelimitedList(expr, delimiter, min_elements,
optional_delimiter)` ParserElement: `delimiter := ows + delimiter + ows`
(or-else `ws` when `optional_delimiter`), joined into one token;
`parser = (expr + delimiter + FollowedBy(expr))[max(min_elements-1,0), ...]
+ expr`, or-else `empty` when `min_elements == 0`; the tokens are wrapped
into `model.DelimitedList` by `parseImpl`. -/
def dlPE (expr delim : PE) (minElements : Nat) (optionalDelimiter : Bool) : PE :=
  let d0 := PE.seq (.seq owsPE delim) owsPE
  let d := PE.act .join (if optionalDelimiter then .firstOf d0 wsPE else d0)
  let core := PE.seq
    (.repMin (minElements - 1) (.seq (.seq expr d) (.followedBy expr))) expr
  .act (.wrap .delimitedList)
    (if minElements = 0 then .firstOf core .emptyNoTok else core)

/-- `parenthesized(content, brackets, optional)`: `Or` of
`open + ows + content + ows + close` over the bracket pairs, or-else
`nothing(2) + content + nothing(2)` when `optional`; wrapped into
`model.Parenthesized`. -/
def bracketedPE (content : PE) (o c : String) : PE :=
  .seq (.seq (.seq (.seq (.lit (cs o)) owsPE) content) owsPE) (.lit (cs c))

def orBracketsPE (content : PE) : List (String × String) → PE
  | [] => .failP
  | [(o, c)] => bracketedPE content o c
  | (o, c) :: rest => .longestOf (bracketedPE content o c) (orBracketsPE content rest)

def parenthesizedPE (content : PE) (brackets : List (String × String))
    (optional : Bool) : PE :=
  let withPar := orBracketsPE content brackets
  let inner := if optional
    then PE.firstOf withPar (.seq (.seq (.emptyToks 2) content) (.emptyToks 2))
    else withPar
  .act (.wrap .parenthesizedK) inner

/-- How a `Block`'s `end` parameter is set. -/
inductive BlockEnd where
  | required
  | optionalEnd
  | noEnd
  deriving DecidableEq, Repr

/-- The grammar's `Block` ParserElement:
`Literal(name) + ws + head + ows + content + end_element` where a missing
head is `nothing()` and
`end_element = ws + Leaf("end") + Opt(ows + Literal(";"), default=None)`
(with the `None → ["", ""]` action), or-else / replaced-by `nothing(2)`
when the terminator is optional / suppressed. -/
def blockPE (name : String) (content : PE) (head : Option PE)
    (e : BlockEnd) : PE :=
  let headPE := head.getD (.emptyToks 1)
  let endBase := PE.seq (.seq wsPE (.leafLit (cs "end")))
    (.act .noneTo2 (.opt (.seq owsPE (.lit (cs ";"))) (.withDef .none)))
  let endElement := match e with
    | .required => endBase
    | .optionalEnd => .firstOf endBase (.emptyToks 2)
    | .noEnd => .emptyToks 2
  .seq (.seq (.seq (.seq (.seq (.lit (cs name)) wsPE) headPE) owsPE) content)
    endElement

/-- `space_delimited_list(expr, allow_empty)` =
`ZeroOrMore(expr + ws + FollowedBy(expr)) + expr` (or-else `empty`). -/
def spaceDelimitedList (expr : PE) (allowEmpty : Bool) : PE :=
  let core := PE.seq (.repMin 0 (.seq (.seq expr wsPE) (.followedBy expr))) expr
  if allowEmpty then .firstOf core .emptyNoTok else core

/-- `ows_delimited_list(expr, allow_empty)` =
`ZeroOrMore(expr + construct_delimiter + FollowedBy(expr)) + expr`
(or-else `empty`). -/
def owsDelimitedList (expr : PE) (allowEmpty : Bool) : PE :=
  let core := PE.seq
    (.repMin 0 (.seq (.seq expr constructDelimiter) (.followedBy expr))) expr
  if allowEmpty then .firstOf core .emptyNoTok else core

/-- `array`: bracket/brace-delimited element list with `,`/`;` delimiters
and whitespace as an optional implicit delimiter; wrapped into
`model.Array`. -/
def arrayPE : PE :=
  .act (.wrap .arrayK)
    (parenthesizedPE
      (dlPE (.ref .expressionR) (.firstOf (.lit (cs ",")) (.lit (cs ";"))) 0 true)
      [("[", "]"), ("\x7b", "\x7d")] false)

/-- `output_arguments = parenthesized(DelimitedList(call), brackets=[],
optional=True) + ows + Literal("=") + ows`, wrapped into
`model.OutputArguments`. -/
def outputArgumentsPE : PE :=
  .act (.wrap .outputArguments)
    (.seq
      (.seq
        (.seq (parenthesizedPE (dlPE (.ref .callR) (.lit (cs ",")) 1 false)
          [("[", "]")] true) owsPE)
        (.lit (cs "=")))
      owsPE)

/-- `arguments_list = parenthesized(DelimitedList(expression | ":",
min_elements=0), brackets=(("(", ")"), ("\x7b", "\x7d")))`, wrapped into
`model.ArgumentsList`. -/
def argumentsListPE : PE :=
  .act (.wrap .argumentsList)
    (parenthesizedPE
      (dlPE (.firstOf (.ref .expressionR) (.lit (cs ":"))) (.lit (cs ",")) 0 false)
      [("(", ")"), ("\x7b", "\x7d")] false)

/-- `call << (identifier + or_none(arguments_list[1, ...]))`, wrapped into
`model.Call`. -/
def callPE : PE :=
  .act (.wrap .callK)
    (.seq identifierPE (.opt (.repMin 1 argumentsListPE) (.withDef .none)))

/-- `anonymous_function = Literal("@") + ows + or_none(arguments_list) +
ows + expression`, wrapped into `model.AnonymousFunction`. -/
def anonymousFunctionPE : PE :=
  .act (.wrap .anonymousFunction)
    (.seq
      (.seq (.seq (.seq (.lit (cs "@")) owsPE)
        (.opt argumentsListPE (.withDef .none))) owsPE)
      (.ref .expressionR))

/-- `operand_atom << (call | common.number | string | array |
anonymous_function | parenthesized(operand) | parenthesized(operation))`. -/
def operandAtomPE : PE :=
  .firstOf (.ref .callR)
    (.firstOf .pyNumber
      (.firstOf stringPE
        (.firstOf arrayPE
          (.firstOf anonymousFunctionPE
            (.firstOf (parenthesizedPE (.ref .operandR) [("(", ")")] false)
              (parenthesizedPE (.ref .operationR) [("(", ")")] false))))))

/-- `left_operation = (Literal("-") | Literal("~")) + operand_atom`. -/
def leftOperationPE : PE :=
  .seq (.firstOf (.lit (cs "-")) (.lit (cs "~"))) (.ref .operandAtomR)

/-- `right_operation = operand_atom + (Literal("'") | Literal(".'"))`. -/
def rightOperationPE : PE :=
  .seq (.ref .operandAtomR) (.firstOf (.lit (cs "'")) (.lit (cs ".'")))

/-- `single_element_operation = left_operation | right_operation`, wrapped
into `model.SingleElementOperation`. -/
def singleElementOperationPE : PE :=
  .act (.wrap .singleElementOperation) (.firstOf leftOperationPE rightOperationPE)

/-- `operand << (single_element_operation | operand_atom |
parenthesized(operand) | parenthesized(operation))`. -/
def operandPE : PE :=
  .firstOf singleElementOperationPE
    (.firstOf (.ref .operandAtomR)
      (.firstOf (parenthesizedPE (.ref .operandR) [("(", ")")] false)
        (parenthesizedPE (.ref .operationR) [("(", ")")] false)))

/-- `operation << DelimitedList(operand, delimiter=operator,
min_elements=2)`, wrapped into `model.Operation`. -/
def operationPE : PE :=
  .act (.wrap .operation) (dlPE (.ref .operandR) operatorPE 2 false)

/-- `expression << (operation | operand)`. -/
def expressionPE : PE := .firstOf (.ref .operationR) (.ref .operandR)

/-- `keyword = Or(Leaf(kw) for kw in ["return", "break", "continue"])`. -/
def keywordPE : PE := orLeafs ["return", "break", "continue"]

/-- `statement_core = (expression | keyword) + Opt(ows +
FollowedBy(Literal(";")), default="") + Opt(Literal(";"), default="")`. -/
def statementCorePE : PE :=
  .seq
    (.seq (.firstOf (.ref .expressionR) keywordPE)
      (.opt (.seq owsPE (.followedBy (.lit (cs ";")))) (.withDef (.str []))))
    (.opt (.lit (cs ";")) (.withDef (.str [])))

/-- `no_output_statement = nothing(1) + statement_core`, wrapped into
`model.Statement`. -/
def noOutputStatementPE : PE :=
  .act (.wrap .statementK) (.seq (.emptyToks 1) statementCorePE)

/-- `output_statement = output_arguments + statement_core`, wrapped into
`model.Statement`. -/
def outputStatementPE : PE :=
  .act (.wrap .statementK) (.seq outputArgumentsPE statementCorePE)

/-- `statement = output_statement | no_output_statement`. -/
def statementPE : PE := .firstOf outputStatementPE noOutputStatementPE

/-- `elseif_block_part = Leaf("elseif") + ws + no_output_statement + ws +
code`. -/
def elseifBlockPartPE : PE :=
  .seq
    (.seq (.seq (.seq (.leafLit (cs "elseif")) wsPE) noOutputStatementPE) wsPE)
    (.ref .codeR)

/-- `else_block_part = Leaf("else") + ws + code`. -/
def elseBlockPartPE : PE :=
  .seq (.seq (.leafLit (cs "else")) wsPE) (.ref .codeR)

/-- `if_block`: `Block("if", head=no_output_statement, content=code +
ZeroOrMore(ws + elseif_block_part) + Opt(ws + else_block_part))`, wrapped
into `model.If`. -/
def ifBlockPE : PE :=
  .act (.wrap .ifK)
    (blockPE "if"
      (.seq
        (.seq (.ref .codeR) (.repMin 0 (.seq wsPE elseifBlockPartPE)))
        (.opt (.seq wsPE elseBlockPartPE) .noDef))
      (some noOutputStatementPE) .required)

/-- `for_loop`: `Block("for", head=output_statement, content=code)`,
wrapped into `model.ForLoop`. -/
def forLoopPE : PE :=
  .act (.wrap .forLoop)
    (blockPE "for" (.ref .codeR) (some outputStatementPE) .required)

/-- `while_loop`: `Block("while", head=no_output_statement,
content=code)`, wrapped into `model.WhileLoop` (modelled from the spec:
`WhileLoop` is a `Block` subtype absent from `model.py`). -/
def whileLoopPE : PE :=
  .act (.wrap .whileLoop)
    (blockPE "while" (.ref .codeR) (some noOutputStatementPE) .required)

/-- `function`: `Block("function", head=statement, content=code,
end="optional")`, wrapped into `model.Function`. -/
def functionPE : PE :=
  .act (.wrap .functionK)
    (blockPE "function" (.ref .codeR) (some statementPE) .optionalEnd)

/-- `catch = Literal("catch") + Opt(White(" \t") + statement_core,
default=None)` (with the `None → ["", ""]` action) `+ ws + code`. -/
def catchPE : PE :=
  .seq
    (.seq
      (.seq (.lit (cs "catch"))
        (.act .noneTo2 (.opt (.seq (.white .wsST) statementCorePE) (.withDef .none))))
      wsPE)
    (.ref .codeR)

/-- `try_catch`: `Block("try", content=code + or_none(ws + catch))`,
wrapped into `model.TryCatch`. -/
def tryCatchPE : PE :=
  .act (.wrap .tryCatch)
    (blockPE "try"
      (.seq (.ref .codeR) (.opt (.seq wsPE catchPE) (.withDef .none)))
      Option.none .required)

/-- `switch_case`: `Block("case", head=no_output_statement, content=code,
end=False)`, wrapped into `model.Case` (modelled from the spec: `Case` is
a `Block` subtype absent from `model.py`). -/
def switchCasePE : PE :=
  .act (.wrap .caseK)
    (blockPE "case" (.ref .codeR) (some noOutputStatementPE) .noEnd)

/-- `switch_otherwise`: `Block("otherwise", content=code, end=False)`,
also wrapped into `model.Case`. -/
def switchOtherwisePE : PE :=
  .act (.wrap .caseK) (blockPE "otherwise" (.ref .codeR) Option.none .noEnd)

/-- `switch`: `Block("switch", head=no_output_statement,
content=ows_delimited_list(switch_case | switch_otherwise,
allow_empty=True))`, wrapped into `model.Switch` (modelled from the
spec: `Switch` is a `Block` subtype absent from `model.py`). -/
def switchPE : PE :=
  .act (.wrap .switchK)
    (blockPE "switch"
      (owsDelimitedList (.firstOf switchCasePE switchOtherwisePE) true)
      (some noOutputStatementPE) .required)

/-- `command = space_delimited_list(identifier) +
FollowedBy(construct_delimiter)`, wrapped into `model.Command` (modelled
from the spec: the command/directive construct absent from `model.py`). -/
def commandPE : PE :=
  .act (.wrap .commandK)
    (.seq (spaceDelimitedList identifierPE false) (.followedBy constructDelimiter))

/-- `code << ows_delimited_list(command | statement | comment | if_block |
for_loop | while_loop | function | try_catch | switch,
allow_empty=True)`, wrapped into `model.Code`. -/
def codePE : PE :=
  .act (.wrap .code)
    (owsDelimitedList
      (.firstOf commandPE
        (.firstOf statementPE
          (.firstOf commentPE
            (.firstOf ifBlockPE
              (.firstOf forLoopPE
                (.firstOf whileLoopPE
                  (.firstOf functionPE
                    (.firstOf tryCatchPE switchPE))))))))
      true)

/-- `file = ows + code + ows`, wrapped into `model.File`. -/
def filePE : PE :=
  .act (.wrap .file) (.seq (.seq owsPE (.ref .codeR)) owsPE)

/-- Resolution of the grammar's `Forward` references. -/
def rules : RuleId → PE
  | .expressionR => expressionPE
  | .operationR => operationPE
  | .operandR => operandPE
  | .operandAtomR => operandAtomPE
  | .callR => callPE
  | .codeR => codePE

/-! ## The interpreter

`runPE fuel p s i` runs the ParserElement `p` on `s` at position `i`.
Failure (`pyparsing.ParseException`, which unwinds the position) is
`none`; success carries the new position, the produced token list, and
the `exact` flag.  The fuel only bounds recursion depth (pyparsing
recurses without bound, which on the grammar's inputs terminates because
every cycle through a `Forward` consumes input); all theorems about
accepted inputs quantify over the fuel. -/

/-- `["", ""] if toks[0] is None else toks` (the list is never empty at
the two places this action is attached, both are `Opt` with a default). -/
def applyAct : Act → List Tok → List Tok
  | .join, ts => [.str (toksText ts)]
  | .wrap k, ts => [.node k ts]
  | .noneTo2, ts =>
    match ts with
    | .none :: _ => [.str [], .str []]
    | _ => ts

def runPE : Nat → PE → List Char → Nat → Option (Nat × List Tok × Bool)
  | 0, _, _, _ => Option.none
  | fuel + 1, p, s, i =>
    match p with
    | .failP => Option.none
    | .lit l =>
      if litHere s i l then some (i + l.length, [.str l], true) else Option.none
    | .leafLit l =>
      if litHere s i l then some (i + l.length, [.leaf l], true) else Option.none
    | .charCl cc =>
      match charAt s i with
      | some c => if ccMem cc c then some (i + 1, [.str [c]], true) else Option.none
      | Option.none => Option.none
    | .wordCl init body mx =>
      match charAt s i with
      | some c =>
        if ccMem init c then
          let bound := match mx with
            | some m => m - 1
            | Option.none => s.length
          let r := min (runLen (ccMem body) s (i + 1)) bound
          some (i + 1 + r, [.str (slice s i (i + 1 + r))], true)
        else Option.none
      | Option.none => Option.none
    | .white cc =>
      let k := runLen (whiteSkip cc) s i
      let i0 := i + k
      match charAt s i0 with
      | some c =>
        if ccMem cc c then
          let r := runLen (ccMem cc) s i0
          some (i0 + r, [.str (slice s i0 (i0 + r))], k == 0)
        else Option.none
      | Option.none => Option.none
    | .emptyToks n => some (i, List.replicate n (.str []), true)
    | .emptyNoTok => some (i, [], true)
    | .lineEnd =>
      let k := runLen isLineEndSkip s i
      let i0 := i + k
      if i0 < s.length then
        if charAt s i0 = some '\n' then some (i0 + 1, [.str ['\n']], k == 0)
        else Option.none
      else if i0 = s.length then some (i0 + 1, [], k == 0)
      else Option.none
    | .restOfLine =>
      let r := runLen (fun c => !(c == '\n')) s i
      some (i + r, [.str (slice s i (i + r))], true)
    | .quoted q => runQuoted q s i
    | .pyNumber => runNumber s i
    | .precededBySemi =>
      if i = 0 then Option.none
      else if charAt s (i - 1) = some ';' then some (i, [], true)
      else Option.none
    | .seq a b =>
      match runPE fuel a s i with
      | some (j, ta, fa) =>
        match runPE fuel b s j with
        | some (k, tb, fb) => some (k, ta ++ tb, fa && fb)
        | Option.none => Option.none
      | Option.none => Option.none
    | .firstOf a b =>
      match runPE fuel a s i with
      | some r => some r
      | Option.none => runPE fuel b s i
    | .longestOf a b =>
      match runPE fuel a s i, runPE fuel b s i with
      | some (ja, ta, fa), some (jb, tb, fb) =>
        if ja < jb then some (jb, tb, fb) else some (ja, ta, fa)
      | some r, Option.none => some r
      | Option.none, some r => some r
      | Option.none, Option.none => Option.none
    | .opt p d =>
      match runPE fuel p s i with
      | some r => some r
      | Option.none =>
        match d with
        | .noDef => some (i, [], true)
        | .withDef t => some (i, [t], true)
    | .repMin m p =>
      match runPE fuel p s i with
      | Option.none => if m = 0 then some (i, [], true) else Option.none
      | some (j, t, f) =>
        match runPE fuel (.repMin (m - 1) p) s j with
        | some (k, t2, f2) => some (k, t ++ t2, f && f2)
        | Option.none => Option.none
    | .followedBy p =>
      match runPE fuel p s i with
      | some _ => some (i, [], true)
      | Option.none => Option.none
    | .notAny p =>
      match runPE fuel p s i with
      | some _ => Option.none
      | Option.none => some (i, [], true)
    | .act a p =>
      match runPE fuel p s i with
      | some (j, t, f) => some (j, applyAct a t, f)
      | Option.none => Option.none
    | .ref r => runPE fuel (rules r) s i

/-! ## The parse entry point (`grammar.parse_string`)

`parse_string` first expands tabs (the `file` element was never given
`parse_with_tabs`), then parses from position 0 and, for
`parse_all=True`, requires the end position to have reached the end of
the input (`Empty() + StringEnd()`, where the `Empty()` created after
`setDefaultWhitespaceChars("")` skips nothing).  The result is
`parse_result[0]`, the `model.File` node. -/

/-- Python `str.expandtabs()` (tab size 8; the column resets after
carriage return and newline). -/
def expandTabs (s : List Char) : List Char :=
  go s 0
where
  go : List Char → Nat → List Char
    | [], _ => []
    | c :: rest, col =>
      if c = '\t' then
        let n := 8 - col % 8
        List.replicate n ' ' ++ go rest (col + n)
      else if c = '\n' || c = '\r' then c :: go rest 0
      else c :: go rest (col + 1)

/-- The whole run of `grammar.parse_string`: end position, token list and
exactness flag of the `file` element on the tab-expanded input, when the
parse succeeds and consumes everything. -/
def parseRun (fuel : Nat) (s : List Char) : Option (List Tok × Bool) :=
  let t := expandTabs s
  match runPE fuel filePE t 0 with
  | some (j, toks, ex) => if t.length ≤ j then some (toks, ex) else Option.none
  | Option.none => Option.none

/-- `grammar.parse_string(s)`: the `model.File` tree. -/
def parseString (fuel : Nat) (s : List Char) : Option Tok :=
  match parseRun fuel s with
  | some (toks, _) => toks.get? 0
  | Option.none => Option.none

/-- `str(parse_string(s))`: parse and serialize back. -/
def parseSerialize (fuel : Nat) (s : List Char) : Option (List Char) :=
  match parseString fuel s with
  | some t => some (tokText t)
  | Option.none => Option.none

/-! ## The CST model (`model.py`)

The class hierarchy, as far as the formatter dispatches on it.
`model.py` defines `ElementsList` subclasses `ArgumentsList`,
`OutputArguments`, `Array`; `Block` subclasses `Function`, `If`,
`ForLoop`, `TryCatch`; `Construct` mixed into `Comment`, `Statement` and
`Block`.  `WhileLoop`, `Switch`, `Case` and `Command` are modelled from
the spec (Block subtypes and the standalone command construct; the
spec's `Code` sequence holds statements, comments, blocks and commands,
so `Command` is a standalone `Construct` like the others). -/

def elementsListKinds : List Kind := [.argumentsList, .outputArguments, .arrayK]

def blockKinds : List Kind :=
  [.functionK, .ifK, .forLoop, .whileLoop, .tryCatch, .switchK, .caseK]

def constructKinds : List Kind :=
  [.statementK, .commentK, .commandK] ++ blockKinds

def isElementsListTok : Tok → Bool
  | .node k _ => elementsListKinds.contains k
  | _ => false

def isBlockTok : Tok → Bool
  | .node k _ => blockKinds.contains k
  | _ => false

def isConstructTok : Tok → Bool
  | .node k _ => constructKinds.contains k
  | _ => false

def isCommentTok : Tok → Bool
  | .node k _ => k == .commentK
  | _ => false

/-- Python child access `parent[i]`.  Every index the formatter uses is
in range on the trees the grammar produces (out of range would raise
`IndexError` in the source); the default only makes the function total. -/
def getC (ch : List Tok) (i : Nat) : Tok := ch.getD i .none

/-- Negative Python index `parent[-n]`. -/
def getNeg (ch : List Tok) (n : Nat) : Tok := getC ch (ch.length - n)

def setC (ch : List Tok) (i : Nat) (v : Tok) : List Tok := ch.set i v

def setNeg (ch : List Tok) (n : Nat) (v : Tok) : List Tok :=
  ch.set (ch.length - n) v

/-- `Component.predecessor_index`: `own_index - 1` if `own_index > 0`,
else (implicitly) `None`. -/
def predecessorIndex (ownIndex : Nat) : Option Nat :=
  if 0 < ownIndex then some (ownIndex - 1) else Option.none

/-- `Component.predecessor` (the getter): `if index :=
self.predecessor_index: return self.parent[index]` — the walrus
truthiness treats index `0` like `None`, so the second child reports no
predecessor. -/
def predecessor (ch : List Tok) (ownIndex : Nat) : Option Tok :=
  match predecessorIndex ownIndex with
  | some index => if index = 0 then Option.none else some (getC ch index)
  | Option.none => Option.none

/-- `type(a) == type(b)` on tree children. -/
def sameType : Tok → Tok → Bool
  | .str _, .str _ => true
  | .none, .none => true
  | .intTok _, .intTok _ => true
  | .floatTok _, .floatTok _ => true
  | .leaf _, .leaf _ => true
  | .node k1 _, .node k2 _ => k1 == k2
  | _, _ => false

mutual

/-- Deep structural equality, as `Composite.__eq__` / `Leaf.__eq__`:
equal concrete type, equal length, pairwise equal children. -/
def tokBeq : Tok → Tok → Bool
  | .str a, .str b => a == b
  | .none, .none => true
  | .intTok a, .intTok b => a == b
  | .floatTok a, .floatTok b => a == b
  | .leaf a, .leaf b => a == b
  | .node k1 c1, .node k2 c2 => k1 == k2 && toksBeq c1 c2
  | _, _ => false

def toksBeq : List Tok → List Tok → Bool
  | [], [] => true
  | a :: as', b :: bs' => tokBeq a b && toksBeq as' bs'
  | _, _ => false

end

/-! ## The formatter (`formatter.py`)

Each pass is a pure tree transformation.  `iterate`/`iterate_with_indent`
are pre-order generators and the passes overwrite string slots while the
traversal continues into the unchanged `Composite` structure.  A pass
that rewrites slots of a visited node and also descends is implemented
as: transform the children recursively, then apply the node's own slot
rewrites (the two orders coincide because a node's own rewrites and its
descendants' rewrites touch disjoint slots). -/

/-- `INDENT = 4 * " "`, and Python's `level * INDENT` (empty for a
negative level). -/
def indentOf (lvl : Int) : List Char := List.replicate (4 * lvl).toNat ' '

/-- `token.strip(" \n\t.")`. -/
def isStripSet (c : Char) : Bool :=
  c == ' ' || c == '\n' || c == '\t' || c == '.'

def stripBoth (bad : Char → Bool) (v : List Char) : List Char :=
  ((v.dropWhile bad).reverse.dropWhile bad).reverse

/-- `s.rstrip(" ")`. -/
def rstripSpaces (v : List Char) : List Char :=
  (v.reverse.dropWhile (· == ' ')).reverse

/-- `s.endswith("\n")`. -/
def endsWithNl (v : List Char) : Bool := v.getLast? == some '\n'

/-- `s.count("\n")`. -/
def countNl (v : List Char) : Nat := v.countP (· == '\n')

/-- `element.elements_list` = `element.children[0].content` =
`children[0].children[2]` for the `ElementsList` subclasses, together
with writing it back.  (A shape other than a composite inside a
composite would crash the source with an attribute error; the grammar
always places a `Parenthesized` wrapping a `DelimitedList` there.) -/
def mapElementsList (f : List Tok → List Tok) (ch : List Tok) : List Tok :=
  match getC ch 0 with
  | .node pk pch =>
    match getC pch 2 with
    | .node dk dch => setC ch 0 (.node pk (setC pch 2 (.node dk (f dch))))
    | _ => ch
  | _ => ch

/-- Rewrite one slot of an elements list: at odd indices,
`token.strip(" \n\t.") + " "`, with one leading space when the iterated
element is a `model.Operation`.  `normalize_whitespace_in_arguments_list`
iterates `types=[model.ElementsList]` and `Operation` is not an
`ElementsList` subclass, so the `isinstance(element, model.Operation)`
branch is dead code; it is kept here on the element's kind. -/
def delimSpace (elementKind : Kind) (i : Nat) (t : Tok) : Tok :=
  if i % 2 = 0 then t
  else
    match t with
    | .str v =>
      let v1 := stripBoth isStripSet v ++ [' ']
      .str (if elementKind == .operation then ' ' :: v1 else v1)
    | _ => t

def delimSpaceList (elementKind : Kind) (i : Nat) : List Tok → List Tok
  | [] => []
  | t :: rest => delimSpace elementKind i t :: delimSpaceList elementKind (i + 1) rest

mutual

/-- Pass 1, `normalize_whitespace_in_arguments_list`. -/
def normWsArgs : Tok → Tok
  | .node k ch =>
    let ch1 := normWsArgsList ch
    if elementsListKinds.contains k then
      .node k (mapElementsList (delimSpaceList k 0) ch1)
    else .node k ch1
  | t => t

def normWsArgsList : List Tok → List Tok
  | [] => []
  | c :: rest => normWsArgs c :: normWsArgsList rest

end

mutual

/-- Pass 2, `normalize_whitespace_in_parenthesized`: clear children 1
and 3 of every `Parenthesized`. -/
def normWsParen : Tok → Tok
  | .node k ch =>
    let ch1 := normWsParenList ch
    if k == .parenthesizedK then
      .node k (setC (setC ch1 1 (.str [])) 3 (.str []))
    else .node k ch1
  | t => t

def normWsParenList : List Tok → List Tok
  | [] => []
  | c :: rest => normWsParen c :: normWsParenList rest

end

mutual

/-- Pass 3, `normalize_whitespace_in_assignment`: children 1 and 3 of
every `OutputArguments` become a single space. -/
def normWsAssign : Tok → Tok
  | .node k ch =>
    let ch1 := normWsAssignList ch
    if k == .outputArguments then
      .node k (setC (setC ch1 1 (.str [' '])) 3 (.str [' ']))
    else .node k ch1
  | t => t

def normWsAssignList : List Tok → List Tok
  | [] => []
  | c :: rest => normWsAssign c :: normWsAssignList rest

end

mutual

/-- Pass 4, `remove_semicolon_after_end_keyword`: for every `Block`, if
`children[-1] == ";"` clear it. -/
def rmSemiAfterEnd : Tok → Tok
  | .node k ch =>
    let ch1 := rmSemiAfterEndList ch
    if blockKinds.contains k && tokBeq (getNeg ch1 1) (.str [';']) then
      .node k (setNeg ch1 1 (.str []))
    else .node k ch1
  | t => t

def rmSemiAfterEndList : List Tok → List Tok
  | [] => []
  | c :: rest => rmSemiAfterEnd c :: rmSemiAfterEndList rest

end

mutual

/-- Pass 5, `remove_semicolon_after_if_condition`: for every `If`, if
the head's `children[-1] == ";"` clear it. -/
def rmSemiAfterIfCond : Tok → Tok
  | .node k ch =>
    let ch1 := rmSemiAfterIfCondList ch
    if k == .ifK then
      match getC ch1 2 with
      | .node hk hch =>
        if tokBeq (getNeg hch 1) (.str [';']) then
          .node k (setC ch1 2 (.node hk (setNeg hch 1 (.str []))))
        else .node k ch1
      | _ => .node k ch1
    else .node k ch1
  | t => t

def rmSemiAfterIfCondList : List Tok → List Tok
  | [] => []
  | c :: rest => rmSemiAfterIfCond c :: rmSemiAfterIfCondList rest

end

mutual

/-- Pass 6 (run before pass 7 in `format_file`),
`remove_white_space_before_semicolon`: for every `Statement`, clear
`children[-2]` unless already empty. -/
def rmWsBeforeSemi : Tok → Tok
  | .node k ch =>
    let ch1 := rmWsBeforeSemiList ch
    if k == .statementK && !tokBeq (getNeg ch1 2) (.str []) then
      .node k (setNeg ch1 2 (.str []))
    else .node k ch1
  | t => t

def rmWsBeforeSemiList : List Tok → List Tok
  | [] => []
  | c :: rest => rmWsBeforeSemi c :: rmWsBeforeSemiList rest

end

mutual

/-- Pass 7, `remove_semicolon_after_keyword`: for every `Statement`
whose `children[-3]` is a `Leaf` over `return`/`break`/`continue`, clear
`children[-2]` and `children[-1]`. -/
def rmSemiAfterKeyword : Tok → Tok
  | .node k ch =>
    let ch1 := rmSemiAfterKeywordList ch
    if k == .statementK then
      match getNeg ch1 3 with
      | .leaf v =>
        if v == cs "return" || v == cs "break" || v == cs "continue" then
          .node k (setNeg (setNeg ch1 2 (.str [])) 1 (.str []))
        else .node k ch1
      | _ => .node k ch1
    else .node k ch1
  | t => t

def rmSemiAfterKeywordList : List Tok → List Tok
  | [] => []
  | c :: rest => rmSemiAfterKeyword c :: rmSemiAfterKeywordList rest

end

mutual

/-- Pass 9, `ensure_function_end`: for every `Function`, set
`children[5]` to a newline when empty and write the plain string `"end"`
into `children[6]` (replacing the `Leaf` when one is there). -/
def ensureFunctionEnd : Tok → Tok
  | .node k ch =>
    let ch1 := ensureFunctionEndList ch
    if k == .functionK then
      let ch2 := if tokBeq (getC ch1 5) (.str []) then setC ch1 5 (.str ['\n'])
        else ch1
      .node k (setC ch2 6 (.str (cs "end")))
    else .node k ch1
  | t => t

def ensureFunctionEndList : List Tok → List Tok
  | [] => []
  | c :: rest => ensureFunctionEnd c :: ensureFunctionEndList rest

end

/-- Pass 10, `normalize_leading_whitespace`: `file[0] = ""` (applied to
the file node only, no traversal). -/
def normLeading : Tok → Tok
  | .node k ch => .node k (setC ch 0 (.str []))
  | t => t

/-- Pass 11, `normalize_trailing_whitespace`: `file[2] = "\n"`. -/
def normTrailing : Tok → Tok
  | .node k ch => .node k (setC ch 2 (.str ['\n']))
  | t => t

/-! ### Pass 8, `normalize_indentation`

`iterate_with_indent` walks the tree pre-order carrying a nesting level:
the generic `Composite` passes its level through, a `Block` increments
it at child 4 (the body) and decrements it at child 5, and `If`
additionally drops one level at a `Leaf` starting with `"else"`
(restoring it after the clause) and at child `len-3` (the `end` leaf).

For every yielded element that is a `Construct` or an
`end`/`elseif`/`else` `Leaf` — except a block's own head and the
statement after an `elseif` leaf — the pass rewrites the whitespace
before it: the element's own predecessor slot when the (walrus-truthy)
`predecessor` getter finds one, else, when the *parent* has a
predecessor, that slot becomes `"\n" + indent`.  The rewrites of
distinct elements target distinct slots, and a parent-slot rewrite comes
from the parent's direct children only, so the sequential in-place
mutation is realized by a one-slot-lookbehind walk that returns the
demanded parent-predecessor value to the caller. -/

def tokIsNone : Tok → Bool
  | .none => true
  | _ => false

def startsWithElse : Tok → Bool
  | .leaf v => (cs "else").isPrefixOf v
  | _ => false

/-- One step of the level bookkeeping of `iterate_with_indent` for a
child at index `i` of an `n`-child node of kind `k`: the level the child
is yielded (and descended into) at, and the level for the following
siblings. -/
def stepLevel (k : Kind) (n : Nat) (i : Nat) (lvl : Int) (c : Tok) :
    Int × Int :=
  if k == .ifK then
    let l1 := if i = 4 then lvl + 1 else lvl
    let l2 := if startsWithElse c then l1 - 1 else l1
    let l3 := if i = n - 3 then l2 - 1 else l2
    (l3, if startsWithElse c then l3 + 1 else l3)
  else if blockKinds.contains k then
    let l1 := if i = 4 then lvl + 1 else lvl
    let l2 := if i = 5 then l1 - 1 else l1
    (l2, l2)
  else (lvl, lvl)

/-- Does `normalize_indentation` act on this yielded element?  The
element must be a `Construct` or an `end`/`elseif`/`else` `Leaf`, must
not be its block parent's head (same type and deep-equal to
`parent.head`), and must not sit two places after an `elseif` leaf. -/
def indentQualifies (k : Kind) (orig : List Tok) (i : Nat) (c : Tok) : Bool :=
  let trig := isConstructTok c ||
    (match c with
     | .leaf v => v == cs "end" || v == cs "elseif" || v == cs "else"
     | _ => false)
  let head := getC orig 2
  let isBlockHead := blockKinds.contains k && sameType head c && tokBeq head c
  let workaround := decide (1 < i) &&
    (match getC orig (i - 2) with
     | .leaf v => v == cs "elseif"
     | _ => false)
  trig && !isBlockHead && !workaround

/-- The own-predecessor rewrite: `new = pred.rstrip(" ")`, a newline
appended when missing, then the indent. -/
def indentRewrite (p : List Char) (yl : Int) : List Char :=
  let n1 := rstripSpaces p
  let n2 := if endsWithNl n1 then n1 else n1 ++ ['\n']
  n2 ++ indentOf yl

mutual

/-- Walk one subtree; `hasPred` says whether this node's own
`predecessor` getter finds a non-`None` slot (so that a qualifying
first/second child's `elif` branch fires); the returned option is the
demanded new value for that slot. -/
def indentWalk (t : Tok) (hasPred : Bool) (lvl : Int) :
    Tok × Option (List Char) :=
  match t with
  | .node k ch =>
    let r := indentGo k ch ch.length hasPred 0 lvl Option.none ch
    (.node k r.1, r.2)
  | t => (t, Option.none)

/-- Process the children left to right.  `prev` carries the processed
token for position `i - 1`, emitted once child `i` has had the chance to
rewrite that slot (its own-predecessor branch, or a demand coming up
from its direct children); a later demand for the parent slot overwrites
an earlier one, as the sequential setter calls do. -/
def indentGo (k : Kind) (orig : List Tok) (n : Nat) (hasPred : Bool)
    (i : Nat) (lvl : Int) (prev : Option Tok) :
    List Tok → List Tok × Option (List Char)
  | [] => (match prev with | some p => [p] | Option.none => [], Option.none)
  | c :: rest =>
    let yls := stepLevel k n i lvl c
    let q := indentQualifies k orig i c
    let predOkC := decide (2 ≤ i) && !tokIsNone (getC orig (i - 1))
    let prev1 : Option Tok :=
      if q && predOkC then
        match getC orig (i - 1) with
        | .str p => some (.str (indentRewrite p yls.1))
        | _ => prev
      else prev
    let w := indentWalk c predOkC yls.1
    let prev2 : Option Tok :=
      match w.2 with
      | some v => some (.str v)
      | Option.none => prev1
    let myDemand : Option (List Char) :=
      if q && !predOkC && hasPred then some ('\n' :: indentOf yls.1)
      else Option.none
    let r := indentGo k orig n hasPred (i + 1) yls.2 (some w.1) rest
    ((match prev2 with | some p => p :: r.1 | Option.none => r.1),
      match r.2 with
      | some d => some d
      | Option.none => myDemand)

end

/-- Pass 8, `normalize_indentation(file)`: the file node itself is never
yielded; its children start at level 0, and the file's own predecessor
does not exist (no qualifying element ever asks for it; the source would
raise `ValueError` if one did). -/
def normIndent (t : Tok) : Tok := (indentWalk t false 0).1

/-! ### Pass 12, `ensure_empty_line_before_comment`

For every `Comment` with a (walrus-truthy, non-`None`) predecessor slot
whose element two places back is not itself a `Comment`: when the slot
has fewer than two newlines, prepend one.  Each rewrite targets the slot
directly left of its comment, so the emitted value of position `j`
depends only on the original child at `j + 1`. -/
def commentTriggerAt (orig : List Tok) (j : Nat) : Bool :=
  isCommentTok (getC orig (j + 1)) && decide (1 ≤ j) &&
    !tokIsNone (getC orig j) &&
    (match getC orig j with
     | .str p => !isCommentTok (getC orig (j - 1)) && decide (countNl p < 2)
     | _ => false)

mutual

def ensureEmptyLineBeforeComment : Tok → Tok
  | .node k ch => .node k (commentGo ch 0 ch)
  | t => t

def commentGo (orig : List Tok) (j : Nat) : List Tok → List Tok
  | [] => []
  | c :: rest =>
    (if commentTriggerAt orig j then
      match getC orig j with
      | .str p => Tok.str ('\n' :: p)
      | _ => ensureEmptyLineBeforeComment c
     else ensureEmptyLineBeforeComment c) :: commentGo orig (j + 1) rest

end

/-! ### Pass 13, `break_arguments`

For a `Statement` yielded at level `lvl` whose serialized text plus one
extra indent exceeds the line limit and whose body is a `Call` with a
non-`None` arguments list: open the first argument list's bracket slot,
every delimiter slot and the closing slot with a continuation marker, a
newline and the appropriate indent.  Statements do not nest, so
rewriting a statement commutes with walking its descendants. -/
def breakDelims (innerIndent : List Char) (i : Nat) : List Tok → List Tok
  | [] => []
  | t :: rest =>
    (if i % 2 = 0 then t else Tok.str (cs ", ...\n" ++ innerIndent)) ::
      breakDelims innerIndent (i + 1) rest

def breakRewrite (maxLineLength : Nat) (lvl : Int) (ch : List Tok) :
    List Tok :=
  let innerIndent := indentOf (lvl + 1)
  let lineLength := (toksText ch).length + innerIndent.length
  if lineLength ≤ maxLineLength then ch
  else
    match getC ch 1 with
    | .node .callK cch =>
      let argsList := getC cch 1
      if tokIsNone argsList then ch
      else
        match argsList with
        | .node ak ach =>
          match getC ach 0 with
          | .node pk pch =>
            let outerIndent := indentOf lvl
            let pch1 := setC pch 1 (.str (cs " ...\n" ++ innerIndent))
            let pch2 :=
              match getC pch1 2 with
              | .node dk dch => setC pch1 2 (.node dk (breakDelims innerIndent 0 dch))
              | _ => pch1
            let pch3 := setC pch2 3 (.str (cs " ...\n" ++ outerIndent))
            setC ch 1 (.node .callK (setC cch 1 (.node ak (setC ach 0 (.node pk pch3)))))
          | _ => ch
        | _ => ch
    | _ => ch

mutual

def breakWalk (maxLineLength : Nat) (t : Tok) (lvl : Int) : Tok :=
  match t with
  | .node k ch => .node k (breakGo maxLineLength k ch.length 0 lvl ch)
  | t => t

def breakGo (maxLineLength : Nat) (k : Kind) (n : Nat) (i : Nat) (lvl : Int) :
    List Tok → List Tok
  | [] => []
  | c :: rest =>
    let yls := stepLevel k n i lvl c
    let c1 := breakWalk maxLineLength c yls.1
    let c2 :=
      match c1 with
      | .node .statementK sch =>
        Tok.node .statementK (breakRewrite maxLineLength yls.1 sch)
      | t => t
    c2 :: breakGo maxLineLength k n (i + 1) yls.2 rest

end

/-- `break_arguments(element, max_line_length=120)` from the file. -/
def breakArguments (t : Tok) : Tok := breakWalk 120 t 0

/-- `format_file`: the fixed pass pipeline, in source order. -/
def formatFile (t : Tok) : Tok :=
  breakArguments
    (ensureEmptyLineBeforeComment
      (normTrailing
        (normLeading
          (ensureFunctionEnd
            (normIndent
              (rmSemiAfterKeyword
                (rmWsBeforeSemi
                  (rmSemiAfterIfCond
                    (rmSemiAfterEnd
                      (normWsAssign
                        (normWsParen
                          (normWsArgs t))))))))))))

/-! `tokBeq` is propositional equality, giving decidable equality of
trees. -/

mutual

theorem tokBeq_eq : ∀ (a b : Tok), tokBeq a b = true → a = b
  | .str v, b => by cases b <;> simp [tokBeq]
  | .none, b => by cases b <;> simp [tokBeq]
  | .intTok n, b => by cases b <;> simp [tokBeq]
  | .floatTok v, b => by cases b <;> simp [tokBeq]
  | .leaf v, b => by cases b <;> simp [tokBeq]
  | .node k c, b => by
    cases b <;> simp [tokBeq]
    intro hk hc
    exact ⟨hk, toksBeq_eq c _ hc⟩

theorem toksBeq_eq : ∀ (a b : List Tok), toksBeq a b = true → a = b
  | [], b => by cases b <;> simp [toksBeq]
  | a :: as, b => by
    cases b with
    | nil => simp [toksBeq]
    | cons b bs =>
      simp only [toksBeq, Bool.and_eq_true, List.cons.injEq]
      exact fun h => ⟨tokBeq_eq a b h.1, toksBeq_eq as bs h.2⟩

end

mutual

theorem tokBeq_refl : ∀ (a : Tok), tokBeq a a = true
  | .str v => by simp [tokBeq]
  | .none => by simp [tokBeq]
  | .intTok n => by simp [tokBeq]
  | .floatTok v => by simp [tokBeq]
  | .leaf v => by simp [tokBeq]
  | .node k c => by simp [tokBeq, toksBeq_refl c]

theorem toksBeq_refl : ∀ (a : List Tok), toksBeq a a = true
  | [] => by simp [toksBeq]
  | a :: as => by simp [toksBeq, tokBeq_refl a, toksBeq_refl as]

end

theorem tokBeq_iff (a b : Tok) : tokBeq a b = true ↔ a = b :=
  ⟨tokBeq_eq a b, fun h => h ▸ tokBeq_refl a⟩

instance : DecidableEq Tok := fun a b =>
  if h : tokBeq a b = true then isTrue (tokBeq_eq a b h)
  else isFalse fun he => h (he ▸ tokBeq_refl a)

/-! ## Auxiliary observers used by the claims -/

/-- Follow a child-index path into a tree. -/
def childPath : Tok → List Nat → Option Tok
  | t, [] => some t
  | .node _ ch, i :: rest =>
    match ch.get? i with
    | some c => childPath c rest
    | Option.none => Option.none
  | _, _ :: _ => Option.none

mutual

/-- Every `DelimitedList` node in the tree has an odd number of
children. -/
def allDLOdd : Tok → Bool
  | .node k ch =>
    (if k == .delimitedList then ch.length % 2 == 1 else true) && allDLOddList ch
  | _ => true

def allDLOddList : List Tok → Bool
  | [] => true
  | c :: rest => allDLOdd c && allDLOddList rest

end

/-- Odd positions hold plain strings (the delimiters). -/
def oddAreStrs (ch : List Tok) : Bool := go 0 ch
where
  go : Nat → List Tok → Bool
    | _, [] => true
    | i, c :: rest =>
      (if i % 2 = 1 then (match c with | .str _ => true | _ => false) else true)
        && go (i + 1) rest

mutual

/-- The corrected `DelimitedList` shape: every such node is empty or has
an odd number of children, with plain strings at the odd (delimiter)
positions. -/
def dlShapeOk : Tok → Bool
  | .node k ch =>
    (if k == .delimitedList then
      (ch.length == 0 || ch.length % 2 == 1) && oddAreStrs ch
     else true) && dlShapeOkList ch
  | _ => true

def dlShapeOkList : List Tok → Bool
  | [] => true
  | c :: rest => dlShapeOk c && dlShapeOkList rest

end

/-- `identifier.parse_string(s, parse_all=True)` succeeds: the rule
matches from position 0 and the trailing `Empty() + StringEnd()` check
passes. -/
def identifierAccepts (fuel : Nat) (s : List Char) : Bool :=
  match runPE fuel identifierPE s 0 with
  | some (j, _, _) => s.length ≤ j
  | Option.none => false

/-- The class names `model.py` actually defines. -/
def modelDefinedClasses : List String :=
  ["Component", "Leaf", "Composite", "Construct", "ElementsList",
   "ArgumentsList", "OutputArguments", "Call", "Comment", "Operation",
   "ParenthesizedOperation", "Parenthesized", "Statement", "Code",
   "DelimitedList", "Block", "Function", "If", "ForLoop", "TryCatch",
   "File", "AnonymousFunction", "Array", "SingleElementOperation"]

/-- The `model` attributes `grammar.py`'s `parse_actions` table wires the
rules to, in source order. -/
def parseActionTargets : List String :=
  ["ArgumentsList", "Function", "If", "TryCatch", "ForLoop", "WhileLoop",
   "Call", "OutputArguments", "Comment", "Operation", "Statement",
   "Statement", "Code", "AnonymousFunction", "Array",
   "SingleElementOperation", "File", "Switch", "Case", "Case", "Command"]

/-- The `Block` subtypes the spec's data model lists. -/
def specBlockSubtypes : List String :=
  ["Function", "If", "ForLoop", "WhileLoop", "TryCatch", "Switch", "Case",
   "Classdef", "Methods"]

/-- The scenario input of the spec (`function y=f(x)\ny=x+1\nend`). -/
def c4Input : List Char := cs "function y=f(x)\ny=x+1\nend"

/-- The tree `parse_string` produces for `c4Input` (established by
`c4_parses_to_tree` inside the C4 theorems). -/
def c4Tree : Tok :=
  .node .file
    [.str [],
     .node .code
       [.node .functionK
         [.str (cs "function"), .str [' '],
          .node .statementK
            [.node .outputArguments
              [.node .parenthesizedK
                [.str [], .str [],
                 .node .delimitedList [.node .callK [.str ['y'], .none]],
                 .str [], .str []],
               .str [], .str ['='], .str []],
             .node .callK
               [.str ['f'],
                .node .argumentsList
                  [.node .parenthesizedK
                    [.str ['('], .str [],
                     .node .delimitedList [.node .callK [.str ['x'], .none]],
                     .str [], .str [')']]]],
             .str [], .str []],
          .str ['\n'],
          .node .code
            [.node .statementK
              [.node .outputArguments
                [.node .parenthesizedK
                  [.str [], .str [],
                   .node .delimitedList [.node .callK [.str ['y'], .none]],
                   .str [], .str []],
                 .str [], .str ['='], .str []],
               .node .operation
                 [.node .delimitedList
                   [.node .callK [.str ['x'], .none], .str ['+'], .intTok 1]],
               .str [], .str []]],
          .str ['\n'], .leaf (cs "end"), .str [], .str []]],
     .str []]

def kindOf : Tok → Option Kind
  | .node k _ => some k
  | _ => Option.none

def childCount : Tok → Option Nat
  | .node _ ch => some ch.length
  | _ => Option.none

/-! ## Claims -/

set_option maxHeartbeats 2000000

/-- C1 (counterexample): round-trip fidelity fails on the
grammar-accepted input `"07"`: `pyparsing.common.number`'s
`convert_to_integer` action replaces the matched literal by the Python
int `7`, so serializing the parsed tree yields `"7"`, dropping a byte. -/
theorem c1_roundtrip_counterexample :
    parseSerialize 1000 (cs "07") = some (cs "7") ∧ cs "7" ≠ cs "07" :=
  ⟨by decide, by decide⟩

/-- C2: the claim fails against `model.py` — the grammar's
`parse_actions` table constructs `model.WhileLoop`, `model.Switch`,
`model.Case` and `model.Command` instances, but none of these classes
(nor `Classdef`/`Methods`, which the spec also lists) is defined in
`model.py`; importing `grammar.py` raises `AttributeError` at the
`parse_actions` dict. -/
theorem c2_model_missing_kinds :
    (["WhileLoop", "Switch", "Case", "Command"].all
      (fun n => parseActionTargets.contains n && !modelDefinedClasses.contains n)) = true ∧
    (["Classdef", "Methods"].all
      (fun n => specBlockSubtypes.contains n && !modelDefinedClasses.contains n)) = true :=
  ⟨by decide, by decide⟩

/-- C4 (counterexample): formatting the scenario input does *not* yield
`"function y = f(x)\n\n    y = x + 1\nend\n"` — no pass inserts a blank
line after the signature, and the operator-spacing branch of pass 1
never runs (`Operation` is not an `ElementsList`), so `x+1` keeps its
spacing. -/
theorem c4_scenario_counterexample :
    (parseString 400 c4Input).map (fun t => tokText (formatFile t))
      ≠ some (cs "function y = f(x)\n\n    y = x + 1\nend\n") := by
  have h : parseString 400 c4Input = some c4Tree := by decide
  rw [h]
  simp only [Option.map_some']
  intro hc
  have := Option.some.inj hc
  revert this
  decide

/-- C4 (amended): the scenario input parses into a `File` holding one
`Function` whose head is a `Statement` made of an `OutputArguments`
clause plus a `Call` signature and whose body is a one-statement `Code`,
and formatting-then-serializing yields
`"function y = f(x)\n    y = x+1\nend\n"`. -/
theorem c4_scenario_actual :
    parseString 400 c4Input = some c4Tree ∧
    kindOf c4Tree = some .file ∧
    (childPath c4Tree [1, 0]).map kindOf = some (some .functionK) ∧
    (childPath c4Tree [1, 0, 2]).map kindOf = some (some .statementK) ∧
    (childPath c4Tree [1, 0, 2, 0]).map kindOf = some (some .outputArguments) ∧
    (childPath c4Tree [1, 0, 2, 1]).map kindOf = some (some .callK) ∧
    (childPath c4Tree [1, 0, 4]).map kindOf = some (some .code) ∧
    (childPath c4Tree [1, 0, 4]).map childCount = some (some 1) ∧
    (childPath c4Tree [1, 0, 4, 0]).map kindOf = some (some .statementK) ∧
    tokText (formatFile c4Tree) = cs "function y = f(x)\n    y = x+1\nend\n" :=
  ⟨by decide, by decide, by decide, by decide, by decide, by decide,
    by decide, by decide, by decide, by decide⟩

/-- C5: the first formatter pass never touches the operator slots of a
binary-operation list: `normalize_whitespace_in_arguments_list` iterates
`types=[model.ElementsList]` and `model.Operation` is not an
`ElementsList` subclass, so after the pass the operator slot of
`x = a  +  b` still reads `"  +  "` instead of the claimed `" + "`. -/
theorem c5_operator_spacing_not_applied :
    (parseString 400 (cs "x = a  +  b\n")).map
      (fun t => childPath (normWsArgs t) [1, 0, 1, 0, 1])
      = some (some (.str (cs "  +  "))) ∧ cs "  +  " ≠ cs " + " :=
  ⟨by decide, by decide⟩

/-- C6 (counterexample): the `DelimitedList` produced for the empty
argument list of `"f()"` has zero children, an even number, refuting the
claim that every parsed `DelimitedList` (including empty argument lists)
has odd length. -/
theorem c6_empty_list_counterexample :
    (parseString 400 (cs "f()")).map allDLOdd = some false := by decide

/-- C7 (counterexample): `ReservedKeyword` is a plain
`Or(Literal(...))` with no trailing negative lookahead, so a word with a
keyword as a proper prefix is rejected by the identifier rule: `"iff"`
(prefix `if`) and `"format"` (prefix `for`) do not parse as identifiers,
while `"abc"` does. -/
theorem c7_keyword_prefix_rejected :
    identifierAccepts 64 (cs "iff") = false ∧
    identifierAccepts 64 (cs "format") = false ∧
    identifierAccepts 64 (cs "abc") = true :=
  ⟨by decide, by decide, by decide⟩

/-- The tree `parse_string` produces for `"return ;"`. -/
def c8Tree : Tok :=
  .node .file
    [.str [],
     .node .code
       [.node .statementK
         [.str [], .leaf (cs "return"), .str [' '], .str [';']]],
     .str []]

/-- C8 (counterexample): formatting `"return ;"` yields `"return\n"`,
not the claimed `"return;\n"`: `remove_semicolon_after_keyword` clears
both the whitespace slot and the semicolon slot after a bare
`return`/`break`/`continue`. -/
theorem c8_semicolon_dropped_counterexample :
    (parseString 400 (cs "return ;")).map (fun t => tokText (formatFile t))
      = some (cs "return\n") ∧ cs "return\n" ≠ cs "return;\n" := by
  have h : parseString 400 (cs "return ;") = some c8Tree := by decide
  refine ⟨?_, by decide⟩
  rw [h]
  simp only [Option.map_some']
  decide

/-- C8 (amended): formatting a statement consisting of a bare `return`
followed by whitespace and a semicolon strips the whitespace *and drops
the semicolon*: both trailing slots of the statement end up empty and
`"return ;"` formats to `"return\n"`. -/
theorem c8_semicolon_dropped :
    parseString 400 (cs "return ;") = some c8Tree ∧
    formatFile c8Tree
      = .node .file
          [.str [],
           .node .code
             [.node .statementK [.str [], .leaf (cs "return"), .str [], .str []]],
           .str ['\n']] :=
  ⟨by decide, by decide⟩

/-- C10: `Component.predecessor` returns `None` for the second child of
any parent (its `predecessor_index` of `0` is falsy under the walrus
test), even though the parent has a first child, while a child at index
two or more gets the child at the preceding index. -/
theorem c10_predecessor_walrus_quirk (ch : List Tok) (i : Nat)
    (h2 : 2 ≤ ch.length) (hi : 2 ≤ i) (hlen : i < ch.length) :
    predecessor ch 1 = Option.none ∧ (ch.get? 0).isSome = true ∧
    predecessor ch i = some (getC ch (i - 1)) := by
  refine ⟨by simp [predecessor, predecessorIndex], ?_, ?_⟩
  · cases ch with
    | nil => simp at h2
    | cons a rest => simp
  · simp only [predecessor, predecessorIndex]
    have h0 : 0 < i := by omega
    have h1 : ¬(i - 1 = 0) := by omega
    simp [h0, h1]

/-- C10 (witness): the quirk at a concrete three-child parent. -/
theorem c10_predecessor_walrus_quirk_witness :
    2 ≤ ([Tok.str [], Tok.str ['a'], Tok.none] : List Tok).length ∧
    (predecessor [Tok.str [], Tok.str ['a'], Tok.none] 1 = Option.none ∧
      (([Tok.str [], Tok.str ['a'], Tok.none] : List Tok).get? 0).isSome = true ∧
      predecessor [Tok.str [], Tok.str ['a'], Tok.none] 2
        = some (getC [Tok.str [], Tok.str ['a'], Tok.none] (2 - 1))) :=
  ⟨by decide,
    c10_predecessor_walrus_quirk _ 2 (by decide) (by decide) (by decide)⟩

/-! ## Round-trip faithfulness of exact runs

An `exact = true` run reproduces, in its tokens, precisely the consumed
input bytes.  This holds for every ParserElement of the grammar except
where `Opt` defaults with non-empty text or the `None → ["", ""]` action
on a token list starting with `None` followed by more tokens could
interfere; `exactSafe` rules those shapes out syntactically, and the
whole grammar satisfies it. -/

theorem slice_append (s : List Char) (i j k : Nat) (h1 : i ≤ j) (h2 : j ≤ k) :
    slice s i j ++ slice s j k = slice s i k := by
  unfold slice
  have hd : s.drop j = (s.drop i).drop (j - i) := by
    rw [List.drop_drop]
    congr 1
    omega
  rw [hd, ← List.take_add]
  congr 1
  omega

@[simp] theorem slice_self (s : List Char) (i : Nat) : slice s i i = [] := by
  simp [slice]

theorem toksText_replicate_empty (n : Nat) :
    toksText (List.replicate n (.str [])) = [] := by
  induction n with
  | zero => simp
  | succ m ih => simp [List.replicate_succ, ih, tokText]

theorem litHere_slice (s : List Char) (i : Nat) (l : List Char)
    (h : litHere s i l = true) : slice s i (i + l.length) = l := by
  unfold litHere at h
  rw [List.isPrefixOf_iff_prefix] at h
  obtain ⟨t, ht⟩ := h
  unfold slice
  rw [← ht]
  simp

theorem charAt_slice (s : List Char) (i : Nat) (c : Char)
    (h : charAt s i = some c) : slice s i (i + 1) = [c] := by
  unfold charAt at h
  unfold slice
  have hlt : i < s.length := by
    by_contra hge
    rw [List.get?_eq_none.mpr (by omega)] at h
    exact Option.noConfusion h
  rw [List.drop_eq_getElem_cons hlt]
  simp only [Nat.add_sub_cancel_left, List.take_succ_cons, List.take_zero]
  rw [List.get?_eq_get hlt] at h
  simp_all

/-- ParserElements that, on any successful run, produce at least one
token whose head is not `None`. -/
def alwaysNonNoneHead : PE → Bool
  | .lit _ | .leafLit _ | .charCl _ | .wordCl _ _ _ | .white _
  | .restOfLine | .quoted _ | .pyNumber => true
  | .emptyToks n => decide (0 < n)
  | .act .join _ => true
  | .act (.wrap _) _ => true
  | .seq a _ => alwaysNonNoneHead a
  | .opt p (.withDef (.str _)) => alwaysNonNoneHead p
  | _ => false

/-- ParserElements whose `exact = true` runs are byte-faithful:
`Opt` defaults serialize to nothing and the `None → ["", ""]` action is
only attached to an `Opt(..., default=None)` whose success branch never
starts with a `None` token. -/
def exactSafe : PE → Bool
  | .failP | .lit _ | .leafLit _ | .charCl _ | .wordCl _ _ _ | .white _
  | .emptyToks _ | .emptyNoTok | .lineEnd | .restOfLine | .quoted _
  | .pyNumber | .precededBySemi | .ref _ => true
  | .seq a b | .firstOf a b | .longestOf a b => exactSafe a && exactSafe b
  | .opt p d =>
    exactSafe p &&
      (match d with
       | .noDef => true
       | .withDef t => tokText t == [])
  | .repMin _ p | .followedBy p | .notAny p => exactSafe p
  | .act .join p => exactSafe p
  | .act (.wrap _) p => exactSafe p
  | .act .noneTo2 p =>
    exactSafe p &&
      (match p with
       | .opt q _ => alwaysNonNoneHead q
       | _ => false)

/-- Every `Forward` rule of the grammar is `exactSafe`. -/
theorem exactSafe_rules : ∀ r, exactSafe (rules r) = true := by
  intro r
  cases r <;> decide

/-- The file entry element is `exactSafe`. -/
theorem exactSafe_filePE : exactSafe filePE = true := by decide

/-- `slice` of a range starting at or beyond the end of the input is
empty. -/
theorem slice_nil_of_ge (s : List Char) (i j : Nat) (h : s.length ≤ i) :
    slice s i j = [] := by
  unfold slice
  rw [List.drop_eq_nil_of_le h]
  simp

theorem matchSignedInt_le (s : List Char) (i j : Nat)
    (h : matchSignedInt s i = some j) : i ≤ j := by
  simp only [matchSignedInt] at h
  split at h
  · exact absurd h (by simp)
  · simp only [Option.some.injEq] at h
    omega

/-- Successful runs of `alwaysNonNoneHead` elements produce a token list
whose head exists and is not `None`. -/
theorem alwaysNonNoneHead_run :
    ∀ (fuel : Nat) (p : PE) (s : List Char) (i j : Nat) (toks : List Tok)
      (f : Bool), alwaysNonNoneHead p = true →
      runPE fuel p s i = some (j, toks, f) →
      ∃ t0 rest, toks = t0 :: rest ∧ tokIsNone t0 = false := by
  intro fuel
  induction fuel with
  | zero =>
    intro p s i j toks f _ h
    exact absurd h (by simp [runPE])
  | succ n ih =>
    intro p s i j toks f hp h
    cases p with
    | failP => exact absurd hp (by decide)
    | lit l =>
      simp only [runPE] at h
      split at h
      · simp only [Option.some.injEq, Prod.mk.injEq] at h
        exact ⟨_, _, h.2.1.symm, rfl⟩
      · exact absurd h (by simp)
    | leafLit l =>
      simp only [runPE] at h
      split at h
      · simp only [Option.some.injEq, Prod.mk.injEq] at h
        exact ⟨_, _, h.2.1.symm, rfl⟩
      · exact absurd h (by simp)
    | charCl cc =>
      simp only [runPE] at h
      split at h
      · split at h
        · simp only [Option.some.injEq, Prod.mk.injEq] at h
          exact ⟨_, _, h.2.1.symm, rfl⟩
        · exact absurd h (by simp)
      · exact absurd h (by simp)
    | wordCl init body mx =>
      simp only [runPE] at h
      split at h
      · split at h
        · simp only [Option.some.injEq, Prod.mk.injEq] at h
          exact ⟨_, _, h.2.1.symm, rfl⟩
        · exact absurd h (by simp)
      · exact absurd h (by simp)
    | white cc =>
      simp only [runPE] at h
      split at h
      · split at h
        · simp only [Option.some.injEq, Prod.mk.injEq] at h
          exact ⟨_, _, h.2.1.symm, rfl⟩
        · exact absurd h (by simp)
      · exact absurd h (by simp)
    | emptyToks n0 =>
      cases n0 with
      | zero => exact absurd hp (by decide)
      | succ m =>
        simp only [runPE, Option.some.injEq, Prod.mk.injEq] at h
        refine ⟨.str [], List.replicate m (.str []), ?_, rfl⟩
        rw [← h.2.1]
        simp [List.replicate_succ]
    | emptyNoTok => exact absurd hp (by decide)
    | lineEnd => exact absurd hp (by decide)
    | restOfLine =>
      simp only [runPE, Option.some.injEq, Prod.mk.injEq] at h
      exact ⟨_, _, h.2.1.symm, rfl⟩
    | quoted q =>
      simp only [runPE, runQuoted] at h
      split at h
      · split at h
        · simp only [Option.some.injEq, Prod.mk.injEq] at h
          exact ⟨_, _, h.2.1.symm, rfl⟩
        · exact absurd h (by simp)
      · exact absurd h (by simp)
    | pyNumber =>
      simp only [runPE, runNumber] at h
      split at h
      · simp only [Option.some.injEq, Prod.mk.injEq] at h
        exact ⟨_, _, h.2.1.symm, rfl⟩
      · split at h
        · simp only [Option.some.injEq, Prod.mk.injEq] at h
          exact ⟨_, _, h.2.1.symm, rfl⟩
        · split at h
          · simp only [Option.some.injEq, Prod.mk.injEq] at h
            exact ⟨_, _, h.2.1.symm, rfl⟩
          · exact absurd h (by simp)
    | precededBySemi => exact absurd hp (by decide)
    | seq a b =>
      have hpa : alwaysNonNoneHead a = true := hp
      simp only [runPE] at h
      split at h
      · rename_i j1 ta fa hxa
        split at h
        · rename_i k2 tb fb hxb
          simp only [Option.some.injEq, Prod.mk.injEq] at h
          obtain ⟨t0, rest, hcons, hnn⟩ := ih a s i j1 ta fa hpa hxa
          refine ⟨t0, rest ++ tb, ?_, hnn⟩
          rw [← h.2.1, hcons]
          simp
        · exact absurd h (by simp)
      · exact absurd h (by simp)
    | firstOf a b => simp [alwaysNonNoneHead] at hp
    | longestOf a b => simp [alwaysNonNoneHead] at hp
    | opt p' d =>
      cases d with
      | noDef => exact absurd hp (by simp [alwaysNonNoneHead])
      | withDef t0 =>
        cases t0 with
        | str v =>
          have hp' : alwaysNonNoneHead p' = true := hp
          simp only [runPE] at h
          split at h
          · rename_i r hx
            obtain ⟨j1, t1, f1⟩ := r
            simp only [Option.some.injEq, Prod.mk.injEq] at h
            obtain ⟨hj, ht, hf⟩ := h
            rw [← ht]
            exact ih p' s i j1 t1 f1 hp' hx
          · simp only [Option.some.injEq, Prod.mk.injEq] at h
            exact ⟨_, _, h.2.1.symm, rfl⟩
        | none => exact absurd hp (by simp [alwaysNonNoneHead])
        | intTok m => exact absurd hp (by simp [alwaysNonNoneHead])
        | floatTok raw => exact absurd hp (by simp [alwaysNonNoneHead])
        | leaf v => exact absurd hp (by simp [alwaysNonNoneHead])
        | node k ch => exact absurd hp (by simp [alwaysNonNoneHead])
    | repMin m p' => simp [alwaysNonNoneHead] at hp
    | followedBy p' => simp [alwaysNonNoneHead] at hp
    | notAny p' => simp [alwaysNonNoneHead] at hp
    | act a p' =>
      cases a with
      | join =>
        simp only [runPE] at h
        split at h
        · simp only [Option.some.injEq, Prod.mk.injEq, applyAct] at h
          exact ⟨_, _, h.2.1.symm, rfl⟩
        · exact absurd h (by simp)
      | wrap k =>
        simp only [runPE] at h
        split at h
        · simp only [Option.some.injEq, Prod.mk.injEq, applyAct] at h
          exact ⟨_, _, h.2.1.symm, rfl⟩
        · exact absurd h (by simp)
      | noneTo2 => exact absurd hp (by simp [alwaysNonNoneHead])
    | ref r => simp [alwaysNonNoneHead] at hp

/-- `exact = true` runs of `exactSafe` elements are byte-faithful: the
produced tokens serialize to precisely the consumed input slice. -/
theorem runPE_exact :
    ∀ (fuel : Nat) (p : PE) (s : List Char) (i j : Nat) (toks : List Tok),
      exactSafe p = true → runPE fuel p s i = some (j, toks, true) →
      i ≤ j ∧ toksText toks = slice s i j := by
  intro fuel
  induction fuel with
  | zero =>
    intro p s i j toks _ h
    exact absurd h (by simp [runPE])
  | succ n ih =>
    intro p s i j toks hsafe h
    cases p with
    | failP => simp [runPE] at h
    | lit l =>
      simp only [runPE] at h
      split at h
      · rename_i hc
        simp only [Option.some.injEq, Prod.mk.injEq] at h
        obtain ⟨hj, ht, -⟩ := h
        subst hj
        refine ⟨by omega, ?_⟩
        rw [← ht, litHere_slice s i l hc]
        simp [tokText]
      · exact absurd h (by simp)
    | leafLit l =>
      simp only [runPE] at h
      split at h
      · rename_i hc
        simp only [Option.some.injEq, Prod.mk.injEq] at h
        obtain ⟨hj, ht, -⟩ := h
        subst hj
        refine ⟨by omega, ?_⟩
        rw [← ht, litHere_slice s i l hc]
        simp [tokText]
      · exact absurd h (by simp)
    | charCl cc =>
      simp only [runPE] at h
      split at h
      · rename_i c hc
        split at h
        · simp only [Option.some.injEq, Prod.mk.injEq] at h
          obtain ⟨hj, ht, -⟩ := h
          subst hj
          refine ⟨by omega, ?_⟩
          rw [← ht, charAt_slice s i c hc]
          simp [tokText]
        · exact absurd h (by simp)
      · exact absurd h (by simp)
    | wordCl init body mx =>
      simp only [runPE] at h
      split at h
      · rename_i c hc
        split at h
        · simp only [Option.some.injEq, Prod.mk.injEq] at h
          obtain ⟨hj, ht, -⟩ := h
          subst hj
          refine ⟨by omega, ?_⟩
          rw [← ht]
          simp [tokText]
        · exact absurd h (by simp)
      · exact absurd h (by simp)
    | white cc =>
      simp only [runPE] at h
      split at h
      · rename_i c hc
        split at h
        · simp only [Option.some.injEq, Prod.mk.injEq] at h
          obtain ⟨hj, ht, hf⟩ := h
          have hk : runLen (whiteSkip cc) s i = 0 := by simpa using hf
          subst hj
          refine ⟨by omega, ?_⟩
          rw [← ht]
          simp [tokText, hk]
        · exact absurd h (by simp)
      · exact absurd h (by simp)
    | emptyToks n0 =>
      simp only [runPE, Option.some.injEq, Prod.mk.injEq] at h
      obtain ⟨hj, ht, -⟩ := h
      subst hj
      refine ⟨le_refl i, ?_⟩
      rw [← ht, toksText_replicate_empty]
      simp
    | emptyNoTok =>
      simp only [runPE, Option.some.injEq, Prod.mk.injEq] at h
      obtain ⟨hj, ht, -⟩ := h
      subst hj
      refine ⟨le_refl i, ?_⟩
      rw [← ht]
      simp
    | lineEnd =>
      simp only [runPE] at h
      split at h
      · split at h
        · rename_i hc
          simp only [Option.some.injEq, Prod.mk.injEq] at h
          obtain ⟨hj, ht, hf⟩ := h
          have hk : runLen isLineEndSkip s i = 0 := by simpa using hf
          subst hj
          rw [hk, Nat.add_zero] at hc
          refine ⟨by omega, ?_⟩
          rw [← ht, hk]
          simp only [Nat.add_zero]
          rw [charAt_slice s i '\n' hc]
          simp [tokText]
        · exact absurd h (by simp)
      · split at h
        · rename_i heq
          simp only [Option.some.injEq, Prod.mk.injEq] at h
          obtain ⟨hj, ht, hf⟩ := h
          have hk : runLen isLineEndSkip s i = 0 := by simpa using hf
          subst hj
          refine ⟨by omega, ?_⟩
          rw [← ht]
          have hge : s.length ≤ i := by omega
          rw [slice_nil_of_ge s i _ hge]
          simp
        · exact absurd h (by simp)
    | restOfLine =>
      simp only [runPE, Option.some.injEq, Prod.mk.injEq] at h
      obtain ⟨hj, ht, -⟩ := h
      subst hj
      refine ⟨by omega, ?_⟩
      rw [← ht]
      simp [tokText]
    | quoted q =>
      simp only [runPE, runQuoted] at h
      split at h
      · split at h
        · rename_i m hq
          simp only [Option.some.injEq, Prod.mk.injEq] at h
          obtain ⟨hj, ht, -⟩ := h
          subst hj
          refine ⟨by omega, ?_⟩
          rw [← ht]
          simp [tokText]
        · exact absurd h (by simp)
      · exact absurd h (by simp)
    | pyNumber =>
      simp only [runPE, runNumber] at h
      split at h
      · exact absurd h (by simp)
      · split at h
        · exact absurd h (by simp)
        · split at h
          · rename_i j' hms
            simp only [Option.some.injEq, Prod.mk.injEq] at h
            obtain ⟨hj, ht, hf⟩ := h
            rw [Bool.and_eq_true] at hf
            obtain ⟨hf1, hf2⟩ := hf
            have hk : runLen isNumSkip s i = 0 := by simpa using hf1
            have hraw : (toString (intOfRaw (slice s (i + runLen isNumSkip s i) j'))).toList
                = slice s (i + runLen isNumSkip s i) j' := by simpa using hf2
            subst hj
            have hle := matchSignedInt_le s (i + runLen isNumSkip s i) j' hms
            refine ⟨by omega, ?_⟩
            rw [← ht]
            simp only [toksText_cons, toksText_nil, tokText, List.append_nil]
            rw [hraw, hk, Nat.add_zero]
          · exact absurd h (by simp)
    | precededBySemi =>
      simp only [runPE] at h
      split at h
      · exact absurd h (by simp)
      · split at h
        · simp only [Option.some.injEq, Prod.mk.injEq] at h
          obtain ⟨hj, ht, -⟩ := h
          subst hj
          exact ⟨le_refl i, by rw [← ht]; simp⟩
        · exact absurd h (by simp)
    | seq a b =>
      simp only [exactSafe, Bool.and_eq_true] at hsafe
      obtain ⟨ha, hb⟩ := hsafe
      simp only [runPE] at h
      split at h
      · rename_i j1 ta fa hxa
        split at h
        · rename_i k2 tb fb hxb
          simp only [Option.some.injEq, Prod.mk.injEq] at h
          obtain ⟨hj, ht, hf⟩ := h
          rw [Bool.and_eq_true] at hf
          obtain ⟨hfa, hfb⟩ := hf
          subst hfa
          subst hfb
          obtain ⟨h1, h2⟩ := ih a s i j1 ta ha hxa
          obtain ⟨h3, h4⟩ := ih b s j1 k2 tb hb hxb
          subst hj
          refine ⟨by omega, ?_⟩
          rw [← ht, toksText_append, h2, h4, slice_append s i j1 k2 h1 h3]
        · exact absurd h (by simp)
      · exact absurd h (by simp)
    | firstOf a b =>
      simp only [exactSafe, Bool.and_eq_true] at hsafe
      obtain ⟨ha, hb⟩ := hsafe
      simp only [runPE] at h
      split at h
      · rename_i r hx
        obtain ⟨j1, t1, f1⟩ := r
        simp only [Option.some.injEq, Prod.mk.injEq] at h
        obtain ⟨hj, ht, hf⟩ := h
        rw [← hj, ← ht]
        rw [hf] at hx
        exact ih a s i j1 t1 ha hx
      · exact ih b s i j toks hb h
    | longestOf a b =>
      simp only [exactSafe, Bool.and_eq_true] at hsafe
      obtain ⟨ha, hb⟩ := hsafe
      simp only [runPE] at h
      split at h
      · rename_i ja ta fa jb tb fb hxa hxb
        split at h
        · simp only [Option.some.injEq, Prod.mk.injEq] at h
          obtain ⟨hj, ht, hf⟩ := h
          rw [← hj, ← ht]
          rw [hf] at hxb
          exact ih b s i jb tb hb hxb
        · simp only [Option.some.injEq, Prod.mk.injEq] at h
          obtain ⟨hj, ht, hf⟩ := h
          rw [← hj, ← ht]
          rw [hf] at hxa
          exact ih a s i ja ta ha hxa
      · rename_i r hxa hxb
        obtain ⟨ja, ta, fa⟩ := r
        simp only [Option.some.injEq, Prod.mk.injEq] at h
        obtain ⟨hj, ht, hf⟩ := h
        rw [← hj, ← ht]
        rw [hf] at hxa
        exact ih a s i ja ta ha hxa
      · rename_i r hxa hxb
        obtain ⟨jb, tb, fb⟩ := r
        simp only [Option.some.injEq, Prod.mk.injEq] at h
        obtain ⟨hj, ht, hf⟩ := h
        rw [← hj, ← ht]
        rw [hf] at hxb
        exact ih b s i jb tb hb hxb
      · exact absurd h (by simp)
    | opt p' d =>
      simp only [exactSafe, Bool.and_eq_true] at hsafe
      obtain ⟨hp', hd⟩ := hsafe
      simp only [runPE] at h
      split at h
      · rename_i r hx
        obtain ⟨j1, t1, f1⟩ := r
        simp only [Option.some.injEq, Prod.mk.injEq] at h
        obtain ⟨hj, ht, hf⟩ := h
        rw [← hj, ← ht]
        rw [hf] at hx
        exact ih p' s i j1 t1 hp' hx
      · cases d with
        | noDef =>
          simp only [Option.some.injEq, Prod.mk.injEq] at h
          obtain ⟨hj, ht, -⟩ := h
          subst hj
          exact ⟨le_refl i, by rw [← ht]; simp⟩
        | withDef t0 =>
          simp only [Option.some.injEq, Prod.mk.injEq] at h
          obtain ⟨hj, ht, -⟩ := h
          subst hj
          have h0 : tokText t0 = [] := by simpa using hd
          refine ⟨le_refl i, ?_⟩
          rw [← ht]
          simp [h0]
    | repMin m p' =>
      have hp' : exactSafe p' = true := hsafe
      simp only [runPE] at h
      split at h
      · split at h
        · simp only [Option.some.injEq, Prod.mk.injEq] at h
          obtain ⟨hj, ht, -⟩ := h
          subst hj
          exact ⟨le_refl i, by rw [← ht]; simp⟩
        · exact absurd h (by simp)
      · rename_i j1 t1 f1 hx1
        split at h
        · rename_i k2 t2 f2 hx2
          simp only [Option.some.injEq, Prod.mk.injEq] at h
          obtain ⟨hj, ht, hf⟩ := h
          rw [Bool.and_eq_true] at hf
          obtain ⟨hf1, hf2⟩ := hf
          subst hf1
          subst hf2
          obtain ⟨ha1, ha2⟩ := ih p' s i j1 t1 hp' hx1
          obtain ⟨hb1, hb2⟩ := ih (.repMin (m - 1) p') s j1 k2 t2 hp' hx2
          subst hj
          refine ⟨by omega, ?_⟩
          rw [← ht, toksText_append, ha2, hb2, slice_append s i j1 k2 ha1 hb1]
        · exact absurd h (by simp)
    | followedBy p' =>
      simp only [runPE] at h
      split at h
      · simp only [Option.some.injEq, Prod.mk.injEq] at h
        obtain ⟨hj, ht, -⟩ := h
        subst hj
        exact ⟨le_refl i, by rw [← ht]; simp⟩
      · exact absurd h (by simp)
    | notAny p' =>
      simp only [runPE] at h
      split at h
      · exact absurd h (by simp)
      · simp only [Option.some.injEq, Prod.mk.injEq] at h
        obtain ⟨hj, ht, -⟩ := h
        subst hj
        exact ⟨le_refl i, by rw [← ht]; simp⟩
    | act a p' =>
      cases a with
      | join =>
        have hp' : exactSafe p' = true := hsafe
        simp only [runPE] at h
        split at h
        · rename_i j1 t1 f1 hx
          simp only [Option.some.injEq, Prod.mk.injEq] at h
          obtain ⟨hj, ht, hf⟩ := h
          subst hf
          obtain ⟨ha1, ha2⟩ := ih p' s i j1 t1 hp' hx
          subst hj
          refine ⟨ha1, ?_⟩
          rw [← ht]
          simp [applyAct, tokText, ha2]
        · exact absurd h (by simp)
      | wrap k =>
        have hp' : exactSafe p' = true := hsafe
        simp only [runPE] at h
        split at h
        · rename_i j1 t1 f1 hx
          simp only [Option.some.injEq, Prod.mk.injEq] at h
          obtain ⟨hj, ht, hf⟩ := h
          subst hf
          obtain ⟨ha1, ha2⟩ := ih p' s i j1 t1 hp' hx
          subst hj
          refine ⟨ha1, ?_⟩
          rw [← ht]
          simp [applyAct, ha2]
        · exact absurd h (by simp)
      | noneTo2 =>
        simp only [exactSafe, Bool.and_eq_true] at hsafe
        obtain ⟨hp', hm⟩ := hsafe
        cases p' with
        | opt q d' =>
          simp only [runPE] at h
          split at h
          · rename_i j1 t1 f1 hx
            simp only [Option.some.injEq, Prod.mk.injEq] at h
            obtain ⟨hj, ht, hf⟩ := h
            subst hf
            obtain ⟨ha1, ha2⟩ := ih (.opt q d') s i j1 t1 hp' hx
            subst hj
            refine ⟨ha1, ?_⟩
            rw [← ht]
            have hkey : toksText (applyAct .noneTo2 t1) = toksText t1 := by
              cases n with
              | zero => exact absurd hx (by simp [runPE])
              | succ n' =>
                simp only [runPE] at hx
                split at hx
                · rename_i r hxq
                  obtain ⟨j2, t2, f2⟩ := r
                  simp only [Option.some.injEq, Prod.mk.injEq] at hx
                  obtain ⟨hj2, ht2, hf2⟩ := hx
                  obtain ⟨t0, rest, hcons, hnn⟩ :=
                    alwaysNonNoneHead_run n' q s i j2 t2 f2 hm hxq
                  rw [← ht2, hcons]
                  cases t0 with
                  | str v => simp [applyAct]
                  | none => simp [tokIsNone] at hnn
                  | intTok m0 => simp [applyAct]
                  | floatTok raw => simp [applyAct]
                  | leaf v => simp [applyAct]
                  | node k0 ch => simp [applyAct]
                · cases d' with
                  | noDef =>
                    simp only [Option.some.injEq, Prod.mk.injEq] at hx
                    obtain ⟨-, ht2, -⟩ := hx
                    rw [← ht2]
                    simp [applyAct]
                  | withDef t0 =>
                    simp only [Option.some.injEq, Prod.mk.injEq] at hx
                    obtain ⟨-, ht2, -⟩ := hx
                    rw [← ht2]
                    cases t0 with
                    | str v => simp [applyAct]
                    | none => simp [applyAct, tokText]
                    | intTok m0 => simp [applyAct]
                    | floatTok raw => simp [applyAct]
                    | leaf v => simp [applyAct]
                    | node k0 ch => simp [applyAct]
            rw [hkey, ha2]
          · exact absurd h (by simp)
        | failP => exact Bool.noConfusion hm
        | lit l => exact Bool.noConfusion hm
        | leafLit l => exact Bool.noConfusion hm
        | charCl cc => exact Bool.noConfusion hm
        | wordCl init body mx => exact Bool.noConfusion hm
        | white cc => exact Bool.noConfusion hm
        | emptyToks n0 => exact Bool.noConfusion hm
        | emptyNoTok => exact Bool.noConfusion hm
        | lineEnd => exact Bool.noConfusion hm
        | restOfLine => exact Bool.noConfusion hm
        | quoted q => exact Bool.noConfusion hm
        | pyNumber => exact Bool.noConfusion hm
        | precededBySemi => exact Bool.noConfusion hm
        | seq a' b' => exact Bool.noConfusion hm
        | firstOf a' b' => exact Bool.noConfusion hm
        | longestOf a' b' => exact Bool.noConfusion hm
        | repMin m' q' => exact Bool.noConfusion hm
        | followedBy q' => exact Bool.noConfusion hm
        | notAny q' => exact Bool.noConfusion hm
        | act a' q' => exact Bool.noConfusion hm
        | ref r => exact Bool.noConfusion hm
    | ref r =>
      simp only [runPE] at h
      exact ih (rules r) s i j toks (exactSafe_rules r) h

theorem expandTabs_go_of_no_tab :
    ∀ (s : List Char), ¬ '\t' ∈ s → ∀ col, expandTabs.go s col = s := by
  intro s
  induction s with
  | nil => intro _ col; rfl
  | cons c rest ih =>
    intro hnt col
    have hc : ¬ c = '\t' := by
      intro e
      exact hnt (e ▸ List.mem_cons_self c rest)
    have hr : ¬ '\t' ∈ rest := fun m => hnt (List.mem_cons_of_mem c m)
    simp only [expandTabs.go, if_neg hc]
    split <;> rw [ih hr]

theorem expandTabs_of_no_tab (s : List Char) (hnt : ¬ '\t' ∈ s) :
    expandTabs s = s := by
  unfold expandTabs
  exact expandTabs_go_of_no_tab s hnt 0

/-- **C1** (amended).  For every input without tabs whose parse run is
`exact` (no numeric re-rendering and no silently skipped whitespace),
`str(parse_string(s))` returns `s` itself: parsing and serializing the
CST is the identity on such sources. -/
theorem c1_roundtrip_amended (fuel : Nat) (s : List Char)
    (hnt : ¬ '\t' ∈ s)
    (hex : (parseRun fuel s).map Prod.snd = some true) :
    parseSerialize fuel s = some s := by
  have hts : expandTabs s = s := expandTabs_of_no_tab s hnt
  cases hpr : parseRun fuel s with
  | none => rw [hpr] at hex; simp at hex
  | some pr =>
    have hpr0 := hpr
    obtain ⟨toks, ex⟩ := pr
    rw [hpr] at hex
    simp at hex
    subst hex
    simp only [parseRun, hts] at hpr
    split at hpr
    · rename_i j toks' ex' hr
      split at hpr
      · rename_i hlen
        simp only [Option.some.injEq, Prod.mk.injEq] at hpr
        obtain ⟨ht, he⟩ := hpr
        subst ht
        subst he
        obtain ⟨-, htext⟩ := runPE_exact fuel filePE s 0 j toks' exactSafe_filePE hr
        have hslice : slice s 0 j = s := by
          unfold slice
          simp only [List.drop_zero, Nat.sub_zero]
          exact List.take_of_length_le hlen
        rw [hslice] at htext
        cases fuel with
        | zero => exact absurd hr (by simp [runPE])
        | succ n =>
          rw [show filePE = .act (.wrap .file) (.seq (.seq owsPE (.ref .codeR)) owsPE)
            from rfl] at hr
          simp only [runPE, applyAct] at hr
          split at hr
          · rename_i j1 t1 f1 hx
            simp only [Option.some.injEq, Prod.mk.injEq] at hr
            obtain ⟨hj1, ht1, hf1⟩ := hr
            rw [← ht1] at htext
            simp only [toksText_cons, toksText_nil, tokText_node, List.append_nil] at htext
            have hps : parseString (n + 1) s = some (.node .file t1) := by
              simp only [parseString, hpr0, ← ht1]
              rfl
            simp only [parseSerialize, hps, tokText_node, htext]
          · exact absurd hr (by simp)
      · exact absurd hpr (by simp)
    · exact absurd hpr (by simp)

/-- **C1** witness: `"x = 1\n"` contains no tab, its parse run is exact,
and parsing then serializing reproduces it verbatim. -/
theorem c1_roundtrip_amended_witness :
    (¬ '\t' ∈ cs "x = 1\n") ∧
      (parseRun 400 (cs "x = 1\n")).map Prod.snd = some true ∧
      parseSerialize 400 (cs "x = 1\n") = some (cs "x = 1\n") :=
  ⟨by decide, by decide,
    c1_roundtrip_amended 400 (cs "x = 1\n") (by decide) (by decide)⟩

/-! ## The `DelimitedList` shape invariant

Every `model.DelimitedList` node the grammar builds comes from `dlPE`,
whose token list is built from single-token elements separated by joined
delimiter strings: the children are empty or alternate
element/delimiter-string with elements at both ends. -/

/-- ParserElements that produce exactly one token on any successful
run (the element arguments of every `DelimitedList` in the grammar). -/
def oneTok : PE → Bool
  | .lit _ => true
  | .leafLit _ => true
  | .charCl _ => true
  | .wordCl _ _ _ => true
  | .white _ => true
  | .emptyToks n => n == 1
  | .restOfLine => true
  | .quoted _ => true
  | .pyNumber => true
  | .firstOf a b => oneTok a && oneTok b
  | .longestOf a b => oneTok a && oneTok b
  | .opt p (.withDef _) => oneTok p
  | .act .join _ => true
  | .act (.wrap _) _ => true
  | .ref _ => true
  | _ => false

/-- Every grammar rule produces exactly one (wrapped) token. -/
theorem oneTok_rules : ∀ r, oneTok (rules r) = true := by
  intro r
  cases r <;> decide

/-- Soundness of `oneTok`: successful runs produce a single token. -/
theorem oneTok_run :
    ∀ (fuel : Nat) (p : PE) (s : List Char) (i j : Nat) (toks : List Tok)
      (f : Bool), oneTok p = true → runPE fuel p s i = some (j, toks, f) →
      toks.length = 1 := by
  intro fuel
  induction fuel with
  | zero =>
    intro p s i j toks f _ h
    exact absurd h (by simp [runPE])
  | succ n ih =>
    intro p s i j toks f hp h
    cases p with
    | failP => simp [runPE] at h
    | lit l =>
      simp only [runPE] at h
      split at h
      · simp only [Option.some.injEq, Prod.mk.injEq] at h
        rw [← h.2.1]
        rfl
      · exact absurd h (by simp)
    | leafLit l =>
      simp only [runPE] at h
      split at h
      · simp only [Option.some.injEq, Prod.mk.injEq] at h
        rw [← h.2.1]
        rfl
      · exact absurd h (by simp)
    | charCl cc =>
      simp only [runPE] at h
      split at h
      · split at h
        · simp only [Option.some.injEq, Prod.mk.injEq] at h
          rw [← h.2.1]
          rfl
        · exact absurd h (by simp)
      · exact absurd h (by simp)
    | wordCl init body mx =>
      simp only [runPE] at h
      split at h
      · split at h
        · simp only [Option.some.injEq, Prod.mk.injEq] at h
          rw [← h.2.1]
          rfl
        · exact absurd h (by simp)
      · exact absurd h (by simp)
    | white cc =>
      simp only [runPE] at h
      split at h
      · split at h
        · simp only [Option.some.injEq, Prod.mk.injEq] at h
          rw [← h.2.1]
          rfl
        · exact absurd h (by simp)
      · exact absurd h (by simp)
    | emptyToks n0 =>
      have h1 : n0 = 1 := by simpa [oneTok] using hp
      subst h1
      simp only [runPE, Option.some.injEq, Prod.mk.injEq] at h
      rw [← h.2.1]
      rfl
    | emptyNoTok => simp [oneTok] at hp
    | lineEnd => simp [oneTok] at hp
    | restOfLine =>
      simp only [runPE, Option.some.injEq, Prod.mk.injEq] at h
      rw [← h.2.1]
      rfl
    | quoted q =>
      simp only [runPE, runQuoted] at h
      split at h
      · split at h
        · simp only [Option.some.injEq, Prod.mk.injEq] at h
          rw [← h.2.1]
          rfl
        · exact absurd h (by simp)
      · exact absurd h (by simp)
    | pyNumber =>
      simp only [runPE, runNumber] at h
      split at h
      · simp only [Option.some.injEq, Prod.mk.injEq] at h
        rw [← h.2.1]
        rfl
      · split at h
        · simp only [Option.some.injEq, Prod.mk.injEq] at h
          rw [← h.2.1]
          rfl
        · split at h
          · simp only [Option.some.injEq, Prod.mk.injEq] at h
            rw [← h.2.1]
            rfl
          · exact absurd h (by simp)
    | precededBySemi => simp [oneTok] at hp
    | seq a b => simp [oneTok] at hp
    | firstOf a b =>
      simp only [oneTok, Bool.and_eq_true] at hp
      obtain ⟨ha, hb⟩ := hp
      simp only [runPE] at h
      split at h
      · rename_i r hx
        obtain ⟨j1, t1, f1⟩ := r
        simp only [Option.some.injEq, Prod.mk.injEq] at h
        obtain ⟨hj, ht, hf⟩ := h
        rw [← ht]
        exact ih a s i j1 t1 f1 ha hx
      · exact ih b s i j toks f hb h
    | longestOf a b =>
      simp only [oneTok, Bool.and_eq_true] at hp
      obtain ⟨ha, hb⟩ := hp
      simp only [runPE] at h
      split at h
      · rename_i ja ta fa jb tb fb hxa hxb
        split at h
        · simp only [Option.some.injEq, Prod.mk.injEq] at h
          obtain ⟨hj, ht, hf⟩ := h
          rw [← ht]
          exact ih b s i jb tb fb hb hxb
        · simp only [Option.some.injEq, Prod.mk.injEq] at h
          obtain ⟨hj, ht, hf⟩ := h
          rw [← ht]
          exact ih a s i ja ta fa ha hxa
      · rename_i r hxa hxb
        obtain ⟨ja, ta, fa⟩ := r
        simp only [Option.some.injEq, Prod.mk.injEq] at h
        obtain ⟨hj, ht, hf⟩ := h
        rw [← ht]
        exact ih a s i ja ta fa ha hxa
      · rename_i r hxa hxb
        obtain ⟨jb, tb, fb⟩ := r
        simp only [Option.some.injEq, Prod.mk.injEq] at h
        obtain ⟨hj, ht, hf⟩ := h
        rw [← ht]
        exact ih b s i jb tb fb hb hxb
      · exact absurd h (by simp)
    | opt p' d =>
      cases d with
      | noDef => simp [oneTok] at hp
      | withDef t0 =>
        have hp' : oneTok p' = true := hp
        simp only [runPE] at h
        split at h
        · rename_i r hx
          obtain ⟨j1, t1, f1⟩ := r
          simp only [Option.some.injEq, Prod.mk.injEq] at h
          obtain ⟨hj, ht, hf⟩ := h
          rw [← ht]
          exact ih p' s i j1 t1 f1 hp' hx
        · simp only [Option.some.injEq, Prod.mk.injEq] at h
          rw [← h.2.1]
          rfl
    | repMin m p' => simp [oneTok] at hp
    | followedBy p' => simp [oneTok] at hp
    | notAny p' => simp [oneTok] at hp
    | act a p' =>
      cases a with
      | join =>
        simp only [runPE] at h
        split at h
        · simp only [Option.some.injEq, Prod.mk.injEq, applyAct] at h
          rw [← h.2.1]
          rfl
        · exact absurd h (by simp)
      | wrap k =>
        simp only [runPE] at h
        split at h
        · simp only [Option.some.injEq, Prod.mk.injEq, applyAct] at h
          rw [← h.2.1]
          rfl
        · exact absurd h (by simp)
      | noneTo2 => simp [oneTok] at hp
    | ref r =>
      simp only [runPE] at h
      exact ih (rules r) s i j toks f (oneTok_rules r) h

/-- Token lists that are concatenations of (element, delimiter-string)
pairs — what `dlPE`'s repetition part produces. -/
def pairShape : List Tok → Bool
  | [] => true
  | _ :: .str _ :: rest => pairShape rest
  | _ => false

/-- Token lists that are empty or alternate element/delimiter-string
with elements at both ends — the `DelimitedList` child-list shape. -/
def altShape : List Tok → Bool
  | [] => true
  | [_] => true
  | _ :: .str _ :: c :: rest => altShape (c :: rest)
  | _ => false

theorem pairShape_altShape_append :
    ∀ (l : List Tok), pairShape l = true → ∀ (a : Tok),
      altShape (l ++ [a]) = true := by
  intro l
  induction l using pairShape.induct with
  | case1 =>
    intro _ a
    rfl
  | case2 b v rest ih =>
    intro hp a
    have hrest : pairShape rest = true := hp
    cases rest with
    | nil => rfl
    | cons c rest2 =>
      simp only [List.cons_append, altShape]
      exact ih hrest a
  | case3 l h1 h2 =>
    intro hp a
    simp [pairShape] at hp

theorem altShape_len :
    ∀ (l : List Tok), altShape l = true →
      (l.length == 0 || l.length % 2 == 1) = true := by
  intro l
  induction l using altShape.induct with
  | case1 => intro _; rfl
  | case2 b => intro _; rfl
  | case3 b v c rest ih =>
    intro h
    have h' : altShape (c :: rest) = true := h
    have := ih h'
    simp only [List.length_cons] at this ⊢
    simp only [Bool.or_eq_true, beq_iff_eq] at this ⊢
    omega
  | case4 l h1 h2 h3 =>
    intro hp
    simp [altShape] at hp

theorem altShape_go :
    ∀ (l : List Tok), altShape l = true → ∀ (i : Nat), i % 2 = 0 →
      oddAreStrs.go i l = true := by
  intro l
  induction l using altShape.induct with
  | case1 => intro _ i _; rfl
  | case2 b =>
    intro _ i hi
    simp only [oddAreStrs.go]
    rw [if_neg (by omega)]
    rfl
  | case3 b v c rest ih =>
    intro h i hi
    have h' : altShape (c :: rest) = true := h
    have ih' := ih h' (i + 2) (by omega)
    simp only [oddAreStrs.go] at ih' ⊢
    rw [if_neg (show ¬ (i + 2) % 2 = 1 by omega)] at ih'
    simp only [Bool.true_and] at ih'
    rw [if_neg (show ¬ i % 2 = 1 by omega),
        if_pos (show (i + 1) % 2 = 1 by omega),
        if_neg (show ¬ (i + 1 + 1) % 2 = 1 by omega),
        show i + 1 + 1 + 1 = i + 2 + 1 from by omega]
    simp [ih']
  | case4 l h1 h2 h3 =>
    intro hp
    simp [altShape] at hp

theorem altShape_oddStrs (l : List Tok) (h : altShape l = true) :
    oddAreStrs l = true :=
  altShape_go l h 0 rfl

/-- `FollowedBy` emits no tokens. -/
theorem followedBy_run (fuel : Nat) (p : PE) (s : List Char) (i j : Nat)
    (toks : List Tok) (f : Bool)
    (h : runPE fuel (.followedBy p) s i = some (j, toks, f)) : toks = [] := by
  cases fuel with
  | zero => simp [runPE] at h
  | succ n =>
    simp only [runPE] at h
    split at h
    · simp only [Option.some.injEq, Prod.mk.injEq] at h
      exact h.2.1.symm
    · exact absurd h (by simp)

/-- `join_tokens` emits exactly one plain string. -/
theorem act_join_run (fuel : Nat) (p : PE) (s : List Char) (i j : Nat)
    (toks : List Tok) (f : Bool)
    (h : runPE fuel (.act .join p) s i = some (j, toks, f)) :
    ∃ v, toks = [.str v] := by
  cases fuel with
  | zero => simp [runPE] at h
  | succ n =>
    simp only [runPE] at h
    split at h
    · simp only [Option.some.injEq, Prod.mk.injEq, applyAct] at h
      exact ⟨_, h.2.1.symm⟩
    · exact absurd h (by simp)

/-- The repetition part of `dlPE` produces (element, delimiter) pairs. -/
theorem repMin_pairs :
    ∀ (fuel m : Nat) (e q x : PE) (s : List Char) (i j : Nat)
      (toks : List Tok) (f : Bool), oneTok e = true →
      runPE fuel (.repMin m (.seq (.seq e (.act .join q)) (.followedBy x))) s i
        = some (j, toks, f) →
      pairShape toks = true := by
  intro fuel
  induction fuel with
  | zero =>
    intro m e q x s i j toks f _ h
    exact absurd h (by simp [runPE])
  | succ n ih =>
    intro m e q x s i j toks f he h
    simp only [runPE] at h
    split at h
    · split at h
      · simp only [Option.some.injEq, Prod.mk.injEq] at h
        rw [← h.2.1]
        rfl
      · exact absurd h (by simp)
    · rename_i j1 t1 f1 hx1
      split at h
      · rename_i k2 t2 f2 hx2
        simp only [Option.some.injEq, Prod.mk.injEq] at h
        obtain ⟨-, ht, -⟩ := h
        have hp2 := ih (m - 1) e q x s j1 k2 t2 f2 he hx2
        cases n with
        | zero => exact absurd hx1 (by simp [runPE])
        | succ n1 =>
          simp only [runPE] at hx1
          split at hx1
          · rename_i j3 t3 f3 hx3
            split at hx1
            · rename_i j4 t4 f4 hx4
              simp only [Option.some.injEq, Prod.mk.injEq] at hx1
              obtain ⟨-, ht1, -⟩ := hx1
              have ht4 : t4 = [] := followedBy_run n1 x s j3 j4 t4 f4 hx4
              cases n1 with
              | zero => exact absurd hx3 (by simp [runPE])
              | succ n2 =>
                simp only [runPE] at hx3
                split at hx3
                · rename_i j5 t5 f5 hx5
                  split at hx3
                  · rename_i j6 t6 f6 hx6
                    simp only [Option.some.injEq, Prod.mk.injEq] at hx3
                    obtain ⟨-, ht3, -⟩ := hx3
                    have hl5 : t5.length = 1 := oneTok_run n2 e s i j5 t5 f5 he hx5
                    obtain ⟨a, ha⟩ := List.length_eq_one.mp hl5
                    obtain ⟨v, hv⟩ := act_join_run n2 q s j5 j6 t6 f6 hx6
                    rw [← ht, ← ht1, ← ht3, ha, hv, ht4]
                    simpa [pairShape] using hp2
                  · exact absurd hx3 (by simp)
                · exact absurd hx3 (by simp)
            · exact absurd hx1 (by simp)
          · exact absurd hx1 (by simp)
      · exact absurd h (by simp)

/-- Runs of `dlPE`'s non-empty core produce alternating token lists. -/
theorem dl_core_run (fuel m : Nat) (e q x e2 : PE) (s : List Char)
    (i j : Nat) (toks : List Tok) (f : Bool)
    (he : oneTok e = true) (he2 : oneTok e2 = true)
    (h : runPE fuel
      (.seq (.repMin m (.seq (.seq e (.act .join q)) (.followedBy x))) e2)
      s i = some (j, toks, f)) :
    altShape toks = true := by
  cases fuel with
  | zero => exact absurd h (by simp [runPE])
  | succ n =>
    simp only [runPE] at h
    split at h
    · rename_i j1 t1 f1 hx1
      split at h
      · rename_i j2 t2 f2 hx2
        simp only [Option.some.injEq, Prod.mk.injEq] at h
        obtain ⟨-, ht, -⟩ := h
        have hp := repMin_pairs n m e q x s i j1 t1 f1 he hx1
        have hl := oneTok_run n e2 s j1 j2 t2 f2 he2 hx2
        obtain ⟨a, ha⟩ := List.length_eq_one.mp hl
        rw [← ht, ha]
        exact pairShape_altShape_append t1 hp a
      · exact absurd h (by simp)
    · exact absurd h (by simp)

mutual

/-- Every `model.DelimitedList` wrap inside the element has the `dlPE`
shape: a possibly-empty repetition of single-token elements followed by
one joined delimiter string, closed by a final single-token element (or
pyparsing's `empty` for `min_elements=0`); `Opt` defaults are themselves
shape-respecting tokens. -/
def dlSafe : PE → Bool
  | .seq a b => dlSafe a && dlSafe b
  | .firstOf a b => dlSafe a && dlSafe b
  | .longestOf a b => dlSafe a && dlSafe b
  | .opt p .noDef => dlSafe p
  | .opt p (.withDef t0) => dlSafe p && dlShapeOk t0
  | .repMin _ p => dlSafe p
  | .followedBy p => dlSafe p
  | .notAny p => dlSafe p
  | .act .join p => dlSafe p
  | .act .noneTo2 p => dlSafe p
  | .act (.wrap k) p =>
    if k == .delimitedList then dlWrap p else dlSafe p
  | _ => true

/-- The inner element of a `DelimitedList` wrap, as `dlPE` builds it:
the non-empty core, possibly or-elsed with `empty`. -/
def dlWrap : PE → Bool
  | .firstOf (.seq (.repMin _ (.seq (.seq e (.act .join q)) (.followedBy x))) e2)
      .emptyNoTok =>
    oneTok e && dlSafe e && dlSafe q && dlSafe x && oneTok e2 && dlSafe e2
  | .seq (.repMin _ (.seq (.seq e (.act .join q)) (.followedBy x))) e2 =>
    oneTok e && dlSafe e && dlSafe q && dlSafe x && oneTok e2 && dlSafe e2
  | _ => false

end

/-- Every grammar rule is `dlSafe`. -/
theorem dlSafe_rules : ∀ r, dlSafe (rules r) = true := by
  intro r
  cases r <;> decide

/-- The file entry element is `dlSafe`. -/
theorem dlSafe_filePE : dlSafe filePE = true := by decide

theorem dlShapeOkList_append (a b : List Tok) :
    dlShapeOkList (a ++ b) = (dlShapeOkList a && dlShapeOkList b) := by
  induction a with
  | nil => simp [dlShapeOkList]
  | cons t ts ih => simp [dlShapeOkList, ih, Bool.and_assoc]

theorem dlShapeOkList_replicate (n : Nat) :
    dlShapeOkList (List.replicate n (.str [])) = true := by
  induction n with
  | zero => rfl
  | succ m ih => simp [List.replicate_succ, dlShapeOkList, dlShapeOk, ih]

/-- Every token list any `dlSafe` element produces satisfies the
`DelimitedList` shape invariant, recursively. -/
theorem runPE_dlShape :
    ∀ (fuel : Nat) (p : PE) (s : List Char) (i j : Nat) (toks : List Tok)
      (f : Bool), dlSafe p = true → runPE fuel p s i = some (j, toks, f) →
      dlShapeOkList toks = true := by
  intro fuel
  induction fuel with
  | zero =>
    intro p s i j toks f _ h
    exact absurd h (by simp [runPE])
  | succ n ih =>
    intro p s i j toks f hsafe h
    cases p with
    | failP => simp [runPE] at h
    | lit l =>
      simp only [runPE] at h
      split at h
      · simp only [Option.some.injEq, Prod.mk.injEq] at h
        rw [← h.2.1]
        rfl
      · exact absurd h (by simp)
    | leafLit l =>
      simp only [runPE] at h
      split at h
      · simp only [Option.some.injEq, Prod.mk.injEq] at h
        rw [← h.2.1]
        rfl
      · exact absurd h (by simp)
    | charCl cc =>
      simp only [runPE] at h
      split at h
      · split at h
        · simp only [Option.some.injEq, Prod.mk.injEq] at h
          rw [← h.2.1]
          rfl
        · exact absurd h (by simp)
      · exact absurd h (by simp)
    | wordCl init body mx =>
      simp only [runPE] at h
      split at h
      · split at h
        · simp only [Option.some.injEq, Prod.mk.injEq] at h
          rw [← h.2.1]
          rfl
        · exact absurd h (by simp)
      · exact absurd h (by simp)
    | white cc =>
      simp only [runPE] at h
      split at h
      · split at h
        · simp only [Option.some.injEq, Prod.mk.injEq] at h
          rw [← h.2.1]
          rfl
        · exact absurd h (by simp)
      · exact absurd h (by simp)
    | emptyToks n0 =>
      simp only [runPE, Option.some.injEq, Prod.mk.injEq] at h
      rw [← h.2.1]
      exact dlShapeOkList_replicate n0
    | emptyNoTok =>
      simp only [runPE, Option.some.injEq, Prod.mk.injEq] at h
      rw [← h.2.1]
      rfl
    | lineEnd =>
      simp only [runPE] at h
      split at h
      · split at h
        · simp only [Option.some.injEq, Prod.mk.injEq] at h
          rw [← h.2.1]
          rfl
        · exact absurd h (by simp)
      · split at h
        · simp only [Option.some.injEq, Prod.mk.injEq] at h
          rw [← h.2.1]
          rfl
        · exact absurd h (by simp)
    | restOfLine =>
      simp only [runPE, Option.some.injEq, Prod.mk.injEq] at h
      rw [← h.2.1]
      rfl
    | quoted q =>
      simp only [runPE, runQuoted] at h
      split at h
      · split at h
        · simp only [Option.some.injEq, Prod.mk.injEq] at h
          rw [← h.2.1]
          rfl
        · exact absurd h (by simp)
      · exact absurd h (by simp)
    | pyNumber =>
      simp only [runPE, runNumber] at h
      split at h
      · simp only [Option.some.injEq, Prod.mk.injEq] at h
        rw [← h.2.1]
        rfl
      · split at h
        · simp only [Option.some.injEq, Prod.mk.injEq] at h
          rw [← h.2.1]
          rfl
        · split at h
          · simp only [Option.some.injEq, Prod.mk.injEq] at h
            rw [← h.2.1]
            rfl
          · exact absurd h (by simp)
    | precededBySemi =>
      simp only [runPE] at h
      split at h
      · exact absurd h (by simp)
      · split at h
        · simp only [Option.some.injEq, Prod.mk.injEq] at h
          rw [← h.2.1]
          rfl
        · exact absurd h (by simp)
    | seq a b =>
      simp only [dlSafe, Bool.and_eq_true] at hsafe
      obtain ⟨ha, hb⟩ := hsafe
      simp only [runPE] at h
      split at h
      · rename_i j1 ta fa hxa
        split at h
        · rename_i k2 tb fb hxb
          simp only [Option.some.injEq, Prod.mk.injEq] at h
          obtain ⟨hj, ht, hf⟩ := h
          have h2 := ih a s i j1 ta fa ha hxa
          have h4 := ih b s j1 k2 tb fb hb hxb
          rw [← ht, dlShapeOkList_append, h2, h4]
          rfl
        · exact absurd h (by simp)
      · exact absurd h (by simp)
    | firstOf a b =>
      simp only [dlSafe, Bool.and_eq_true] at hsafe
      obtain ⟨ha, hb⟩ := hsafe
      simp only [runPE] at h
      split at h
      · rename_i r hx
        obtain ⟨j1, t1, f1⟩ := r
        simp only [Option.some.injEq, Prod.mk.injEq] at h
        obtain ⟨hj, ht, hf⟩ := h
        rw [← ht]
        exact ih a s i j1 t1 f1 ha hx
      · exact ih b s i j toks f hb h
    | longestOf a b =>
      simp only [dlSafe, Bool.and_eq_true] at hsafe
      obtain ⟨ha, hb⟩ := hsafe
      simp only [runPE] at h
      split at h
      · rename_i ja ta fa jb tb fb hxa hxb
        split at h
        · simp only [Option.some.injEq, Prod.mk.injEq] at h
          obtain ⟨hj, ht, hf⟩ := h
          rw [← ht]
          exact ih b s i jb tb fb hb hxb
        · simp only [Option.some.injEq, Prod.mk.injEq] at h
          obtain ⟨hj, ht, hf⟩ := h
          rw [← ht]
          exact ih a s i ja ta fa ha hxa
      · rename_i r hxa hxb
        obtain ⟨ja, ta, fa⟩ := r
        simp only [Option.some.injEq, Prod.mk.injEq] at h
        obtain ⟨hj, ht, hf⟩ := h
        rw [← ht]
        exact ih a s i ja ta fa ha hxa
      · rename_i r hxa hxb
        obtain ⟨jb, tb, fb⟩ := r
        simp only [Option.some.injEq, Prod.mk.injEq] at h
        obtain ⟨hj, ht, hf⟩ := h
        rw [← ht]
        exact ih b s i jb tb fb hb hxb
      · exact absurd h (by simp)
    | opt p' d =>
      simp only [runPE] at h
      split at h
      · rename_i r hx
        obtain ⟨j1, t1, f1⟩ := r
        simp only [Option.some.injEq, Prod.mk.injEq] at h
        obtain ⟨hj, ht, hf⟩ := h
        rw [← ht]
        have hp' : dlSafe p' = true := by
          cases d with
          | noDef => exact hsafe
          | withDef t0 =>
            simp only [dlSafe, Bool.and_eq_true] at hsafe
            exact hsafe.1
        exact ih p' s i j1 t1 f1 hp' hx
      · cases d with
        | noDef =>
          simp only [Option.some.injEq, Prod.mk.injEq] at h
          rw [← h.2.1]
          rfl
        | withDef t0 =>
          simp only [dlSafe, Bool.and_eq_true] at hsafe
          simp only [Option.some.injEq, Prod.mk.injEq] at h
          rw [← h.2.1]
          simp [dlShapeOkList, hsafe.2]
    | repMin m p' =>
      have hp' : dlSafe p' = true := hsafe
      simp only [runPE] at h
      split at h
      · split at h
        · simp only [Option.some.injEq, Prod.mk.injEq] at h
          rw [← h.2.1]
          rfl
        · exact absurd h (by simp)
      · rename_i j1 t1 f1 hx1
        split at h
        · rename_i k2 t2 f2 hx2
          simp only [Option.some.injEq, Prod.mk.injEq] at h
          obtain ⟨hj, ht, hf⟩ := h
          have h2 := ih p' s i j1 t1 f1 hp' hx1
          have h4 := ih (.repMin (m - 1) p') s j1 k2 t2 f2 hp' hx2
          rw [← ht, dlShapeOkList_append, h2, h4]
          rfl
        · exact absurd h (by simp)
    | followedBy p' =>
      simp only [runPE] at h
      split at h
      · simp only [Option.some.injEq, Prod.mk.injEq] at h
        rw [← h.2.1]
        rfl
      · exact absurd h (by simp)
    | notAny p' =>
      simp only [runPE] at h
      split at h
      · exact absurd h (by simp)
      · simp only [Option.some.injEq, Prod.mk.injEq] at h
        rw [← h.2.1]
        rfl
    | act a p' =>
      cases a with
      | join =>
        simp only [runPE] at h
        split at h
        · simp only [Option.some.injEq, Prod.mk.injEq, applyAct] at h
          rw [← h.2.1]
          rfl
        · exact absurd h (by simp)
      | noneTo2 =>
        have hp' : dlSafe p' = true := hsafe
        simp only [runPE] at h
        split at h
        · rename_i j1 t1 f1 hx
          simp only [Option.some.injEq, Prod.mk.injEq] at h
          obtain ⟨hj, ht, hf⟩ := h
          have hIH := ih p' s i j1 t1 f1 hp' hx
          rw [← ht]
          cases t1 with
          | nil => rfl
          | cons t0 rest =>
            cases t0 with
            | none => rfl
            | str v => simpa [applyAct] using hIH
            | intTok m0 => simpa [applyAct] using hIH
            | floatTok raw => simpa [applyAct] using hIH
            | leaf v => simpa [applyAct] using hIH
            | node k0 ch => simpa [applyAct] using hIH
        · exact absurd h (by simp)
      | wrap k =>
        simp only [dlSafe] at hsafe
        simp only [runPE] at h
        split at h
        · rename_i j1 t1 f1 hx
          simp only [Option.some.injEq, Prod.mk.injEq, applyAct] at h
          obtain ⟨hj, ht, hf⟩ := h
          by_cases hk : (k == Kind.delimitedList) = true
          · rw [if_pos hk] at hsafe
            have hkk : k = Kind.delimitedList := by simpa using hk
            subst hkk
            rw [dlWrap.eq_def] at hsafe
            split at hsafe
            · rename_i m e q x e2
              simp only [Bool.and_eq_true] at hsafe
              obtain ⟨⟨⟨⟨⟨he1, hse⟩, hsq⟩, hsx⟩, he2⟩, hse2⟩ := hsafe
              have hsp : dlSafe
                  (.firstOf
                    (.seq (.repMin m
                      (.seq (.seq e (.act .join q)) (.followedBy x))) e2)
                    .emptyNoTok) = true := by
                simp [dlSafe, hse, hsq, hsx, hse2]
              have hIH := ih _ s i j1 t1 f1 hsp hx
              have halt : altShape t1 = true := by
                cases n with
                | zero => exact absurd hx (by simp [runPE])
                | succ n1 =>
                  simp only [runPE] at hx
                  split at hx
                  · rename_i r hx1
                    obtain ⟨j2, t2, f2⟩ := r
                    simp only [Option.some.injEq, Prod.mk.injEq] at hx
                    obtain ⟨-, ht2, -⟩ := hx
                    rw [← ht2]
                    exact dl_core_run n1 m e q x e2 s i j2 t2 f2 he1 he2 hx1
                  · cases n1 with
                    | zero => exact absurd hx (by simp [runPE])
                    | succ n2 =>
                      simp only [runPE, Option.some.injEq, Prod.mk.injEq] at hx
                      rw [← hx.2.1]
                      rfl
              rw [← ht]
              simp [dlShapeOkList, dlShapeOk, altShape_len t1 halt,
                altShape_oddStrs t1 halt, hIH]
            · rename_i m e q x e2
              simp only [Bool.and_eq_true] at hsafe
              obtain ⟨⟨⟨⟨⟨he1, hse⟩, hsq⟩, hsx⟩, he2⟩, hse2⟩ := hsafe
              have hsp : dlSafe
                  (.seq (.repMin m
                    (.seq (.seq e (.act .join q)) (.followedBy x))) e2) = true := by
                simp [dlSafe, hse, hsq, hsx, hse2]
              have hIH := ih _ s i j1 t1 f1 hsp hx
              have halt : altShape t1 = true :=
                dl_core_run n m e q x e2 s i j1 t1 f1 he1 he2 hx
              rw [← ht]
              simp [dlShapeOkList, dlShapeOk, altShape_len t1 halt,
                altShape_oddStrs t1 halt, hIH]
            · exact Bool.noConfusion hsafe
          · rw [if_neg hk] at hsafe
            have hkk : (k == Kind.delimitedList) = false := by simpa using hk
            have hIH := ih p' s i j1 t1 f1 hsafe hx
            rw [← ht]
            simp [dlShapeOkList, dlShapeOk, hkk, hIH]
        · exact absurd h (by simp)
    | ref r =>
      simp only [runPE] at h
      exact ih (rules r) s i j toks f (dlSafe_rules r) h

/-- The tree `parse_string` produces for `"f()"` (an empty-argument call,
whose `DelimitedList` has zero children). -/
def c6WitnessTree : Tok :=
  .node .file
    [.str [],
     .node .code
       [.node .statementK
         [.str [],
          .node .callK
            [.str ['f'],
             .node .argumentsList
               [.node .parenthesizedK
                 [.str ['('], .str [],
                  .node .delimitedList [],
                  .str [], .str [')']]]],
          .str [], .str []]],
     .str []]

/-- **C6** (amended): every `DelimitedList` node in any tree
`grammar.parse_string` produces has plain-string delimiters at odd
indices, and is either empty (as for `f()` or `[]`, where
`min_elements=0` falls back to pyparsing's `empty`) or of odd length
with elements at even indices. -/
theorem c6_dl_shape (fuel : Nat) (s : List Char) (t : Tok)
    (h : parseString fuel s = some t) : dlShapeOk t = true := by
  simp only [parseString] at h
  split at h
  · rename_i toks ex hpr
    simp only [parseRun] at hpr
    split at hpr
    · rename_i j toks' ex' hr
      split at hpr
      · simp only [Option.some.injEq, Prod.mk.injEq] at hpr
        obtain ⟨ht, he⟩ := hpr
        have hlist := runPE_dlShape fuel filePE (expandTabs s) 0 j toks' ex'
          dlSafe_filePE hr
        rw [ht] at hlist
        cases toks with
        | nil => simp at h
        | cons t0 rest =>
          simp only [List.get?, Option.some.injEq] at h
          simp only [dlShapeOkList, Bool.and_eq_true] at hlist
          rw [← h]
          exact hlist.1
      · exact absurd hpr (by simp)
    · exact absurd hpr (by simp)
  · exact absurd h (by simp)

/-- **C6** witness: the parse of `"f()"` contains an empty
`DelimitedList`, and the whole tree satisfies the shape invariant. -/
theorem c6_dl_shape_witness :
    parseString 400 (cs "f()") = some c6WitnessTree ∧
      dlShapeOk c6WitnessTree = true :=
  ⟨by decide, c6_dl_shape 400 (cs "f()") c6WitnessTree (by decide)⟩

/-! ## Identifier acceptance

`identifier = ~ReservedKeyword() + Word(alphas, alphanums + "_.",
max=63)`: the keyword guard is a plain `Or` of `Literal`s with no
lookahead, so it fires on any keyword *prefix*; the `Word` then has to
consume the whole input. -/

/-- One step of the interpreter on `Or` (longest match). -/
theorem runPE_longestOf_step (fuel : Nat) (a b : PE) (s : List Char)
    (i : Nat) :
    runPE (fuel + 1) (.longestOf a b) s i
      = match runPE fuel a s i, runPE fuel b s i with
        | some (ja, ta, fa), some (jb, tb, fb) =>
          if ja < jb then some (jb, tb, fb) else some (ja, ta, fa)
        | some r, Option.none => some r
        | Option.none, some r => some r
        | Option.none, Option.none => Option.none := rfl

/-- `Or(Literal(s) for s in ws)` fails exactly when no literal occurs at
the position. -/
theorem orLits_none :
    ∀ (ws : List String) (fuel : Nat) (s : List Char) (i : Nat),
      ws.length < fuel →
      (runPE fuel (orLits ws) s i = Option.none ↔
        ∀ w ∈ ws, litHere s i (cs w) = false) := by
  intro ws
  induction ws with
  | nil =>
    intro fuel s i hf
    obtain ⟨f, rfl⟩ : ∃ f, fuel = f + 1 := ⟨fuel - 1, by omega⟩
    simp [orLits, runPE]
  | cons w rest ih =>
    intro fuel s i hf
    obtain ⟨f, rfl⟩ : ∃ f, fuel = f + 1 := ⟨fuel - 1, by omega⟩
    cases rest with
    | nil =>
      cases hlit : litHere s i (cs w) <;>
        simp [orLits, runPE, hlit]
    | cons w2 rest2 =>
      have hlen : (w2 :: rest2).length < f := by
        simp only [List.length_cons] at hf ⊢
        omega
      have hrest := ih f s i hlen
      obtain ⟨g, rfl⟩ : ∃ g, f = g + 1 := ⟨f - 1, by omega⟩
      have hsplit : orLits (w :: w2 :: rest2)
          = PE.longestOf (.lit (cs w)) (orLits (w2 :: rest2)) := rfl
      cases hlit : litHere s i (cs w)
      case false =>
        have hlitv : runPE (g + 1) (.lit (cs w)) s i = Option.none := by
          simp [runPE, hlit]
        cases hr : runPE (g + 1) (orLits (w2 :: rest2)) s i with
        | none =>
          have hval : runPE (g + 1 + 1) (orLits (w :: w2 :: rest2)) s i
              = Option.none := by
            rw [hsplit, runPE_longestOf_step, hlitv, hr]
          rw [hval]
          constructor
          · intro _ w' hw'
            rcases List.mem_cons.mp hw' with rfl | hmem
            · exact hlit
            · exact (hrest.mp hr) w' hmem
          · intro _
            rfl
        | some r =>
          obtain ⟨jr, tr, fr⟩ := r
          have hval : runPE (g + 1 + 1) (orLits (w :: w2 :: rest2)) s i
              = some (jr, tr, fr) := by
            rw [hsplit, runPE_longestOf_step, hlitv, hr]
          rw [hval]
          constructor
          · intro hc
            exact Option.noConfusion hc
          · intro hall
            have hn := hrest.mpr (fun w' hm => hall w' (List.mem_cons_of_mem _ hm))
            rw [hn] at hr
            exact Option.noConfusion hr
      case true =>
        have hlitv : runPE (g + 1) (.lit (cs w)) s i
            = some (i + (cs w).length, [.str (cs w)], true) := by
          simp [runPE, hlit]
        cases hr : runPE (g + 1) (orLits (w2 :: rest2)) s i with
        | none =>
          have hval : runPE (g + 1 + 1) (orLits (w :: w2 :: rest2)) s i
              = some (i + (cs w).length, [.str (cs w)], true) := by
            rw [hsplit, runPE_longestOf_step, hlitv, hr]
          rw [hval]
          constructor
          · intro hc
            exact Option.noConfusion hc
          · intro hall
            exact absurd (hall w (List.mem_cons_self w _)) (by simp [hlit])
        | some r =>
          obtain ⟨jr, tr, fr⟩ := r
          have hval : runPE (g + 1 + 1) (orLits (w :: w2 :: rest2)) s i
              = if i + (cs w).length < jr then some (jr, tr, fr)
                else some (i + (cs w).length, [.str (cs w)], true) := by
            rw [hsplit, runPE_longestOf_step, hlitv, hr]
          rw [hval]
          constructor
          · intro hc
            by_cases hlt : i + (cs w).length < jr
            · rw [if_pos hlt] at hc
              exact Option.noConfusion hc
            · rw [if_neg hlt] at hc
              exact Option.noConfusion hc
          · intro hall
            exact absurd (hall w (List.mem_cons_self w _)) (by simp [hlit])

theorem all_takeWhile (p : Char → Bool) (l : List Char) :
    ((l.takeWhile p).length = l.length) ↔ l.all p = true := by
  induction l with
  | nil => simp
  | cons c rest ih =>
    by_cases hc : p c
    · simp [List.takeWhile_cons, hc, ih]
    · simp only [List.takeWhile_cons, hc]
      simp [hc]

theorem length_takeWhile_le' (p : Char → Bool) (l : List Char) :
    (l.takeWhile p).length ≤ l.length := by
  induction l with
  | nil => simp
  | cons c rest ih =>
    by_cases hc : p c
    · simp [List.takeWhile_cons, hc]
      omega
    · simp [List.takeWhile_cons, hc]

/-- Acceptance arithmetic of the greedy capped `Word`: it consumes the
whole input exactly when every later character is in the body class and
the total length fits the cap. -/
theorem word_accept_iff (p : Char → Bool) (c : Char) (rest : List Char) :
    decide ((c :: rest).length ≤ 1 + min (runLen p (c :: rest) 1) 62)
      = (rest.all p && decide (rest.length ≤ 62)) := by
  have h1 : runLen p (c :: rest) 1 = (rest.takeWhile p).length := rfl
  have h2 := length_takeWhile_le' p rest
  rw [h1]
  by_cases hall : rest.all p = true
  · have hk : (rest.takeWhile p).length = rest.length :=
      (all_takeWhile p rest).mpr hall
    rw [hk, hall, Bool.true_and]
    exact decide_eq_decide.mpr (by simp only [List.length_cons]; omega)
  · have hne : ¬ (rest.takeWhile p).length = rest.length :=
      fun he => hall ((all_takeWhile p rest).mp he)
    have hlt : (rest.takeWhile p).length < rest.length := lt_of_le_of_ne h2 hne
    have hfalse : rest.all p = false := by
      revert hall
      cases rest.all p <;> simp
    rw [hfalse, Bool.false_and]
    exact decide_eq_false (by simp only [List.length_cons]; omega)

/-- Modelled from the spec (amended): an identifier's first character is
a letter, later characters are alphanumeric/underscore/dot, the length
is at most 63, and no reserved keyword is a prefix. -/
def identifierSpec : List Char → Bool
  | [] => false
  | c :: rest =>
    isAlphaAscii c && rest.all isAlnumDotU && decide (rest.length ≤ 62) &&
      !(KEYWORDS.any fun kw => (cs kw).isPrefixOf (c :: rest))

/-- **C7** (amended).  `identifier.parse_string(s, parse_all=True)`
succeeds exactly when the first character is a letter, the later
characters are alphanumeric/underscore/dot, the length is at most 63,
and no reserved keyword is a *prefix* of the word: `ReservedKeyword` is
a plain `Or` of `Literal`s with no negative lookahead, so `iff` and
`format` are rejected even though they only start with keywords. -/
theorem c7_identifier_characterization (fuel : Nat) (s : List Char)
    (hf : 24 ≤ fuel) :
    identifierAccepts fuel s = identifierSpec s := by
  obtain ⟨f1, rfl⟩ : ∃ f, fuel = f + 1 := ⟨fuel - 1, by omega⟩
  obtain ⟨f2, rfl⟩ : ∃ f, f1 = f + 1 := ⟨f1 - 1, by omega⟩
  have eseq : runPE (f2 + 1 + 1) identifierPE s 0
      = (match runPE (f2 + 1) (.notAny reservedKeyword) s 0 with
         | some (j, ta, fa) =>
           (match runPE (f2 + 1)
               (.wordCl .alpha .alnumDotU (some MAX_IDENTIFIER_LENGTH)) s j with
            | some (k, tb, fb) => some (k, ta ++ tb, fa && fb)
            | Option.none => Option.none)
         | Option.none => Option.none) := rfl
  by_cases hkw : ∀ w ∈ KEYWORDS, litHere s 0 (cs w) = false
  · have hlen : KEYWORDS.length < f2 := by
      have h21 : KEYWORDS.length = 21 := rfl
      omega
    have hnone : runPE f2 reservedKeyword s 0 = Option.none :=
      (orLits_none KEYWORDS f2 s 0 hlen).mpr hkw
    have hnot : runPE (f2 + 1) (.notAny reservedKeyword) s 0
        = some (0, [], true) := by
      have e : runPE (f2 + 1) (.notAny reservedKeyword) s 0
          = (match runPE f2 reservedKeyword s 0 with
             | some _ => Option.none
             | Option.none => some (0, [], true)) := rfl
      rw [e, hnone]
    have estep : runPE (f2 + 1 + 1) identifierPE s 0
        = (match runPE (f2 + 1)
            (.wordCl .alpha .alnumDotU (some MAX_IDENTIFIER_LENGTH)) s 0 with
           | some (k, tb, fb) => some (k, ([] : List Tok) ++ tb, true && fb)
           | Option.none => Option.none) := by
      rw [eseq, hnot]
    cases s with
    | nil =>
      have ew : runPE (f2 + 1)
          (.wordCl .alpha .alnumDotU (some MAX_IDENTIFIER_LENGTH))
          ([] : List Char) 0 = Option.none := rfl
      unfold identifierAccepts
      rw [estep, ew]
      rfl
    | cons c rest =>
      have ew : runPE (f2 + 1)
          (.wordCl .alpha .alnumDotU (some MAX_IDENTIFIER_LENGTH))
          (c :: rest) 0
          = (if ccMem .alpha c then
              some (0 + 1 + min
                  (runLen (ccMem .alnumDotU) (c :: rest) (0 + 1))
                  (MAX_IDENTIFIER_LENGTH - 1),
                [.str (slice (c :: rest) 0 (0 + 1 + min
                  (runLen (ccMem .alnumDotU) (c :: rest) (0 + 1))
                  (MAX_IDENTIFIER_LENGTH - 1)))],
                true)
             else Option.none) := rfl
      by_cases hca : isAlphaAscii c = true
      · have haccept : identifierAccepts (f2 + 1 + 1) (c :: rest)
            = decide ((c :: rest).length
                ≤ 1 + min (runLen (ccMem .alnumDotU) (c :: rest) 1) 62) := by
          unfold identifierAccepts
          rw [estep, ew, if_pos (show ccMem .alpha c = true from hca)]
          rfl
        rw [haccept, word_accept_iff (ccMem .alnumDotU) c rest]
        have hany : (KEYWORDS.any fun kw => (cs kw).isPrefixOf (c :: rest))
            = false := by
          simp only [List.any_eq_false]
          intro kw hmem
          have h0 : (cs kw).isPrefixOf (c :: rest) = false := hkw kw hmem
          simp [h0]
        have hfun : ccMem CC.alnumDotU = isAlnumDotU := funext (fun _ => rfl)
        simp [identifierSpec, hca, hany, hfun]
      · have hcf : isAlphaAscii c = false := by
          revert hca
          cases isAlphaAscii c <;> simp
        have ew2 : runPE (f2 + 1)
            (.wordCl .alpha .alnumDotU (some MAX_IDENTIFIER_LENGTH))
            (c :: rest) 0 = Option.none := by
          rw [ew, if_neg]
          intro hcc
          exact hca hcc
        unfold identifierAccepts
        rw [estep, ew2]
        simp [identifierSpec, hcf]
  · have hex : ∃ w, w ∈ KEYWORDS ∧ litHere s 0 (cs w) = true := by
      by_contra hno
      apply hkw
      intro w hm
      by_contra hne
      refine hno ⟨w, hm, ?_⟩
      revert hne
      cases litHere s 0 (cs w) <;> simp
    obtain ⟨w, hwmem, hwlit⟩ := hex
    have hsome : ∃ r, runPE f2 reservedKeyword s 0 = some r := by
      cases hx : runPE f2 reservedKeyword s 0 with
      | none =>
        have hlen : KEYWORDS.length < f2 := by
          have h21 : KEYWORDS.length = 21 := rfl
          omega
        have hall := (orLits_none KEYWORDS f2 s 0 hlen).mp hx
        exact absurd (hall w hwmem) (by simp [hwlit])
      | some r => exact ⟨r, rfl⟩
    obtain ⟨r, hr⟩ := hsome
    have hnot : runPE (f2 + 1) (.notAny reservedKeyword) s 0
        = Option.none := by
      have e : runPE (f2 + 1) (.notAny reservedKeyword) s 0
          = (match runPE f2 reservedKeyword s 0 with
             | some _ => Option.none
             | Option.none => some (0, [], true)) := rfl
      rw [e, hr]
    have estep : runPE (f2 + 1 + 1) identifierPE s 0 = Option.none := by
      rw [eseq, hnot]
    unfold identifierAccepts
    rw [estep]
    cases s with
    | nil => rfl
    | cons c rest =>
      have hany : (KEYWORDS.any fun kw => (cs kw).isPrefixOf (c :: rest))
          = true :=
        List.any_eq_true.mpr ⟨w, hwmem, hwlit⟩
      simp [identifierSpec, hany]

/-- **C7** witness: at fuel 64 the characterization applies; `"iff"`
starts with the keyword `if` and so is not an identifier on either
side. -/
theorem c7_identifier_characterization_witness :
    24 ≤ 64 ∧ identifierAccepts 64 (cs "iff") = identifierSpec (cs "iff") ∧
      identifierSpec (cs "iff") = false :=
  ⟨by decide, c7_identifier_characterization 64 (cs "iff") (by decide),
    by decide⟩

/-! ## Blank lines before comments

The observers for the comment-spacing claim: where `Comment` nodes can
sit in a tree (only as elements of `Code` lists), how many newlines the
text slot directly before each comment holds, and the claim's final
property (at least two newlines unless the previous element is itself a
comment). -/

def noCommentChild : List Tok → Bool
  | [] => true
  | c :: rest => !isCommentTok c && noCommentChild rest

mutual

/-- Comments appear only as elements of `Code` nodes, whose children
alternate construct/delimiter-string. -/
def placed : Tok → Bool
  | .node k ch =>
    (if k == .code then altShape ch else noCommentChild ch) && placedList ch
  | _ => true

def placedList : List Tok → Bool
  | [] => true
  | c :: rest => placed c && placedList rest

end

/-- Every comment whose direct predecessor is a string slot has at least
`req` newlines in that slot (checked with a one-element lookbehind). -/
def slotGo (req : Nat) : Option Tok → List Tok → Bool
  | _, [] => true
  | prev, c :: rest =>
    (if isCommentTok c then
      (match prev with
       | some (.str p) => decide (req ≤ countNl p)
       | _ => true)
     else true) && slotGo req (some c) rest

mutual

def slotsNl : Tok → Bool
  | .node _ ch => slotGo 1 Option.none ch && slotsNlList ch
  | _ => true

def slotsNlList : List Tok → Bool
  | [] => true
  | c :: rest => slotsNl c && slotsNlList rest

end

/-- The claim property at one child list: a comment with a preceding
string slot that is not directly preceded by another comment has at
least two newlines in that slot (two-element lookbehind). -/
def spacedGo : Option Tok → Option Tok → List Tok → Bool
  | _, _, [] => true
  | pprev, prev, c :: rest =>
    (if isCommentTok c &&
        !(match pprev with | some t2 => isCommentTok t2 | _ => false) then
      (match prev with
       | some (.str p) => decide (2 ≤ countNl p)
       | _ => true)
     else true) && spacedGo prev (some c) rest

mutual

def spaced : Tok → Bool
  | .node _ ch => spacedGo Option.none Option.none ch && spacedList ch
  | _ => true

def spacedList : List Tok → Bool
  | [] => true
  | c :: rest => spaced c && spacedList rest

end

/-- A list without comments satisfies any slot requirement. -/
theorem slotGo_of_noComment (req : Nat) :
    ∀ (l : List Tok) (prev : Option Tok), noCommentChild l = true →
      slotGo req prev l = true := by
  intro l
  induction l with
  | nil => intro prev _; rfl
  | cons c rest ih =>
    intro prev h
    simp only [noCommentChild, Bool.and_eq_true] at h
    simp only [slotGo, Bool.and_eq_true]
    constructor
    · rw [show isCommentTok c = false by simpa using h.1]
      rfl
    · exact ih (some c) h.2

/-- A list without comments satisfies the spacing property. -/
theorem spacedGo_of_noComment :
    ∀ (l : List Tok) (pprev prev : Option Tok), noCommentChild l = true →
      spacedGo pprev prev l = true := by
  intro l
  induction l with
  | nil => intro _ _ _; rfl
  | cons c rest ih =>
    intro pprev prev h
    simp only [noCommentChild, Bool.and_eq_true] at h
    simp only [spacedGo, Bool.and_eq_true]
    constructor
    · rw [show isCommentTok c = false by simpa using h.1]
      rfl
    · exact ih prev (some c) h.2

theorem noCommentChild_append (a b : List Tok) :
    noCommentChild (a ++ b) = (noCommentChild a && noCommentChild b) := by
  induction a with
  | nil => simp [noCommentChild]
  | cons c rest ih => simp [noCommentChild, ih, Bool.and_assoc]

theorem placedList_append (a b : List Tok) :
    placedList (a ++ b) = (placedList a && placedList b) := by
  induction a with
  | nil => simp [placedList]
  | cons c rest ih => simp [placedList, ih, Bool.and_assoc]

theorem placedList_replicate (n : Nat) :
    placedList (List.replicate n (.str [])) = true := by
  induction n with
  | zero => rfl
  | succ m ih => simp [List.replicate_succ, placedList, placed, ih]

theorem noCommentChild_replicate (n : Nat) :
    noCommentChild (List.replicate n (.str [])) = true := by
  induction n with
  | zero => rfl
  | succ m ih => simp [List.replicate_succ, noCommentChild, isCommentTok, ih]

/-- ParserElements whose success token lists contain no top-level
`Comment` node (the only `Comment`-wrapping element, `comment`, appears
solely in `code`'s alternation). -/
def noCommentTop : PE → Bool
  | .seq a b => noCommentTop a && noCommentTop b
  | .firstOf a b => noCommentTop a && noCommentTop b
  | .longestOf a b => noCommentTop a && noCommentTop b
  | .opt p .noDef => noCommentTop p
  | .opt p (.withDef t0) => noCommentTop p && !isCommentTok t0
  | .repMin _ p => noCommentTop p
  | .act .join _ => true
  | .act .noneTo2 p => noCommentTop p
  | .act (.wrap k) _ => k != .commentK
  | _ => true

/-- Every grammar rule wraps its tokens in a non-`Comment` node. -/
theorem noCommentTop_rules : ∀ r, noCommentTop (rules r) = true := by
  intro r
  cases r <;> decide

/-- Soundness of `noCommentTop`. -/
theorem noCommentTop_run :
    ∀ (fuel : Nat) (p : PE) (s : List Char) (i j : Nat) (toks : List Tok)
      (f : Bool), noCommentTop p = true → runPE fuel p s i = some (j, toks, f) →
      noCommentChild toks = true := by
  intro fuel
  induction fuel with
  | zero =>
    intro p s i j toks f _ h
    exact absurd h (by simp [runPE])
  | succ n ih =>
    intro p s i j toks f hp h
    cases p with
    | failP => simp [runPE] at h
    | lit l =>
      simp only [runPE] at h
      split at h
      · simp only [Option.some.injEq, Prod.mk.injEq] at h
        rw [← h.2.1]
        rfl
      · exact absurd h (by simp)
    | leafLit l =>
      simp only [runPE] at h
      split at h
      · simp only [Option.some.injEq, Prod.mk.injEq] at h
        rw [← h.2.1]
        rfl
      · exact absurd h (by simp)
    | charCl cc =>
      simp only [runPE] at h
      split at h
      · split at h
        · simp only [Option.some.injEq, Prod.mk.injEq] at h
          rw [← h.2.1]
          rfl
        · exact absurd h (by simp)
      · exact absurd h (by simp)
    | wordCl init body mx =>
      simp only [runPE] at h
      split at h
      · split at h
        · simp only [Option.some.injEq, Prod.mk.injEq] at h
          rw [← h.2.1]
          rfl
        · exact absurd h (by simp)
      · exact absurd h (by simp)
    | white cc =>
      simp only [runPE] at h
      split at h
      · split at h
        · simp only [Option.some.injEq, Prod.mk.injEq] at h
          rw [← h.2.1]
          rfl
        · exact absurd h (by simp)
      · exact absurd h (by simp)
    | emptyToks n0 =>
      simp only [runPE, Option.some.injEq, Prod.mk.injEq] at h
      rw [← h.2.1]
      exact noCommentChild_replicate n0
    | emptyNoTok =>
      simp only [runPE, Option.some.injEq, Prod.mk.injEq] at h
      rw [← h.2.1]
      rfl
    | lineEnd =>
      simp only [runPE] at h
      split at h
      · split at h
        · simp only [Option.some.injEq, Prod.mk.injEq] at h
          rw [← h.2.1]
          rfl
        · exact absurd h (by simp)
      · split at h
        · simp only [Option.some.injEq, Prod.mk.injEq] at h
          rw [← h.2.1]
          rfl
        · exact absurd h (by simp)
    | restOfLine =>
      simp only [runPE, Option.some.injEq, Prod.mk.injEq] at h
      rw [← h.2.1]
      rfl
    | quoted q =>
      simp only [runPE, runQuoted] at h
      split at h
      · split at h
        · simp only [Option.some.injEq, Prod.mk.injEq] at h
          rw [← h.2.1]
          rfl
        · exact absurd h (by simp)
      · exact absurd h (by simp)
    | pyNumber =>
      simp only [runPE, runNumber] at h
      split at h
      · simp only [Option.some.injEq, Prod.mk.injEq] at h
        rw [← h.2.1]
        rfl
      · split at h
        · simp only [Option.some.injEq, Prod.mk.injEq] at h
          rw [← h.2.1]
          rfl
        · split at h
          · simp only [Option.some.injEq, Prod.mk.injEq] at h
            rw [← h.2.1]
            rfl
          · exact absurd h (by simp)
    | precededBySemi =>
      simp only [runPE] at h
      split at h
      · exact absurd h (by simp)
      · split at h
        · simp only [Option.some.injEq, Prod.mk.injEq] at h
          rw [← h.2.1]
          rfl
        · exact absurd h (by simp)
    | seq a b =>
      simp only [noCommentTop, Bool.and_eq_true] at hp
      obtain ⟨ha, hb⟩ := hp
      simp only [runPE] at h
      split at h
      · rename_i j1 ta fa hxa
        split at h
        · rename_i k2 tb fb hxb
          simp only [Option.some.injEq, Prod.mk.injEq] at h
          obtain ⟨hj, ht, hf⟩ := h
          have h2 := ih a s i j1 ta fa ha hxa
          have h4 := ih b s j1 k2 tb fb hb hxb
          rw [← ht, noCommentChild_append, h2, h4]
          rfl
        · exact absurd h (by simp)
      · exact absurd h (by simp)
    | firstOf a b =>
      simp only [noCommentTop, Bool.and_eq_true] at hp
      obtain ⟨ha, hb⟩ := hp
      simp only [runPE] at h
      split at h
      · rename_i r hx
        obtain ⟨j1, t1, f1⟩ := r
        simp only [Option.some.injEq, Prod.mk.injEq] at h
        obtain ⟨hj, ht, hf⟩ := h
        rw [← ht]
        exact ih a s i j1 t1 f1 ha hx
      · exact ih b s i j toks f hb h
    | longestOf a b =>
      simp only [noCommentTop, Bool.and_eq_true] at hp
      obtain ⟨ha, hb⟩ := hp
      simp only [runPE] at h
      split at h
      · rename_i ja ta fa jb tb fb hxa hxb
        split at h
        · simp only [Option.some.injEq, Prod.mk.injEq] at h
          obtain ⟨hj, ht, hf⟩ := h
          rw [← ht]
          exact ih b s i jb tb fb hb hxb
        · simp only [Option.some.injEq, Prod.mk.injEq] at h
          obtain ⟨hj, ht, hf⟩ := h
          rw [← ht]
          exact ih a s i ja ta fa ha hxa
      · rename_i r hxa hxb
        obtain ⟨ja, ta, fa⟩ := r
        simp only [Option.some.injEq, Prod.mk.injEq] at h
        obtain ⟨hj, ht, hf⟩ := h
        rw [← ht]
        exact ih a s i ja ta fa ha hxa
      · rename_i r hxa hxb
        obtain ⟨jb, tb, fb⟩ := r
        simp only [Option.some.injEq, Prod.mk.injEq] at h
        obtain ⟨hj, ht, hf⟩ := h
        rw [← ht]
        exact ih b s i jb tb fb hb hxb
      · exact absurd h (by simp)
    | opt p' d =>
      simp only [runPE] at h
      split at h
      · rename_i r hx
        obtain ⟨j1, t1, f1⟩ := r
        simp only [Option.some.injEq, Prod.mk.injEq] at h
        obtain ⟨hj, ht, hf⟩ := h
        rw [← ht]
        have hp' : noCommentTop p' = true := by
          cases d with
          | noDef => exact hp
          | withDef t0 =>
            simp only [noCommentTop, Bool.and_eq_true] at hp
            exact hp.1
        exact ih p' s i j1 t1 f1 hp' hx
      · cases d with
        | noDef =>
          simp only [Option.some.injEq, Prod.mk.injEq] at h
          rw [← h.2.1]
          rfl
        | withDef t0 =>
          simp only [noCommentTop, Bool.and_eq_true] at hp
          simp only [Option.some.injEq, Prod.mk.injEq] at h
          rw [← h.2.1]
          simp [noCommentChild, hp.2]
    | repMin m p' =>
      have hp' : noCommentTop p' = true := hp
      simp only [runPE] at h
      split at h
      · split at h
        · simp only [Option.some.injEq, Prod.mk.injEq] at h
          rw [← h.2.1]
          rfl
        · exact absurd h (by simp)
      · rename_i j1 t1 f1 hx1
        split at h
        · rename_i k2 t2 f2 hx2
          simp only [Option.some.injEq, Prod.mk.injEq] at h
          obtain ⟨hj, ht, hf⟩ := h
          have h2 := ih p' s i j1 t1 f1 hp' hx1
          have h4 := ih (.repMin (m - 1) p') s j1 k2 t2 f2 hp' hx2
          rw [← ht, noCommentChild_append, h2, h4]
          rfl
        · exact absurd h (by simp)
    | followedBy p' =>
      simp only [runPE] at h
      split at h
      · simp only [Option.some.injEq, Prod.mk.injEq] at h
        rw [← h.2.1]
        rfl
      · exact absurd h (by simp)
    | notAny p' =>
      simp only [runPE] at h
      split at h
      · exact absurd h (by simp)
      · simp only [Option.some.injEq, Prod.mk.injEq] at h
        rw [← h.2.1]
        rfl
    | act a p' =>
      cases a with
      | join =>
        simp only [runPE] at h
        split at h
        · simp only [Option.some.injEq, Prod.mk.injEq, applyAct] at h
          rw [← h.2.1]
          rfl
        · exact absurd h (by simp)
      | noneTo2 =>
        have hp' : noCommentTop p' = true := hp
        simp only [runPE] at h
        split at h
        · rename_i j1 t1 f1 hx
          simp only [Option.some.injEq, Prod.mk.injEq] at h
          obtain ⟨hj, ht, hf⟩ := h
          have hIH := ih p' s i j1 t1 f1 hp' hx
          rw [← ht]
          cases t1 with
          | nil => rfl
          | cons t0 rest =>
            cases t0 with
            | none => rfl
            | str v => simpa [applyAct] using hIH
            | intTok m0 => simpa [applyAct] using hIH
            | floatTok raw => simpa [applyAct] using hIH
            | leaf v => simpa [applyAct] using hIH
            | node k0 ch => simpa [applyAct] using hIH
        · exact absurd h (by simp)
      | wrap k =>
        simp only [noCommentTop] at hp
        simp only [runPE] at h
        split at h
        · rename_i j1 t1 f1 hx
          simp only [Option.some.injEq, Prod.mk.injEq, applyAct] at h
          obtain ⟨hj, ht, hf⟩ := h
          rw [← ht]
          simp only [noCommentChild, isCommentTok, Bool.and_eq_true]
          constructor
          · simpa using hp
          · trivial
        · exact absurd h (by simp)
    | ref r =>
      simp only [runPE] at h
      exact ih (rules r) s i j toks f (noCommentTop_rules r) h

mutual

/-- Comment placement is guaranteed syntactically: a `Code` wrap has the
`ows_delimited_list` shape (so its children alternate element/string),
and every other wrap's immediate tokens contain no `Comment` node. -/
def commentSafe : PE → Bool
  | .seq a b => commentSafe a && commentSafe b
  | .firstOf a b => commentSafe a && commentSafe b
  | .longestOf a b => commentSafe a && commentSafe b
  | .opt p .noDef => commentSafe p
  | .opt p (.withDef t0) => commentSafe p && placed t0 && !isCommentTok t0
  | .repMin _ p => commentSafe p
  | .followedBy p => commentSafe p
  | .notAny p => commentSafe p
  | .act .join p => commentSafe p
  | .act .noneTo2 p => commentSafe p
  | .act (.wrap k) p =>
    if k == .code then codeWrap p else commentSafe p && noCommentTop p
  | _ => true

/-- The inner element of a `Code` wrap, as `ows_delimited_list` builds
it: the same alternating shape as `dlPE`. -/
def codeWrap : PE → Bool
  | .firstOf (.seq (.repMin _ (.seq (.seq e (.act .join q)) (.followedBy x))) e2)
      .emptyNoTok =>
    oneTok e && commentSafe e && commentSafe q && commentSafe x &&
      oneTok e2 && commentSafe e2
  | .seq (.repMin _ (.seq (.seq e (.act .join q)) (.followedBy x))) e2 =>
    oneTok e && commentSafe e && commentSafe q && commentSafe x &&
      oneTok e2 && commentSafe e2
  | _ => false

end

/-- Every grammar rule is `commentSafe`. -/
theorem commentSafe_rules : ∀ r, commentSafe (rules r) = true := by
  intro r
  cases r <;> decide

/-- The file entry element is `commentSafe`. -/
theorem commentSafe_filePE : commentSafe filePE = true := by decide

/-- Every token list a `commentSafe` element produces has well-placed
comments, recursively. -/
theorem runPE_placed :
    ∀ (fuel : Nat) (p : PE) (s : List Char) (i j : Nat) (toks : List Tok)
      (f : Bool), commentSafe p = true → runPE fuel p s i = some (j, toks, f) →
      placedList toks = true := by
  intro fuel
  induction fuel with
  | zero =>
    intro p s i j toks f _ h
    exact absurd h (by simp [runPE])
  | succ n ih =>
    intro p s i j toks f hsafe h
    cases p with
    | failP => simp [runPE] at h
    | lit l =>
      simp only [runPE] at h
      split at h
      · simp only [Option.some.injEq, Prod.mk.injEq] at h
        rw [← h.2.1]
        rfl
      · exact absurd h (by simp)
    | leafLit l =>
      simp only [runPE] at h
      split at h
      · simp only [Option.some.injEq, Prod.mk.injEq] at h
        rw [← h.2.1]
        rfl
      · exact absurd h (by simp)
    | charCl cc =>
      simp only [runPE] at h
      split at h
      · split at h
        · simp only [Option.some.injEq, Prod.mk.injEq] at h
          rw [← h.2.1]
          rfl
        · exact absurd h (by simp)
      · exact absurd h (by simp)
    | wordCl init body mx =>
      simp only [runPE] at h
      split at h
      · split at h
        · simp only [Option.some.injEq, Prod.mk.injEq] at h
          rw [← h.2.1]
          rfl
        · exact absurd h (by simp)
      · exact absurd h (by simp)
    | white cc =>
      simp only [runPE] at h
      split at h
      · split at h
        · simp only [Option.some.injEq, Prod.mk.injEq] at h
          rw [← h.2.1]
          rfl
        · exact absurd h (by simp)
      · exact absurd h (by simp)
    | emptyToks n0 =>
      simp only [runPE, Option.some.injEq, Prod.mk.injEq] at h
      rw [← h.2.1]
      exact placedList_replicate n0
    | emptyNoTok =>
      simp only [runPE, Option.some.injEq, Prod.mk.injEq] at h
      rw [← h.2.1]
      rfl
    | lineEnd =>
      simp only [runPE] at h
      split at h
      · split at h
        · simp only [Option.some.injEq, Prod.mk.injEq] at h
          rw [← h.2.1]
          rfl
        · exact absurd h (by simp)
      · split at h
        · simp only [Option.some.injEq, Prod.mk.injEq] at h
          rw [← h.2.1]
          rfl
        · exact absurd h (by simp)
    | restOfLine =>
      simp only [runPE, Option.some.injEq, Prod.mk.injEq] at h
      rw [← h.2.1]
      rfl
    | quoted q =>
      simp only [runPE, runQuoted] at h
      split at h
      · split at h
        · simp only [Option.some.injEq, Prod.mk.injEq] at h
          rw [← h.2.1]
          rfl
        · exact absurd h (by simp)
      · exact absurd h (by simp)
    | pyNumber =>
      simp only [runPE, runNumber] at h
      split at h
      · simp only [Option.some.injEq, Prod.mk.injEq] at h
        rw [← h.2.1]
        rfl
      · split at h
        · simp only [Option.some.injEq, Prod.mk.injEq] at h
          rw [← h.2.1]
          rfl
        · split at h
          · simp only [Option.some.injEq, Prod.mk.injEq] at h
            rw [← h.2.1]
            rfl
          · exact absurd h (by simp)
    | precededBySemi =>
      simp only [runPE] at h
      split at h
      · exact absurd h (by simp)
      · split at h
        · simp only [Option.some.injEq, Prod.mk.injEq] at h
          rw [← h.2.1]
          rfl
        · exact absurd h (by simp)
    | seq a b =>
      simp only [commentSafe, Bool.and_eq_true] at hsafe
      obtain ⟨ha, hb⟩ := hsafe
      simp only [runPE] at h
      split at h
      · rename_i j1 ta fa hxa
        split at h
        · rename_i k2 tb fb hxb
          simp only [Option.some.injEq, Prod.mk.injEq] at h
          obtain ⟨hj, ht, hf⟩ := h
          have h2 := ih a s i j1 ta fa ha hxa
          have h4 := ih b s j1 k2 tb fb hb hxb
          rw [← ht, placedList_append, h2, h4]
          rfl
        · exact absurd h (by simp)
      · exact absurd h (by simp)
    | firstOf a b =>
      simp only [commentSafe, Bool.and_eq_true] at hsafe
      obtain ⟨ha, hb⟩ := hsafe
      simp only [runPE] at h
      split at h
      · rename_i r hx
        obtain ⟨j1, t1, f1⟩ := r
        simp only [Option.some.injEq, Prod.mk.injEq] at h
        obtain ⟨hj, ht, hf⟩ := h
        rw [← ht]
        exact ih a s i j1 t1 f1 ha hx
      · exact ih b s i j toks f hb h
    | longestOf a b =>
      simp only [commentSafe, Bool.and_eq_true] at hsafe
      obtain ⟨ha, hb⟩ := hsafe
      simp only [runPE] at h
      split at h
      · rename_i ja ta fa jb tb fb hxa hxb
        split at h
        · simp only [Option.some.injEq, Prod.mk.injEq] at h
          obtain ⟨hj, ht, hf⟩ := h
          rw [← ht]
          exact ih b s i jb tb fb hb hxb
        · simp only [Option.some.injEq, Prod.mk.injEq] at h
          obtain ⟨hj, ht, hf⟩ := h
          rw [← ht]
          exact ih a s i ja ta fa ha hxa
      · rename_i r hxa hxb
        obtain ⟨ja, ta, fa⟩ := r
        simp only [Option.some.injEq, Prod.mk.injEq] at h
        obtain ⟨hj, ht, hf⟩ := h
        rw [← ht]
        exact ih a s i ja ta fa ha hxa
      · rename_i r hxa hxb
        obtain ⟨jb, tb, fb⟩ := r
        simp only [Option.some.injEq, Prod.mk.injEq] at h
        obtain ⟨hj, ht, hf⟩ := h
        rw [← ht]
        exact ih b s i jb tb fb hb hxb
      · exact absurd h (by simp)
    | opt p' d =>
      simp only [runPE] at h
      split at h
      · rename_i r hx
        obtain ⟨j1, t1, f1⟩ := r
        simp only [Option.some.injEq, Prod.mk.injEq] at h
        obtain ⟨hj, ht, hf⟩ := h
        rw [← ht]
        have hp' : commentSafe p' = true := by
          cases d with
          | noDef => exact hsafe
          | withDef t0 =>
            simp only [commentSafe, Bool.and_eq_true] at hsafe
            exact hsafe.1.1
        exact ih p' s i j1 t1 f1 hp' hx
      · cases d with
        | noDef =>
          simp only [Option.some.injEq, Prod.mk.injEq] at h
          rw [← h.2.1]
          rfl
        | withDef t0 =>
          simp only [commentSafe, Bool.and_eq_true] at hsafe
          simp only [Option.some.injEq, Prod.mk.injEq] at h
          rw [← h.2.1]
          simp [placedList, hsafe.1.2]
    | repMin m p' =>
      have hp' : commentSafe p' = true := hsafe
      simp only [runPE] at h
      split at h
      · split at h
        · simp only [Option.some.injEq, Prod.mk.injEq] at h
          rw [← h.2.1]
          rfl
        · exact absurd h (by simp)
      · rename_i j1 t1 f1 hx1
        split at h
        · rename_i k2 t2 f2 hx2
          simp only [Option.some.injEq, Prod.mk.injEq] at h
          obtain ⟨hj, ht, hf⟩ := h
          have h2 := ih p' s i j1 t1 f1 hp' hx1
          have h4 := ih (.repMin (m - 1) p') s j1 k2 t2 f2 hp' hx2
          rw [← ht, placedList_append, h2, h4]
          rfl
        · exact absurd h (by simp)
    | followedBy p' =>
      simp only [runPE] at h
      split at h
      · simp only [Option.some.injEq, Prod.mk.injEq] at h
        rw [← h.2.1]
        rfl
      · exact absurd h (by simp)
    | notAny p' =>
      simp only [runPE] at h
      split at h
      · exact absurd h (by simp)
      · simp only [Option.some.injEq, Prod.mk.injEq] at h
        rw [← h.2.1]
        rfl
    | act a p' =>
      cases a with
      | join =>
        simp only [runPE] at h
        split at h
        · simp only [Option.some.injEq, Prod.mk.injEq, applyAct] at h
          rw [← h.2.1]
          rfl
        · exact absurd h (by simp)
      | noneTo2 =>
        have hp' : commentSafe p' = true := hsafe
        simp only [runPE] at h
        split at h
        · rename_i j1 t1 f1 hx
          simp only [Option.some.injEq, Prod.mk.injEq] at h
          obtain ⟨hj, ht, hf⟩ := h
          have hIH := ih p' s i j1 t1 f1 hp' hx
          rw [← ht]
          cases t1 with
          | nil => rfl
          | cons t0 rest =>
            cases t0 with
            | none => rfl
            | str v => simpa [applyAct] using hIH
            | intTok m0 => simpa [applyAct] using hIH
            | floatTok raw => simpa [applyAct] using hIH
            | leaf v => simpa [applyAct] using hIH
            | node k0 ch => simpa [applyAct] using hIH
        · exact absurd h (by simp)
      | wrap k =>
        simp only [commentSafe] at hsafe
        simp only [runPE] at h
        split at h
        · rename_i j1 t1 f1 hx
          simp only [Option.some.injEq, Prod.mk.injEq, applyAct] at h
          obtain ⟨hj, ht, hf⟩ := h
          by_cases hk : (k == Kind.code) = true
          · rw [if_pos hk] at hsafe
            have hkk : k = Kind.code := by simpa using hk
            subst hkk
            rw [codeWrap.eq_def] at hsafe
            split at hsafe
            · rename_i m e q x e2
              simp only [Bool.and_eq_true] at hsafe
              obtain ⟨⟨⟨⟨⟨he1, hse⟩, hsq⟩, hsx⟩, he2⟩, hse2⟩ := hsafe
              have hsp : commentSafe
                  (.firstOf
                    (.seq (.repMin m
                      (.seq (.seq e (.act .join q)) (.followedBy x))) e2)
                    .emptyNoTok) = true := by
                simp [commentSafe, hse, hsq, hsx, hse2]
              have hIH := ih _ s i j1 t1 f1 hsp hx
              have halt : altShape t1 = true := by
                cases n with
                | zero => exact absurd hx (by simp [runPE])
                | succ n1 =>
                  simp only [runPE] at hx
                  split at hx
                  · rename_i r hx1
                    obtain ⟨j2, t2, f2⟩ := r
                    simp only [Option.some.injEq, Prod.mk.injEq] at hx
                    obtain ⟨-, ht2, -⟩ := hx
                    rw [← ht2]
                    exact dl_core_run n1 m e q x e2 s i j2 t2 f2 he1 he2 hx1
                  · cases n1 with
                    | zero => exact absurd hx (by simp [runPE])
                    | succ n2 =>
                      simp only [runPE, Option.some.injEq, Prod.mk.injEq] at hx
                      rw [← hx.2.1]
                      rfl
              rw [← ht]
              simp [placedList, placed, halt, hIH]
            · rename_i m e q x e2
              simp only [Bool.and_eq_true] at hsafe
              obtain ⟨⟨⟨⟨⟨he1, hse⟩, hsq⟩, hsx⟩, he2⟩, hse2⟩ := hsafe
              have hsp : commentSafe
                  (.seq (.repMin m
                    (.seq (.seq e (.act .join q)) (.followedBy x))) e2) = true := by
                simp [commentSafe, hse, hsq, hsx, hse2]
              have hIH := ih _ s i j1 t1 f1 hsp hx
              have halt : altShape t1 = true :=
                dl_core_run n m e q x e2 s i j1 t1 f1 he1 he2 hx
              rw [← ht]
              simp [placedList, placed, halt, hIH]
            · exact Bool.noConfusion hsafe
          · rw [if_neg hk] at hsafe
            rw [Bool.and_eq_true] at hsafe
            obtain ⟨hcs, hnct⟩ := hsafe
            have hkk : (k == Kind.code) = false := by simpa using hk
            have hIH := ih p' s i j1 t1 f1 hcs hx
            have hnc := noCommentTop_run n p' s i j1 t1 f1 hnct hx
            rw [← ht]
            simp [placedList, placed, hkk, hIH, hnc]
        · exact absurd h (by simp)
    | ref r =>
      simp only [runPE] at h
      exact ih (rules r) s i j toks f (commentSafe_rules r) h

/-! ### Generic pass-preservation machinery

Every recursive formatter pass has the shape
`P (node k ch) = node k (G k (ch.map P))` for a slot-rewriting `G`, is
the identity on non-node tokens, and its `G` leaves `Code` lists alone
and writes only comment-free, well-placed values.  Such passes preserve
`placed`. -/

theorem noCommentChild_getC :
    ∀ (l : List Tok) (i : Nat), noCommentChild l = true →
      isCommentTok (getC l i) = false := by
  intro l
  induction l with
  | nil => intro i _; rfl
  | cons c rest ih =>
    intro i h
    simp only [noCommentChild, Bool.and_eq_true] at h
    cases i with
    | zero => simpa using h.1
    | succ m => exact ih m h.2

theorem placedList_getC :
    ∀ (l : List Tok) (i : Nat), placedList l = true →
      placed (getC l i) = true := by
  intro l
  induction l with
  | nil => intro i _; rfl
  | cons c rest ih =>
    intro i h
    simp only [placedList, Bool.and_eq_true] at h
    cases i with
    | zero => exact h.1
    | succ m => exact ih m h.2

theorem noCommentChild_set :
    ∀ (l : List Tok) (i : Nat) (v : Tok), noCommentChild l = true →
      isCommentTok v = false → noCommentChild (l.set i v) = true := by
  intro l
  induction l with
  | nil => intro i v h _; exact h
  | cons c rest ih =>
    intro i v h hv
    simp only [noCommentChild, Bool.and_eq_true] at h
    cases i with
    | zero => simp [List.set, noCommentChild, hv, h.2]
    | succ m =>
      simp only [List.set, noCommentChild, Bool.and_eq_true]
      exact ⟨h.1, ih m v h.2 hv⟩

theorem placedList_set :
    ∀ (l : List Tok) (i : Nat) (v : Tok), placedList l = true →
      placed v = true → placedList (l.set i v) = true := by
  intro l
  induction l with
  | nil => intro i v h _; exact h
  | cons c rest ih =>
    intro i v h hv
    simp only [placedList, Bool.and_eq_true] at h
    cases i with
    | zero => simp [List.set, placedList, hv, h.2]
    | succ m =>
      simp only [List.set, placedList, Bool.and_eq_true]
      exact ⟨h.1, ih m v h.2 hv⟩

theorem altShape_set_even :
    ∀ (l : List Tok), altShape l = true → ∀ (i : Nat) (v : Tok), i % 2 = 0 →
      altShape (l.set i v) = true := by
  intro l
  induction l using altShape.induct with
  | case1 => intro _ i v _; simp [altShape]
  | case2 b =>
    intro _ i v _
    cases i with
    | zero => rfl
    | succ m => cases m <;> rfl
  | case3 b v0 c rest ih =>
    intro h i v hi
    have h' : altShape (c :: rest) = true := h
    cases i with
    | zero => exact h'
    | succ m =>
      cases m with
      | zero => omega
      | succ m2 =>
        cases m2 with
        | zero => exact ih h' 0 v (by omega)
        | succ m3 => exact ih h' (m3 + 1) v (by omega)
  | case4 l h1 h2 h3 =>
    intro hp
    simp [altShape] at hp

theorem altShape_setLast (l : List Tok) (v : Tok) (h : altShape l = true) :
    altShape (l.set (l.length - 1) v) = true := by
  cases l with
  | nil => exact h
  | cons c rest =>
    have hlen := altShape_len (c :: rest) h
    simp only [Bool.or_eq_true, beq_iff_eq] at hlen
    refine altShape_set_even (c :: rest) h _ v ?_
    simp only [List.length_cons] at hlen ⊢
    omega

/-- Non-`node` tokens, on which every recursive pass is the identity. -/
def nonNode : Tok → Prop
  | .node _ _ => False
  | _ => True

theorem pass_comment (P : Tok → Tok) (G : Kind → List Tok → List Tok)
    (h6 : ∀ k ch, P (.node k ch) = .node k (G k (ch.map P)))
    (h0 : ∀ t, nonNode t → P t = t) (c : Tok) :
    isCommentTok (P c) = isCommentTok c := by
  cases c with
  | node k ch => rw [h6]; rfl
  | str v => rw [h0 (.str v) True.intro]
  | none => rw [h0 .none True.intro]
  | intTok n => rw [h0 (.intTok n) True.intro]
  | floatTok raw => rw [h0 (.floatTok raw) True.intro]
  | leaf v => rw [h0 (.leaf v) True.intro]

theorem pass_altShape (P : Tok → Tok)
    (h0 : ∀ t, nonNode t → P t = t) :
    ∀ (l : List Tok), altShape l = true → altShape (l.map P) = true := by
  intro l
  induction l using altShape.induct with
  | case1 => intro _; rfl
  | case2 b => intro _; rfl
  | case3 b v c rest ih =>
    intro h
    have h' : altShape (c :: rest) = true := h
    simp only [List.map_cons]
    rw [h0 (.str v) True.intro]
    show altShape (P c :: List.map P rest) = true
    rw [← List.map_cons]
    exact ih h'
  | case4 l h1 h2 h3 =>
    intro hp
    simp [altShape] at hp

theorem pass_noComment (P : Tok → Tok) (G : Kind → List Tok → List Tok)
    (h6 : ∀ k ch, P (.node k ch) = .node k (G k (ch.map P)))
    (h0 : ∀ t, nonNode t → P t = t) :
    ∀ (l : List Tok), noCommentChild l = true →
      noCommentChild (l.map P) = true := by
  intro l
  induction l with
  | nil => intro _; rfl
  | cons c rest ih =>
    intro h
    simp only [noCommentChild, Bool.and_eq_true] at h
    simp only [List.map_cons, noCommentChild, Bool.and_eq_true]
    refine ⟨?_, ih h.2⟩
    rw [pass_comment P G h6 h0 c]
    exact h.1

mutual

theorem pass_placed (P : Tok → Tok) (G : Kind → List Tok → List Tok)
    (h6 : ∀ k ch, P (.node k ch) = .node k (G k (ch.map P)))
    (h0 : ∀ t, nonNode t → P t = t)
    (hGcode : ∀ l, G .code l = l)
    (hGnc : ∀ k l, noCommentChild l = true → noCommentChild (G k l) = true)
    (hGpl : ∀ k l, placedList l = true → placedList (G k l) = true) :
    ∀ (t : Tok), placed t = true → placed (P t) = true
  | .node k ch, h => by
    simp only [placed, Bool.and_eq_true] at h
    rw [h6]
    simp only [placed, Bool.and_eq_true]
    refine ⟨?_, hGpl k _ (pass_placedList P G h6 h0 hGcode hGnc hGpl ch h.2)⟩
    by_cases hk : (k == Kind.code) = true
    · rw [if_pos hk] at h ⊢
      have hkk : k = Kind.code := by simpa using hk
      subst hkk
      rw [hGcode]
      exact pass_altShape P h0 ch h.1
    · rw [if_neg hk] at h ⊢
      exact hGnc k _ (pass_noComment P G h6 h0 ch h.1)
  | .str v, h => by rw [h0 (.str v) True.intro]; exact h
  | .none, h => by rw [h0 .none True.intro]; exact h
  | .intTok n, h => by rw [h0 (.intTok n) True.intro]; exact h
  | .floatTok raw, h => by rw [h0 (.floatTok raw) True.intro]; exact h
  | .leaf v, h => by rw [h0 (.leaf v) True.intro]; exact h

theorem pass_placedList (P : Tok → Tok) (G : Kind → List Tok → List Tok)
    (h6 : ∀ k ch, P (.node k ch) = .node k (G k (ch.map P)))
    (h0 : ∀ t, nonNode t → P t = t)
    (hGcode : ∀ l, G .code l = l)
    (hGnc : ∀ k l, noCommentChild l = true → noCommentChild (G k l) = true)
    (hGpl : ∀ k l, placedList l = true → placedList (G k l) = true) :
    ∀ (l : List Tok), placedList l = true → placedList (l.map P) = true
  | [], h => h
  | c :: rest, h => by
    simp only [placedList, Bool.and_eq_true] at h
    simp only [List.map_cons, placedList, Bool.and_eq_true]
    exact ⟨pass_placed P G h6 h0 hGcode hGnc hGpl c h.1,
      pass_placedList P G h6 h0 hGcode hGnc hGpl rest h.2⟩

end

/-! ### `placed`-preservation of the simple slot-rewriting passes -/

def gNormWsParen (k : Kind) (l : List Tok) : List Tok :=
  if k == .parenthesizedK then setC (setC l 1 (.str [])) 3 (.str []) else l

theorem normWsParenList_map : ∀ l, normWsParenList l = l.map normWsParen := by
  intro l
  induction l with
  | nil => rfl
  | cons c rest ih => simp [normWsParenList, ih]

theorem normWsParen_shape : ∀ k ch,
    normWsParen (.node k ch) = .node k (gNormWsParen k (ch.map normWsParen)) := by
  intro k ch
  simp only [normWsParen, gNormWsParen, normWsParenList_map]
  by_cases hk : (k == Kind.parenthesizedK) = true <;> simp [hk]

theorem normWsParen_id : ∀ t, nonNode t → normWsParen t = t := by
  intro t h
  cases t <;> first | rfl | exact h.elim

theorem gNormWsParen_code : ∀ l, gNormWsParen .code l = l := by
  intro l
  rfl

theorem gNormWsParen_nc : ∀ k l, noCommentChild l = true →
    noCommentChild (gNormWsParen k l) = true := by
  intro k l h
  simp only [gNormWsParen]
  split
  · exact noCommentChild_set _ 3 _ (noCommentChild_set _ 1 _ h rfl) rfl
  · exact h

theorem gNormWsParen_pl : ∀ k l, placedList l = true →
    placedList (gNormWsParen k l) = true := by
  intro k l h
  simp only [gNormWsParen]
  split
  · exact placedList_set _ 3 _ (placedList_set _ 1 _ h rfl) rfl
  · exact h

theorem placed_normWsParen (t : Tok) (h : placed t = true) :
    placed (normWsParen t) = true :=
  pass_placed normWsParen gNormWsParen normWsParen_shape normWsParen_id
    gNormWsParen_code gNormWsParen_nc gNormWsParen_pl t h

def gNormWsAssign (k : Kind) (l : List Tok) : List Tok :=
  if k == .outputArguments then setC (setC l 1 (.str [' '])) 3 (.str [' '])
  else l

theorem normWsAssignList_map : ∀ l, normWsAssignList l = l.map normWsAssign := by
  intro l
  induction l with
  | nil => rfl
  | cons c rest ih => simp [normWsAssignList, ih]

theorem normWsAssign_shape : ∀ k ch,
    normWsAssign (.node k ch) = .node k (gNormWsAssign k (ch.map normWsAssign)) := by
  intro k ch
  simp only [normWsAssign, gNormWsAssign, normWsAssignList_map]
  by_cases hk : (k == Kind.outputArguments) = true <;> simp [hk]

theorem normWsAssign_id : ∀ t, nonNode t → normWsAssign t = t := by
  intro t h
  cases t <;> first | rfl | exact h.elim

theorem gNormWsAssign_code : ∀ l, gNormWsAssign .code l = l := by
  intro l
  rfl

theorem gNormWsAssign_nc : ∀ k l, noCommentChild l = true →
    noCommentChild (gNormWsAssign k l) = true := by
  intro k l h
  simp only [gNormWsAssign]
  split
  · exact noCommentChild_set _ 3 _ (noCommentChild_set _ 1 _ h rfl) rfl
  · exact h

theorem gNormWsAssign_pl : ∀ k l, placedList l = true →
    placedList (gNormWsAssign k l) = true := by
  intro k l h
  simp only [gNormWsAssign]
  split
  · exact placedList_set _ 3 _ (placedList_set _ 1 _ h rfl) rfl
  · exact h

theorem placed_normWsAssign (t : Tok) (h : placed t = true) :
    placed (normWsAssign t) = true :=
  pass_placed normWsAssign gNormWsAssign normWsAssign_shape normWsAssign_id
    gNormWsAssign_code gNormWsAssign_nc gNormWsAssign_pl t h

def gRmSemiAfterEnd (k : Kind) (l : List Tok) : List Tok :=
  if blockKinds.contains k && tokBeq (getNeg l 1) (.str [';']) then
    setNeg l 1 (.str [])
  else l

theorem rmSemiAfterEndList_map :
    ∀ l, rmSemiAfterEndList l = l.map rmSemiAfterEnd := by
  intro l
  induction l with
  | nil => rfl
  | cons c rest ih => simp [rmSemiAfterEndList, ih]

theorem rmSemiAfterEnd_shape : ∀ k ch,
    rmSemiAfterEnd (.node k ch)
      = .node k (gRmSemiAfterEnd k (ch.map rmSemiAfterEnd)) := by
  intro k ch
  simp only [rmSemiAfterEnd, gRmSemiAfterEnd, rmSemiAfterEndList_map]
  split <;> rfl

theorem rmSemiAfterEnd_id : ∀ t, nonNode t → rmSemiAfterEnd t = t := by
  intro t h
  cases t <;> first | rfl | exact h.elim

theorem gRmSemiAfterEnd_code : ∀ l, gRmSemiAfterEnd .code l = l := by
  intro l
  rfl

theorem gRmSemiAfterEnd_nc : ∀ k l, noCommentChild l = true →
    noCommentChild (gRmSemiAfterEnd k l) = true := by
  intro k l h
  simp only [gRmSemiAfterEnd]
  split
  · exact noCommentChild_set _ _ _ h rfl
  · exact h

theorem gRmSemiAfterEnd_pl : ∀ k l, placedList l = true →
    placedList (gRmSemiAfterEnd k l) = true := by
  intro k l h
  simp only [gRmSemiAfterEnd]
  split
  · exact placedList_set _ _ _ h rfl
  · exact h

theorem placed_rmSemiAfterEnd (t : Tok) (h : placed t = true) :
    placed (rmSemiAfterEnd t) = true :=
  pass_placed rmSemiAfterEnd gRmSemiAfterEnd rmSemiAfterEnd_shape
    rmSemiAfterEnd_id gRmSemiAfterEnd_code gRmSemiAfterEnd_nc
    gRmSemiAfterEnd_pl t h

def gRmWsBeforeSemi (k : Kind) (l : List Tok) : List Tok :=
  if k == .statementK && !tokBeq (getNeg l 2) (.str []) then
    setNeg l 2 (.str [])
  else l

theorem rmWsBeforeSemiList_map :
    ∀ l, rmWsBeforeSemiList l = l.map rmWsBeforeSemi := by
  intro l
  induction l with
  | nil => rfl
  | cons c rest ih => simp [rmWsBeforeSemiList, ih]

theorem rmWsBeforeSemi_shape : ∀ k ch,
    rmWsBeforeSemi (.node k ch)
      = .node k (gRmWsBeforeSemi k (ch.map rmWsBeforeSemi)) := by
  intro k ch
  simp only [rmWsBeforeSemi, gRmWsBeforeSemi, rmWsBeforeSemiList_map]
  split <;> rfl

theorem rmWsBeforeSemi_id : ∀ t, nonNode t → rmWsBeforeSemi t = t := by
  intro t h
  cases t <;> first | rfl | exact h.elim

theorem gRmWsBeforeSemi_code : ∀ l, gRmWsBeforeSemi .code l = l := by
  intro l
  rfl

theorem gRmWsBeforeSemi_nc : ∀ k l, noCommentChild l = true →
    noCommentChild (gRmWsBeforeSemi k l) = true := by
  intro k l h
  simp only [gRmWsBeforeSemi]
  split
  · exact noCommentChild_set _ _ _ h rfl
  · exact h

theorem gRmWsBeforeSemi_pl : ∀ k l, placedList l = true →
    placedList (gRmWsBeforeSemi k l) = true := by
  intro k l h
  simp only [gRmWsBeforeSemi]
  split
  · exact placedList_set _ _ _ h rfl
  · exact h

theorem placed_rmWsBeforeSemi (t : Tok) (h : placed t = true) :
    placed (rmWsBeforeSemi t) = true :=
  pass_placed rmWsBeforeSemi gRmWsBeforeSemi rmWsBeforeSemi_shape
    rmWsBeforeSemi_id gRmWsBeforeSemi_code gRmWsBeforeSemi_nc
    gRmWsBeforeSemi_pl t h

def gRmSemiAfterIfCond (k : Kind) (l : List Tok) : List Tok :=
  if k == .ifK then
    match getC l 2 with
    | .node hk hch =>
      if tokBeq (getNeg hch 1) (.str [';']) then
        setC l 2 (.node hk (setNeg hch 1 (.str [])))
      else l
    | _ => l
  else l

theorem rmSemiAfterIfCondList_map :
    ∀ l, rmSemiAfterIfCondList l = l.map rmSemiAfterIfCond := by
  intro l
  induction l with
  | nil => rfl
  | cons c rest ih => simp [rmSemiAfterIfCondList, ih]

theorem rmSemiAfterIfCond_shape : ∀ k ch,
    rmSemiAfterIfCond (.node k ch)
      = .node k (gRmSemiAfterIfCond k (ch.map rmSemiAfterIfCond)) := by
  intro k ch
  simp only [rmSemiAfterIfCond, gRmSemiAfterIfCond, rmSemiAfterIfCondList_map]
  split
  · split <;> try rfl
    split <;> rfl
  · rfl

theorem rmSemiAfterIfCond_id : ∀ t, nonNode t → rmSemiAfterIfCond t = t := by
  intro t h
  cases t <;> first | rfl | exact h.elim

theorem gRmSemiAfterIfCond_code : ∀ l, gRmSemiAfterIfCond .code l = l := by
  intro l
  rfl

theorem gRmSemiAfterIfCond_nc : ∀ k l, noCommentChild l = true →
    noCommentChild (gRmSemiAfterIfCond k l) = true := by
  intro k l h
  simp only [gRmSemiAfterIfCond]
  split
  · split
    · rename_i hk hch heq
      split
      · refine noCommentChild_set _ 2 _ h ?_
        have := noCommentChild_getC l 2 h
        rw [heq] at this
        simpa [isCommentTok] using this
      · exact h
    · exact h
  · exact h

theorem gRmSemiAfterIfCond_pl : ∀ k l, placedList l = true →
    placedList (gRmSemiAfterIfCond k l) = true := by
  intro k l h
  simp only [gRmSemiAfterIfCond]
  split
  · split
    · rename_i hk hch heq
      split
      · refine placedList_set _ 2 _ h ?_
        have hpl := placedList_getC l 2 h
        rw [heq] at hpl
        simp only [placed, Bool.and_eq_true] at hpl ⊢
        refine ⟨?_, placedList_set _ _ _ hpl.2 rfl⟩
        by_cases hc : (hk == Kind.code) = true
        · rw [if_pos hc] at hpl ⊢
          exact altShape_setLast _ _ hpl.1
        · rw [if_neg hc] at hpl ⊢
          exact noCommentChild_set _ _ _ hpl.1 rfl
      · exact h
    · exact h
  · exact h

theorem placed_rmSemiAfterIfCond (t : Tok) (h : placed t = true) :
    placed (rmSemiAfterIfCond t) = true :=
  pass_placed rmSemiAfterIfCond gRmSemiAfterIfCond rmSemiAfterIfCond_shape
    rmSemiAfterIfCond_id gRmSemiAfterIfCond_code gRmSemiAfterIfCond_nc
    gRmSemiAfterIfCond_pl t h

def gRmSemiAfterKeyword (k : Kind) (l : List Tok) : List Tok :=
  if k == .statementK then
    match getNeg l 3 with
    | .leaf v =>
      if v == cs "return" || v == cs "break" || v == cs "continue" then
        setNeg (setNeg l 2 (.str [])) 1 (.str [])
      else l
    | _ => l
  else l

theorem rmSemiAfterKeywordList_map :
    ∀ l, rmSemiAfterKeywordList l = l.map rmSemiAfterKeyword := by
  intro l
  induction l with
  | nil => rfl
  | cons c rest ih => simp [rmSemiAfterKeywordList, ih]

theorem rmSemiAfterKeyword_shape : ∀ k ch,
    rmSemiAfterKeyword (.node k ch)
      = .node k (gRmSemiAfterKeyword k (ch.map rmSemiAfterKeyword)) := by
  intro k ch
  simp only [rmSemiAfterKeyword, gRmSemiAfterKeyword, rmSemiAfterKeywordList_map]
  split
  · split <;> try rfl
    split <;> rfl
  · rfl

theorem rmSemiAfterKeyword_id : ∀ t, nonNode t → rmSemiAfterKeyword t = t := by
  intro t h
  cases t <;> first | rfl | exact h.elim

theorem gRmSemiAfterKeyword_code : ∀ l, gRmSemiAfterKeyword .code l = l := by
  intro l
  rfl

theorem gRmSemiAfterKeyword_nc : ∀ k l, noCommentChild l = true →
    noCommentChild (gRmSemiAfterKeyword k l) = true := by
  intro k l h
  simp only [gRmSemiAfterKeyword]
  split
  · split
    · split
      · exact noCommentChild_set _ _ _ (noCommentChild_set _ _ _ h rfl) rfl
      · exact h
    · exact h
  · exact h

theorem gRmSemiAfterKeyword_pl : ∀ k l, placedList l = true →
    placedList (gRmSemiAfterKeyword k l) = true := by
  intro k l h
  simp only [gRmSemiAfterKeyword]
  split
  · split
    · split
      · exact placedList_set _ _ _ (placedList_set _ _ _ h rfl) rfl
      · exact h
    · exact h
  · exact h

theorem placed_rmSemiAfterKeyword (t : Tok) (h : placed t = true) :
    placed (rmSemiAfterKeyword t) = true :=
  pass_placed rmSemiAfterKeyword gRmSemiAfterKeyword rmSemiAfterKeyword_shape
    rmSemiAfterKeyword_id gRmSemiAfterKeyword_code gRmSemiAfterKeyword_nc
    gRmSemiAfterKeyword_pl t h

def gEnsureFunctionEnd (k : Kind) (l : List Tok) : List Tok :=
  if k == .functionK then
    setC (if tokBeq (getC l 5) (.str []) then setC l 5 (.str ['\n']) else l)
      6 (.str (cs "end"))
  else l

theorem ensureFunctionEndList_map :
    ∀ l, ensureFunctionEndList l = l.map ensureFunctionEnd := by
  intro l
  induction l with
  | nil => rfl
  | cons c rest ih => simp [ensureFunctionEndList, ih]

theorem ensureFunctionEnd_shape : ∀ k ch,
    ensureFunctionEnd (.node k ch)
      = .node k (gEnsureFunctionEnd k (ch.map ensureFunctionEnd)) := by
  intro k ch
  simp only [ensureFunctionEnd, gEnsureFunctionEnd, ensureFunctionEndList_map]
  split
  · split <;> rfl
  · rfl

theorem ensureFunctionEnd_id : ∀ t, nonNode t → ensureFunctionEnd t = t := by
  intro t h
  cases t <;> first | rfl | exact h.elim

theorem gEnsureFunctionEnd_code : ∀ l, gEnsureFunctionEnd .code l = l := by
  intro l
  rfl

theorem gEnsureFunctionEnd_nc : ∀ k l, noCommentChild l = true →
    noCommentChild (gEnsureFunctionEnd k l) = true := by
  intro k l h
  simp only [gEnsureFunctionEnd]
  split
  · refine noCommentChild_set _ 6 _ ?_ rfl
    split
    · exact noCommentChild_set _ 5 _ h rfl
    · exact h
  · exact h

theorem gEnsureFunctionEnd_pl : ∀ k l, placedList l = true →
    placedList (gEnsureFunctionEnd k l) = true := by
  intro k l h
  simp only [gEnsureFunctionEnd]
  split
  · refine placedList_set _ 6 _ ?_ rfl
    split
    · exact placedList_set _ 5 _ h rfl
    · exact h
  · exact h

theorem placed_ensureFunctionEnd (t : Tok) (h : placed t = true) :
    placed (ensureFunctionEnd t) = true :=
  pass_placed ensureFunctionEnd gEnsureFunctionEnd ensureFunctionEnd_shape
    ensureFunctionEnd_id gEnsureFunctionEnd_code gEnsureFunctionEnd_nc
    gEnsureFunctionEnd_pl t h

theorem delimSpace_comment (ek : Kind) (i : Nat) (t : Tok) :
    isCommentTok (delimSpace ek i t) = isCommentTok t := by
  simp only [delimSpace]
  split
  · rfl
  · split <;> rfl

theorem delimSpace_placed (ek : Kind) (i : Nat) (t : Tok)
    (h : placed t = true) : placed (delimSpace ek i t) = true := by
  simp only [delimSpace]
  split
  · exact h
  · split
    · rfl
    · exact h

theorem delimSpaceList_nc (ek : Kind) :
    ∀ (i : Nat) (l : List Tok), noCommentChild l = true →
      noCommentChild (delimSpaceList ek i l) = true := by
  intro i l
  induction l generalizing i with
  | nil => intro _; rfl
  | cons c rest ih =>
    intro h
    simp only [noCommentChild, Bool.and_eq_true] at h
    simp only [delimSpaceList, noCommentChild, Bool.and_eq_true]
    refine ⟨?_, ih (i + 1) h.2⟩
    rw [delimSpace_comment]
    exact h.1

theorem delimSpaceList_pl (ek : Kind) :
    ∀ (i : Nat) (l : List Tok), placedList l = true →
      placedList (delimSpaceList ek i l) = true := by
  intro i l
  induction l generalizing i with
  | nil => intro _; rfl
  | cons c rest ih =>
    intro h
    simp only [placedList, Bool.and_eq_true] at h
    simp only [delimSpaceList, placedList, Bool.and_eq_true]
    exact ⟨delimSpace_placed ek i c h.1, ih (i + 1) h.2⟩

theorem delimSpaceList_alt (ek : Kind) :
    ∀ (l : List Tok), altShape l = true → ∀ (i : Nat), i % 2 = 0 →
      altShape (delimSpaceList ek i l) = true := by
  intro l
  induction l using altShape.induct with
  | case1 => intro _ i _; rfl
  | case2 b =>
    intro _ i _
    rfl
  | case3 b v c rest ih =>
    intro h i hi
    have h' : altShape (c :: rest) = true := h
    simp only [delimSpaceList]
    rw [show delimSpace ek i b = b from by
        simp only [delimSpace]; rw [if_pos hi]]
    rw [show delimSpace ek (i + 1) (.str v)
        = .str (if ek == .operation
            then ' ' :: (stripBoth isStripSet v ++ [' '])
            else stripBoth isStripSet v ++ [' ']) from by
      simp only [delimSpace]
      rw [if_neg (by omega)]]
    show altShape (b :: .str _ :: delimSpaceList ek (i + 1 + 1) (c :: rest))
        = true
    have := ih h' (i + 2) (by omega)
    rw [show i + 1 + 1 = i + 2 from by omega]
    cases hdl : delimSpaceList ek (i + 2) (c :: rest) with
    | nil => simp [delimSpaceList] at hdl
    | cons d drest =>
      show altShape (d :: drest) = true
      rw [← hdl]
      exact this
  | case4 l h1 h2 h3 =>
    intro hp
    simp [altShape] at hp

theorem mapElementsList_nc (f : List Tok → List Tok) (l : List Tok)
    (h : noCommentChild l = true) :
    noCommentChild (mapElementsList f l) = true := by
  simp only [mapElementsList]
  split
  · rename_i pk pch heq
    split
    · refine noCommentChild_set _ 0 _ h ?_
      have := noCommentChild_getC l 0 h
      rw [heq] at this
      simpa [isCommentTok] using this
    · exact h
  · exact h

theorem mapElementsList_pl (ek : Kind) (l : List Tok)
    (h : placedList l = true) :
    placedList (mapElementsList (delimSpaceList ek 0) l) = true := by
  simp only [mapElementsList]
  split
  · rename_i pk pch heq
    split
    · rename_i dk dch heq2
      refine placedList_set _ 0 _ h ?_
      have hp0 := placedList_getC l 0 h
      rw [heq] at hp0
      simp only [placed, Bool.and_eq_true] at hp0 ⊢
      have hp2 := placedList_getC pch 2 hp0.2
      rw [heq2] at hp2
      simp only [placed, Bool.and_eq_true] at hp2
      have hdl : placed (.node dk (delimSpaceList ek 0 dch)) = true := by
        simp only [placed, Bool.and_eq_true]
        refine ⟨?_, delimSpaceList_pl ek 0 dch hp2.2⟩
        by_cases hc : (dk == Kind.code) = true
        · rw [if_pos hc] at hp2 ⊢
          exact delimSpaceList_alt ek dch hp2.1 0 rfl
        · rw [if_neg hc] at hp2 ⊢
          exact delimSpaceList_nc ek 0 dch hp2.1
      refine ⟨?_, placedList_set _ 2 _ hp0.2 hdl⟩
      by_cases hc : (pk == Kind.code) = true
      · rw [if_pos hc] at hp0 ⊢
        exact altShape_set_even _ hp0.1 2 _ rfl
      · rw [if_neg hc] at hp0 ⊢
        refine noCommentChild_set _ 2 _ hp0.1 ?_
        have := noCommentChild_getC pch 2 hp0.1
        rw [heq2] at this
        simpa [isCommentTok] using this
    · exact h
  · exact h

def gNormWsArgs (k : Kind) (l : List Tok) : List Tok :=
  if elementsListKinds.contains k then mapElementsList (delimSpaceList k 0) l
  else l

theorem normWsArgsList_map : ∀ l, normWsArgsList l = l.map normWsArgs := by
  intro l
  induction l with
  | nil => rfl
  | cons c rest ih => simp [normWsArgsList, ih]

theorem normWsArgs_shape : ∀ k ch,
    normWsArgs (.node k ch) = .node k (gNormWsArgs k (ch.map normWsArgs)) := by
  intro k ch
  simp only [normWsArgs, gNormWsArgs, normWsArgsList_map]
  split <;> rfl

theorem normWsArgs_id : ∀ t, nonNode t → normWsArgs t = t := by
  intro t h
  cases t <;> first | rfl | exact h.elim

theorem gNormWsArgs_code : ∀ l, gNormWsArgs .code l = l := by
  intro l
  rfl

theorem gNormWsArgs_nc : ∀ k l, noCommentChild l = true →
    noCommentChild (gNormWsArgs k l) = true := by
  intro k l h
  simp only [gNormWsArgs]
  split
  · exact mapElementsList_nc _ l h
  · exact h

theorem gNormWsArgs_pl : ∀ k l, placedList l = true →
    placedList (gNormWsArgs k l) = true := by
  intro k l h
  simp only [gNormWsArgs]
  split
  · exact mapElementsList_pl k l h
  · exact h

theorem placed_normWsArgs (t : Tok) (h : placed t = true) :
    placed (normWsArgs t) = true :=
  pass_placed normWsArgs gNormWsArgs normWsArgs_shape normWsArgs_id
    gNormWsArgs_code gNormWsArgs_nc gNormWsArgs_pl t h

/-! ## The auxiliary tree invariant for the indentation pass

`normalize_indentation` skips an element when the element two places
before it is an `elseif` leaf, and `break_arguments` rewrites the
arguments list of an over-long statement wholesale.  Soundness of the
comment-spacing claim therefore also needs: `Code` lists never hold
`Leaf` children (their elements are wrapped constructs, their delimiters
plain strings), and `Statement` subtrees contain no `Comment` node at
any depth.  Both facts are syntactic consequences of the grammar and are
preserved by every pass. -/

def isLeafTok : Tok → Bool
  | .leaf _ => true
  | _ => false

def noLeafChild : List Tok → Bool
  | [] => true
  | c :: rest => !isLeafTok c && noLeafChild rest

mutual

def noCommentDeep : Tok → Bool
  | .node k ch => k != .commentK && noCommentDeepList ch
  | _ => true

def noCommentDeepList : List Tok → Bool
  | [] => true
  | c :: rest => noCommentDeep c && noCommentDeepList rest

end

mutual

/-- The invariant: `Code` children are never leaves, and `Statement`
subtrees are comment-free at every depth. -/
def tidy : Tok → Bool
  | .node k ch =>
    if k == .statementK then noCommentDeepList ch
    else (if k == .code then noLeafChild ch else true) && tidyList ch
  | _ => true

def tidyList : List Tok → Bool
  | [] => true
  | c :: rest => tidy c && tidyList rest

end

theorem noLeafChild_append (a b : List Tok) :
    noLeafChild (a ++ b) = (noLeafChild a && noLeafChild b) := by
  induction a with
  | nil => simp [noLeafChild]
  | cons c rest ih => simp [noLeafChild, ih, Bool.and_assoc]

theorem noLeafChild_replicate (n : Nat) :
    noLeafChild (List.replicate n (.str [])) = true := by
  induction n with
  | zero => rfl
  | succ m ih => simp [List.replicate_succ, noLeafChild, isLeafTok, ih]

theorem noCommentDeepList_append (a b : List Tok) :
    noCommentDeepList (a ++ b)
      = (noCommentDeepList a && noCommentDeepList b) := by
  induction a with
  | nil => simp [noCommentDeepList]
  | cons c rest ih => simp [noCommentDeepList, ih, Bool.and_assoc]

theorem noCommentDeepList_replicate (n : Nat) :
    noCommentDeepList (List.replicate n (.str [])) = true := by
  induction n with
  | zero => rfl
  | succ m ih =>
    simp [List.replicate_succ, noCommentDeepList, noCommentDeep, ih]

theorem tidyList_append (a b : List Tok) :
    tidyList (a ++ b) = (tidyList a && tidyList b) := by
  induction a with
  | nil => simp [tidyList]
  | cons c rest ih => simp [tidyList, ih, Bool.and_assoc]

theorem tidyList_replicate (n : Nat) :
    tidyList (List.replicate n (.str [])) = true := by
  induction n with
  | zero => rfl
  | succ m ih => simp [List.replicate_succ, tidyList, tidy, ih]

/-- ParserElements whose success token lists contain no top-level
`Leaf`: `Leaf` literals appear in the grammar only inside block
constructs, never as elements of `code`'s delimited list. -/
def noLeafTop : PE → Bool
  | .seq a b => noLeafTop a && noLeafTop b
  | .firstOf a b => noLeafTop a && noLeafTop b
  | .longestOf a b => noLeafTop a && noLeafTop b
  | .opt p .noDef => noLeafTop p
  | .opt p (.withDef t0) => noLeafTop p && !isLeafTok t0
  | .repMin _ p => noLeafTop p
  | .act .join _ => true
  | .act .noneTo2 p => noLeafTop p
  | .act (.wrap _) _ => true
  | .leafLit _ => false
  | .ref _ => false
  | _ => true

/-- ParserElements whose entire token output is comment-free at every
depth: everything reachable from the expression/statement side of the
grammar, which never references `code` or the comment rule. -/
def commentFree : PE → Bool
  | .seq a b => commentFree a && commentFree b
  | .firstOf a b => commentFree a && commentFree b
  | .longestOf a b => commentFree a && commentFree b
  | .opt p .noDef => commentFree p
  | .opt p (.withDef t0) => commentFree p && noCommentDeep t0
  | .repMin _ p => commentFree p
  | .followedBy p => commentFree p
  | .notAny p => commentFree p
  | .act .join p => commentFree p
  | .act .noneTo2 p => commentFree p
  | .act (.wrap k) p => k != .commentK && commentFree p
  | .ref r => r != .codeR
  | _ => true

/-- Every grammar rule except `code` is `commentFree`. -/
theorem commentFree_rules :
    ∀ r, r ≠ RuleId.codeR → commentFree (rules r) = true := by
  intro r hr
  cases r <;> first | exact absurd rfl hr | decide

/-- Soundness of `noLeafTop`. -/
theorem noLeafTop_run :
    ∀ (fuel : Nat) (p : PE) (s : List Char) (i j : Nat) (toks : List Tok)
      (f : Bool), noLeafTop p = true → runPE fuel p s i = some (j, toks, f) →
      noLeafChild toks = true := by
  intro fuel
  induction fuel with
  | zero =>
    intro p s i j toks f _ h
    exact absurd h (by simp [runPE])
  | succ n ih =>
    intro p s i j toks f hp h
    cases p with
    | failP => simp [runPE] at h
    | lit l =>
      simp only [runPE] at h
      split at h
      · simp only [Option.some.injEq, Prod.mk.injEq] at h
        rw [← h.2.1]
        rfl
      · exact absurd h (by simp)
    | leafLit l => simp [noLeafTop] at hp
    | charCl cc =>
      simp only [runPE] at h
      split at h
      · split at h
        · simp only [Option.some.injEq, Prod.mk.injEq] at h
          rw [← h.2.1]
          rfl
        · exact absurd h (by simp)
      · exact absurd h (by simp)
    | wordCl init body mx =>
      simp only [runPE] at h
      split at h
      · split at h
        · simp only [Option.some.injEq, Prod.mk.injEq] at h
          rw [← h.2.1]
          rfl
        · exact absurd h (by simp)
      · exact absurd h (by simp)
    | white cc =>
      simp only [runPE] at h
      split at h
      · split at h
        · simp only [Option.some.injEq, Prod.mk.injEq] at h
          rw [← h.2.1]
          rfl
        · exact absurd h (by simp)
      · exact absurd h (by simp)
    | emptyToks n0 =>
      simp only [runPE, Option.some.injEq, Prod.mk.injEq] at h
      rw [← h.2.1]
      exact noLeafChild_replicate n0
    | emptyNoTok =>
      simp only [runPE, Option.some.injEq, Prod.mk.injEq] at h
      rw [← h.2.1]
      rfl
    | lineEnd =>
      simp only [runPE] at h
      split at h
      · split at h
        · simp only [Option.some.injEq, Prod.mk.injEq] at h
          rw [← h.2.1]
          rfl
        · exact absurd h (by simp)
      · split at h
        · simp only [Option.some.injEq, Prod.mk.injEq] at h
          rw [← h.2.1]
          rfl
        · exact absurd h (by simp)
    | restOfLine =>
      simp only [runPE, Option.some.injEq, Prod.mk.injEq] at h
      rw [← h.2.1]
      rfl
    | quoted q =>
      simp only [runPE, runQuoted] at h
      split at h
      · split at h
        · simp only [Option.some.injEq, Prod.mk.injEq] at h
          rw [← h.2.1]
          rfl
        · exact absurd h (by simp)
      · exact absurd h (by simp)
    | pyNumber =>
      simp only [runPE, runNumber] at h
      split at h
      · simp only [Option.some.injEq, Prod.mk.injEq] at h
        rw [← h.2.1]
        rfl
      · split at h
        · simp only [Option.some.injEq, Prod.mk.injEq] at h
          rw [← h.2.1]
          rfl
        · split at h
          · simp only [Option.some.injEq, Prod.mk.injEq] at h
            rw [← h.2.1]
            rfl
          · exact absurd h (by simp)
    | precededBySemi =>
      simp only [runPE] at h
      split at h
      · exact absurd h (by simp)
      · split at h
        · simp only [Option.some.injEq, Prod.mk.injEq] at h
          rw [← h.2.1]
          rfl
        · exact absurd h (by simp)
    | seq a b =>
      simp only [noLeafTop, Bool.and_eq_true] at hp
      obtain ⟨ha, hb⟩ := hp
      simp only [runPE] at h
      split at h
      · rename_i j1 ta fa hxa
        split at h
        · rename_i k2 tb fb hxb
          simp only [Option.some.injEq, Prod.mk.injEq] at h
          obtain ⟨hj, ht, hf⟩ := h
          have h2 := ih a s i j1 ta fa ha hxa
          have h4 := ih b s j1 k2 tb fb hb hxb
          rw [← ht, noLeafChild_append, h2, h4]
          rfl
        · exact absurd h (by simp)
      · exact absurd h (by simp)
    | firstOf a b =>
      simp only [noLeafTop, Bool.and_eq_true] at hp
      obtain ⟨ha, hb⟩ := hp
      simp only [runPE] at h
      split at h
      · rename_i r hx
        obtain ⟨j1, t1, f1⟩ := r
        simp only [Option.some.injEq, Prod.mk.injEq] at h
        obtain ⟨hj, ht, hf⟩ := h
        rw [← ht]
        exact ih a s i j1 t1 f1 ha hx
      · exact ih b s i j toks f hb h
    | longestOf a b =>
      simp only [noLeafTop, Bool.and_eq_true] at hp
      obtain ⟨ha, hb⟩ := hp
      simp only [runPE] at h
      split at h
      · rename_i ja ta fa jb tb fb hxa hxb
        split at h
        · simp only [Option.some.injEq, Prod.mk.injEq] at h
          obtain ⟨hj, ht, hf⟩ := h
          rw [← ht]
          exact ih b s i jb tb fb hb hxb
        · simp only [Option.some.injEq, Prod.mk.injEq] at h
          obtain ⟨hj, ht, hf⟩ := h
          rw [← ht]
          exact ih a s i ja ta fa ha hxa
      · rename_i r hxa hxb
        obtain ⟨ja, ta, fa⟩ := r
        simp only [Option.some.injEq, Prod.mk.injEq] at h
        obtain ⟨hj, ht, hf⟩ := h
        rw [← ht]
        exact ih a s i ja ta fa ha hxa
      · rename_i r hxa hxb
        obtain ⟨jb, tb, fb⟩ := r
        simp only [Option.some.injEq, Prod.mk.injEq] at h
        obtain ⟨hj, ht, hf⟩ := h
        rw [← ht]
        exact ih b s i jb tb fb hb hxb
      · exact absurd h (by simp)
    | opt p' d =>
      simp only [runPE] at h
      split at h
      · rename_i r hx
        obtain ⟨j1, t1, f1⟩ := r
        simp only [Option.some.injEq, Prod.mk.injEq] at h
        obtain ⟨hj, ht, hf⟩ := h
        rw [← ht]
        have hp' : noLeafTop p' = true := by
          cases d with
          | noDef => exact hp
          | withDef t0 =>
            simp only [noLeafTop, Bool.and_eq_true] at hp
            exact hp.1
        exact ih p' s i j1 t1 f1 hp' hx
      · cases d with
        | noDef =>
          simp only [Option.some.injEq, Prod.mk.injEq] at h
          rw [← h.2.1]
          rfl
        | withDef t0 =>
          simp only [noLeafTop, Bool.and_eq_true] at hp
          simp only [Option.some.injEq, Prod.mk.injEq] at h
          rw [← h.2.1]
          simp [noLeafChild, hp.2]
    | repMin m p' =>
      have hp' : noLeafTop p' = true := hp
      simp only [runPE] at h
      split at h
      · split at h
        · simp only [Option.some.injEq, Prod.mk.injEq] at h
          rw [← h.2.1]
          rfl
        · exact absurd h (by simp)
      · rename_i j1 t1 f1 hx1
        split at h
        · rename_i k2 t2 f2 hx2
          simp only [Option.some.injEq, Prod.mk.injEq] at h
          obtain ⟨hj, ht, hf⟩ := h
          have h2 := ih p' s i j1 t1 f1 hp' hx1
          have h4 := ih (.repMin (m - 1) p') s j1 k2 t2 f2 hp' hx2
          rw [← ht, noLeafChild_append, h2, h4]
          rfl
        · exact absurd h (by simp)
    | followedBy p' =>
      simp only [runPE] at h
      split at h
      · simp only [Option.some.injEq, Prod.mk.injEq] at h
        rw [← h.2.1]
        rfl
      · exact absurd h (by simp)
    | notAny p' =>
      simp only [runPE] at h
      split at h
      · exact absurd h (by simp)
      · simp only [Option.some.injEq, Prod.mk.injEq] at h
        rw [← h.2.1]
        rfl
    | act a p' =>
      cases a with
      | join =>
        simp only [runPE] at h
        split at h
        · simp only [Option.some.injEq, Prod.mk.injEq, applyAct] at h
          rw [← h.2.1]
          rfl
        · exact absurd h (by simp)
      | noneTo2 =>
        have hp' : noLeafTop p' = true := hp
        simp only [runPE] at h
        split at h
        · rename_i j1 t1 f1 hx
          simp only [Option.some.injEq, Prod.mk.injEq] at h
          obtain ⟨hj, ht, hf⟩ := h
          have hIH := ih p' s i j1 t1 f1 hp' hx
          rw [← ht]
          cases t1 with
          | nil => rfl
          | cons t0 rest =>
            cases t0 with
            | none => rfl
            | str v => simpa [applyAct] using hIH
            | intTok m0 => simpa [applyAct] using hIH
            | floatTok raw => simpa [applyAct] using hIH
            | leaf v => simpa [applyAct] using hIH
            | node k0 ch => simpa [applyAct] using hIH
        · exact absurd h (by simp)
      | wrap k =>
        simp only [runPE] at h
        split at h
        · rename_i j1 t1 f1 hx
          simp only [Option.some.injEq, Prod.mk.injEq, applyAct] at h
          rw [← h.2.1]
          rfl
        · exact absurd h (by simp)
    | ref r => simp [noLeafTop] at hp

/-- Soundness of `commentFree`: the token lists are comment-free at
every depth. -/
theorem commentFree_run :
    ∀ (fuel : Nat) (p : PE) (s : List Char) (i j : Nat) (toks : List Tok)
      (f : Bool), commentFree p = true → runPE fuel p s i = some (j, toks, f) →
      noCommentDeepList toks = true := by
  intro fuel
  induction fuel with
  | zero =>
    intro p s i j toks f _ h
    exact absurd h (by simp [runPE])
  | succ n ih =>
    intro p s i j toks f hp h
    cases p with
    | failP => simp [runPE] at h
    | lit l =>
      simp only [runPE] at h
      split at h
      · simp only [Option.some.injEq, Prod.mk.injEq] at h
        rw [← h.2.1]
        rfl
      · exact absurd h (by simp)
    | leafLit l =>
      simp only [runPE] at h
      split at h
      · simp only [Option.some.injEq, Prod.mk.injEq] at h
        rw [← h.2.1]
        rfl
      · exact absurd h (by simp)
    | charCl cc =>
      simp only [runPE] at h
      split at h
      · split at h
        · simp only [Option.some.injEq, Prod.mk.injEq] at h
          rw [← h.2.1]
          rfl
        · exact absurd h (by simp)
      · exact absurd h (by simp)
    | wordCl init body mx =>
      simp only [runPE] at h
      split at h
      · split at h
        · simp only [Option.some.injEq, Prod.mk.injEq] at h
          rw [← h.2.1]
          rfl
        · exact absurd h (by simp)
      · exact absurd h (by simp)
    | white cc =>
      simp only [runPE] at h
      split at h
      · split at h
        · simp only [Option.some.injEq, Prod.mk.injEq] at h
          rw [← h.2.1]
          rfl
        · exact absurd h (by simp)
      · exact absurd h (by simp)
    | emptyToks n0 =>
      simp only [runPE, Option.some.injEq, Prod.mk.injEq] at h
      rw [← h.2.1]
      exact noCommentDeepList_replicate n0
    | emptyNoTok =>
      simp only [runPE, Option.some.injEq, Prod.mk.injEq] at h
      rw [← h.2.1]
      rfl
    | lineEnd =>
      simp only [runPE] at h
      split at h
      · split at h
        · simp only [Option.some.injEq, Prod.mk.injEq] at h
          rw [← h.2.1]
          rfl
        · exact absurd h (by simp)
      · split at h
        · simp only [Option.some.injEq, Prod.mk.injEq] at h
          rw [← h.2.1]
          rfl
        · exact absurd h (by simp)
    | restOfLine =>
      simp only [runPE, Option.some.injEq, Prod.mk.injEq] at h
      rw [← h.2.1]
      rfl
    | quoted q =>
      simp only [runPE, runQuoted] at h
      split at h
      · split at h
        · simp only [Option.some.injEq, Prod.mk.injEq] at h
          rw [← h.2.1]
          rfl
        · exact absurd h (by simp)
      · exact absurd h (by simp)
    | pyNumber =>
      simp only [runPE, runNumber] at h
      split at h
      · simp only [Option.some.injEq, Prod.mk.injEq] at h
        rw [← h.2.1]
        rfl
      · split at h
        · simp only [Option.some.injEq, Prod.mk.injEq] at h
          rw [← h.2.1]
          rfl
        · split at h
          · simp only [Option.some.injEq, Prod.mk.injEq] at h
            rw [← h.2.1]
            rfl
          · exact absurd h (by simp)
    | precededBySemi =>
      simp only [runPE] at h
      split at h
      · exact absurd h (by simp)
      · split at h
        · simp only [Option.some.injEq, Prod.mk.injEq] at h
          rw [← h.2.1]
          rfl
        · exact absurd h (by simp)
    | seq a b =>
      simp only [commentFree, Bool.and_eq_true] at hp
      obtain ⟨ha, hb⟩ := hp
      simp only [runPE] at h
      split at h
      · rename_i j1 ta fa hxa
        split at h
        · rename_i k2 tb fb hxb
          simp only [Option.some.injEq, Prod.mk.injEq] at h
          obtain ⟨hj, ht, hf⟩ := h
          have h2 := ih a s i j1 ta fa ha hxa
          have h4 := ih b s j1 k2 tb fb hb hxb
          rw [← ht, noCommentDeepList_append, h2, h4]
          rfl
        · exact absurd h (by simp)
      · exact absurd h (by simp)
    | firstOf a b =>
      simp only [commentFree, Bool.and_eq_true] at hp
      obtain ⟨ha, hb⟩ := hp
      simp only [runPE] at h
      split at h
      · rename_i r hx
        obtain ⟨j1, t1, f1⟩ := r
        simp only [Option.some.injEq, Prod.mk.injEq] at h
        obtain ⟨hj, ht, hf⟩ := h
        rw [← ht]
        exact ih a s i j1 t1 f1 ha hx
      · exact ih b s i j toks f hb h
    | longestOf a b =>
      simp only [commentFree, Bool.and_eq_true] at hp
      obtain ⟨ha, hb⟩ := hp
      simp only [runPE] at h
      split at h
      · rename_i ja ta fa jb tb fb hxa hxb
        split at h
        · simp only [Option.some.injEq, Prod.mk.injEq] at h
          obtain ⟨hj, ht, hf⟩ := h
          rw [← ht]
          exact ih b s i jb tb fb hb hxb
        · simp only [Option.some.injEq, Prod.mk.injEq] at h
          obtain ⟨hj, ht, hf⟩ := h
          rw [← ht]
          exact ih a s i ja ta fa ha hxa
      · rename_i r hxa hxb
        obtain ⟨ja, ta, fa⟩ := r
        simp only [Option.some.injEq, Prod.mk.injEq] at h
        obtain ⟨hj, ht, hf⟩ := h
        rw [← ht]
        exact ih a s i ja ta fa ha hxa
      · rename_i r hxa hxb
        obtain ⟨jb, tb, fb⟩ := r
        simp only [Option.some.injEq, Prod.mk.injEq] at h
        obtain ⟨hj, ht, hf⟩ := h
        rw [← ht]
        exact ih b s i jb tb fb hb hxb
      · exact absurd h (by simp)
    | opt p' d =>
      simp only [runPE] at h
      split at h
      · rename_i r hx
        obtain ⟨j1, t1, f1⟩ := r
        simp only [Option.some.injEq, Prod.mk.injEq] at h
        obtain ⟨hj, ht, hf⟩ := h
        rw [← ht]
        have hp' : commentFree p' = true := by
          cases d with
          | noDef => exact hp
          | withDef t0 =>
            simp only [commentFree, Bool.and_eq_true] at hp
            exact hp.1
        exact ih p' s i j1 t1 f1 hp' hx
      · cases d with
        | noDef =>
          simp only [Option.some.injEq, Prod.mk.injEq] at h
          rw [← h.2.1]
          rfl
        | withDef t0 =>
          simp only [commentFree, Bool.and_eq_true] at hp
          simp only [Option.some.injEq, Prod.mk.injEq] at h
          rw [← h.2.1]
          simp [noCommentDeepList, hp.2]
    | repMin m p' =>
      have hp' : commentFree p' = true := hp
      simp only [runPE] at h
      split at h
      · split at h
        · simp only [Option.some.injEq, Prod.mk.injEq] at h
          rw [← h.2.1]
          rfl
        · exact absurd h (by simp)
      · rename_i j1 t1 f1 hx1
        split at h
        · rename_i k2 t2 f2 hx2
          simp only [Option.some.injEq, Prod.mk.injEq] at h
          obtain ⟨hj, ht, hf⟩ := h
          have h2 := ih p' s i j1 t1 f1 hp' hx1
          have h4 := ih (.repMin (m - 1) p') s j1 k2 t2 f2 hp' hx2
          rw [← ht, noCommentDeepList_append, h2, h4]
          rfl
        · exact absurd h (by simp)
    | followedBy p' =>
      simp only [runPE] at h
      split at h
      · simp only [Option.some.injEq, Prod.mk.injEq] at h
        rw [← h.2.1]
        rfl
      · exact absurd h (by simp)
    | notAny p' =>
      simp only [runPE] at h
      split at h
      · exact absurd h (by simp)
      · simp only [Option.some.injEq, Prod.mk.injEq] at h
        rw [← h.2.1]
        rfl
    | act a p' =>
      cases a with
      | join =>
        simp only [runPE] at h
        split at h
        · simp only [Option.some.injEq, Prod.mk.injEq, applyAct] at h
          rw [← h.2.1]
          rfl
        · exact absurd h (by simp)
      | noneTo2 =>
        have hp' : commentFree p' = true := hp
        simp only [runPE] at h
        split at h
        · rename_i j1 t1 f1 hx
          simp only [Option.some.injEq, Prod.mk.injEq] at h
          obtain ⟨hj, ht, hf⟩ := h
          have hIH := ih p' s i j1 t1 f1 hp' hx
          rw [← ht]
          cases t1 with
          | nil => rfl
          | cons t0 rest =>
            cases t0 with
            | none => rfl
            | str v => simpa [applyAct] using hIH
            | intTok m0 => simpa [applyAct] using hIH
            | floatTok raw => simpa [applyAct] using hIH
            | leaf v => simpa [applyAct] using hIH
            | node k0 ch => simpa [applyAct] using hIH
        · exact absurd h (by simp)
      | wrap k =>
        simp only [commentFree, Bool.and_eq_true] at hp
        simp only [runPE] at h
        split at h
        · rename_i j1 t1 f1 hx
          simp only [Option.some.injEq, Prod.mk.injEq, applyAct] at h
          obtain ⟨hj, ht, hf⟩ := h
          have hIH := ih p' s i j1 t1 f1 hp.2 hx
          rw [← ht]
          simp only [noCommentDeepList, noCommentDeep, Bool.and_eq_true]
          exact ⟨⟨hp.1, hIH⟩, trivial⟩
        · exact absurd h (by simp)
    | ref r =>
      simp only [commentFree] at hp
      have hr : r ≠ RuleId.codeR := by simpa using hp
      simp only [runPE] at h
      exact ih (rules r) s i j toks f (commentFree_rules r hr) h

/-- The syntactic side of `tidy`: a `Code` wrap's element has no
top-level leaves, a `Statement` wrap's element is comment-free at every
depth, and everything else recurses. -/
def tidySafe : PE → Bool
  | .seq a b => tidySafe a && tidySafe b
  | .firstOf a b => tidySafe a && tidySafe b
  | .longestOf a b => tidySafe a && tidySafe b
  | .opt p .noDef => tidySafe p
  | .opt p (.withDef t0) => tidySafe p && tidy t0
  | .repMin _ p => tidySafe p
  | .followedBy p => tidySafe p
  | .notAny p => tidySafe p
  | .act .join p => tidySafe p
  | .act .noneTo2 p => tidySafe p
  | .act (.wrap k) p =>
    if k == .statementK then commentFree p
    else (if k == .code then noLeafTop p else true) && tidySafe p
  | _ => true

/-- Every grammar rule is `tidySafe`. -/
theorem tidySafe_rules : ∀ r, tidySafe (rules r) = true := by
  intro r
  cases r <;> decide

/-- The file entry element is `tidySafe`. -/
theorem tidySafe_filePE : tidySafe filePE = true := by decide

/-- Soundness of `tidySafe`: every token list a `tidySafe` element
produces is `tidy`, recursively. -/
theorem runPE_tidy :
    ∀ (fuel : Nat) (p : PE) (s : List Char) (i j : Nat) (toks : List Tok)
      (f : Bool), tidySafe p = true → runPE fuel p s i = some (j, toks, f) →
      tidyList toks = true := by
  intro fuel
  induction fuel with
  | zero =>
    intro p s i j toks f _ h
    exact absurd h (by simp [runPE])
  | succ n ih =>
    intro p s i j toks f hp h
    cases p with
    | failP => simp [runPE] at h
    | lit l =>
      simp only [runPE] at h
      split at h
      · simp only [Option.some.injEq, Prod.mk.injEq] at h
        rw [← h.2.1]
        rfl
      · exact absurd h (by simp)
    | leafLit l =>
      simp only [runPE] at h
      split at h
      · simp only [Option.some.injEq, Prod.mk.injEq] at h
        rw [← h.2.1]
        rfl
      · exact absurd h (by simp)
    | charCl cc =>
      simp only [runPE] at h
      split at h
      · split at h
        · simp only [Option.some.injEq, Prod.mk.injEq] at h
          rw [← h.2.1]
          rfl
        · exact absurd h (by simp)
      · exact absurd h (by simp)
    | wordCl init body mx =>
      simp only [runPE] at h
      split at h
      · split at h
        · simp only [Option.some.injEq, Prod.mk.injEq] at h
          rw [← h.2.1]
          rfl
        · exact absurd h (by simp)
      · exact absurd h (by simp)
    | white cc =>
      simp only [runPE] at h
      split at h
      · split at h
        · simp only [Option.some.injEq, Prod.mk.injEq] at h
          rw [← h.2.1]
          rfl
        · exact absurd h (by simp)
      · exact absurd h (by simp)
    | emptyToks n0 =>
      simp only [runPE, Option.some.injEq, Prod.mk.injEq] at h
      rw [← h.2.1]
      exact tidyList_replicate n0
    | emptyNoTok =>
      simp only [runPE, Option.some.injEq, Prod.mk.injEq] at h
      rw [← h.2.1]
      rfl
    | lineEnd =>
      simp only [runPE] at h
      split at h
      · split at h
        · simp only [Option.some.injEq, Prod.mk.injEq] at h
          rw [← h.2.1]
          rfl
        · exact absurd h (by simp)
      · split at h
        · simp only [Option.some.injEq, Prod.mk.injEq] at h
          rw [← h.2.1]
          rfl
        · exact absurd h (by simp)
    | restOfLine =>
      simp only [runPE, Option.some.injEq, Prod.mk.injEq] at h
      rw [← h.2.1]
      rfl
    | quoted q =>
      simp only [runPE, runQuoted] at h
      split at h
      · split at h
        · simp only [Option.some.injEq, Prod.mk.injEq] at h
          rw [← h.2.1]
          rfl
        · exact absurd h (by simp)
      · exact absurd h (by simp)
    | pyNumber =>
      simp only [runPE, runNumber] at h
      split at h
      · simp only [Option.some.injEq, Prod.mk.injEq] at h
        rw [← h.2.1]
        rfl
      · split at h
        · simp only [Option.some.injEq, Prod.mk.injEq] at h
          rw [← h.2.1]
          rfl
        · split at h
          · simp only [Option.some.injEq, Prod.mk.injEq] at h
            rw [← h.2.1]
            rfl
          · exact absurd h (by simp)
    | precededBySemi =>
      simp only [runPE] at h
      split at h
      · exact absurd h (by simp)
      · split at h
        · simp only [Option.some.injEq, Prod.mk.injEq] at h
          rw [← h.2.1]
          rfl
        · exact absurd h (by simp)
    | seq a b =>
      simp only [tidySafe, Bool.and_eq_true] at hp
      obtain ⟨ha, hb⟩ := hp
      simp only [runPE] at h
      split at h
      · rename_i j1 ta fa hxa
        split at h
        · rename_i k2 tb fb hxb
          simp only [Option.some.injEq, Prod.mk.injEq] at h
          obtain ⟨hj, ht, hf⟩ := h
          have h2 := ih a s i j1 ta fa ha hxa
          have h4 := ih b s j1 k2 tb fb hb hxb
          rw [← ht, tidyList_append, h2, h4]
          rfl
        · exact absurd h (by simp)
      · exact absurd h (by simp)
    | firstOf a b =>
      simp only [tidySafe, Bool.and_eq_true] at hp
      obtain ⟨ha, hb⟩ := hp
      simp only [runPE] at h
      split at h
      · rename_i r hx
        obtain ⟨j1, t1, f1⟩ := r
        simp only [Option.some.injEq, Prod.mk.injEq] at h
        obtain ⟨hj, ht, hf⟩ := h
        rw [← ht]
        exact ih a s i j1 t1 f1 ha hx
      · exact ih b s i j toks f hb h
    | longestOf a b =>
      simp only [tidySafe, Bool.and_eq_true] at hp
      obtain ⟨ha, hb⟩ := hp
      simp only [runPE] at h
      split at h
      · rename_i ja ta fa jb tb fb hxa hxb
        split at h
        · simp only [Option.some.injEq, Prod.mk.injEq] at h
          obtain ⟨hj, ht, hf⟩ := h
          rw [← ht]
          exact ih b s i jb tb fb hb hxb
        · simp only [Option.some.injEq, Prod.mk.injEq] at h
          obtain ⟨hj, ht, hf⟩ := h
          rw [← ht]
          exact ih a s i ja ta fa ha hxa
      · rename_i r hxa hxb
        obtain ⟨ja, ta, fa⟩ := r
        simp only [Option.some.injEq, Prod.mk.injEq] at h
        obtain ⟨hj, ht, hf⟩ := h
        rw [← ht]
        exact ih a s i ja ta fa ha hxa
      · rename_i r hxa hxb
        obtain ⟨jb, tb, fb⟩ := r
        simp only [Option.some.injEq, Prod.mk.injEq] at h
        obtain ⟨hj, ht, hf⟩ := h
        rw [← ht]
        exact ih b s i jb tb fb hb hxb
      · exact absurd h (by simp)
    | opt p' d =>
      simp only [runPE] at h
      split at h
      · rename_i r hx
        obtain ⟨j1, t1, f1⟩ := r
        simp only [Option.some.injEq, Prod.mk.injEq] at h
        obtain ⟨hj, ht, hf⟩ := h
        rw [← ht]
        have hp' : tidySafe p' = true := by
          cases d with
          | noDef => exact hp
          | withDef t0 =>
            simp only [tidySafe, Bool.and_eq_true] at hp
            exact hp.1
        exact ih p' s i j1 t1 f1 hp' hx
      · cases d with
        | noDef =>
          simp only [Option.some.injEq, Prod.mk.injEq] at h
          rw [← h.2.1]
          rfl
        | withDef t0 =>
          simp only [tidySafe, Bool.and_eq_true] at hp
          simp only [Option.some.injEq, Prod.mk.injEq] at h
          rw [← h.2.1]
          simp [tidyList, hp.2]
    | repMin m p' =>
      have hp' : tidySafe p' = true := hp
      simp only [runPE] at h
      split at h
      · split at h
        · simp only [Option.some.injEq, Prod.mk.injEq] at h
          rw [← h.2.1]
          rfl
        · exact absurd h (by simp)
      · rename_i j1 t1 f1 hx1
        split at h
        · rename_i k2 t2 f2 hx2
          simp only [Option.some.injEq, Prod.mk.injEq] at h
          obtain ⟨hj, ht, hf⟩ := h
          have h2 := ih p' s i j1 t1 f1 hp' hx1
          have h4 := ih (.repMin (m - 1) p') s j1 k2 t2 f2 hp' hx2
          rw [← ht, tidyList_append, h2, h4]
          rfl
        · exact absurd h (by simp)
    | followedBy p' =>
      simp only [runPE] at h
      split at h
      · simp only [Option.some.injEq, Prod.mk.injEq] at h
        rw [← h.2.1]
        rfl
      · exact absurd h (by simp)
    | notAny p' =>
      simp only [runPE] at h
      split at h
      · exact absurd h (by simp)
      · simp only [Option.some.injEq, Prod.mk.injEq] at h
        rw [← h.2.1]
        rfl
    | act a p' =>
      cases a with
      | join =>
        simp only [runPE] at h
        split at h
        · simp only [Option.some.injEq, Prod.mk.injEq, applyAct] at h
          rw [← h.2.1]
          rfl
        · exact absurd h (by simp)
      | noneTo2 =>
        have hp' : tidySafe p' = true := hp
        simp only [runPE] at h
        split at h
        · rename_i j1 t1 f1 hx
          simp only [Option.some.injEq, Prod.mk.injEq] at h
          obtain ⟨hj, ht, hf⟩ := h
          have hIH := ih p' s i j1 t1 f1 hp' hx
          rw [← ht]
          cases t1 with
          | nil => rfl
          | cons t0 rest =>
            cases t0 with
            | none => rfl
            | str v => simpa [applyAct] using hIH
            | intTok m0 => simpa [applyAct] using hIH
            | floatTok raw => simpa [applyAct] using hIH
            | leaf v => simpa [applyAct] using hIH
            | node k0 ch => simpa [applyAct] using hIH
        · exact absurd h (by simp)
      | wrap k =>
        simp only [tidySafe] at hp
        simp only [runPE] at h
        split at h
        · rename_i j1 t1 f1 hx
          simp only [Option.some.injEq, Prod.mk.injEq, applyAct] at h
          obtain ⟨hj, ht, hf⟩ := h
          rw [← ht]
          by_cases hks : (k == Kind.statementK) = true
          · rw [if_pos hks] at hp
            have hIH := commentFree_run n p' s i j1 t1 f1 hp hx
            simp only [tidyList, tidy, if_pos hks, Bool.and_eq_true]
            exact ⟨hIH, trivial⟩
          · rw [if_neg hks] at hp
            simp only [Bool.and_eq_true] at hp
            have hIH := ih p' s i j1 t1 f1 hp.2 hx
            by_cases hkc : (k == Kind.code) = true
            · rw [if_pos hkc] at hp
              have hnl := noLeafTop_run n p' s i j1 t1 f1 hp.1 hx
              simp only [tidyList, tidy, if_neg hks, if_pos hkc,
                Bool.and_eq_true]
              exact ⟨⟨hnl, hIH⟩, trivial⟩
            · simp only [tidyList, tidy, if_neg hks, if_neg hkc,
                Bool.and_eq_true]
              exact ⟨⟨trivial, hIH⟩, trivial⟩
        · exact absurd h (by simp)
    | ref r =>
      simp only [runPE] at h
      exact ih (rules r) s i j toks f (tidySafe_rules r) h

/-! ### Generic preservation of `tidy` and `slotsNl` by slot-rewriting
passes -/

theorem tidyList_getC :
    ∀ (l : List Tok) (i : Nat), tidyList l = true → tidy (getC l i) = true := by
  intro l
  induction l with
  | nil => intro i _; rfl
  | cons c rest ih =>
    intro i h
    simp only [tidyList, Bool.and_eq_true] at h
    cases i with
    | zero => exact h.1
    | succ m => exact ih m h.2

theorem tidyList_set :
    ∀ (l : List Tok) (i : Nat) (v : Tok), tidyList l = true →
      tidy v = true → tidyList (l.set i v) = true := by
  intro l
  induction l with
  | nil => intro i v h _; exact h
  | cons c rest ih =>
    intro i v h hv
    simp only [tidyList, Bool.and_eq_true] at h
    cases i with
    | zero => simp [List.set, tidyList, hv, h.2]
    | succ m =>
      simp only [List.set, tidyList, Bool.and_eq_true]
      exact ⟨h.1, ih m v h.2 hv⟩

theorem noCommentDeepList_getC :
    ∀ (l : List Tok) (i : Nat), noCommentDeepList l = true →
      noCommentDeep (getC l i) = true := by
  intro l
  induction l with
  | nil => intro i _; rfl
  | cons c rest ih =>
    intro i h
    simp only [noCommentDeepList, Bool.and_eq_true] at h
    cases i with
    | zero => exact h.1
    | succ m => exact ih m h.2

theorem noCommentDeepList_set :
    ∀ (l : List Tok) (i : Nat) (v : Tok), noCommentDeepList l = true →
      noCommentDeep v = true → noCommentDeepList (l.set i v) = true := by
  intro l
  induction l with
  | nil => intro i v h _; exact h
  | cons c rest ih =>
    intro i v h hv
    simp only [noCommentDeepList, Bool.and_eq_true] at h
    cases i with
    | zero => simp [List.set, noCommentDeepList, hv, h.2]
    | succ m =>
      simp only [List.set, noCommentDeepList, Bool.and_eq_true]
      exact ⟨h.1, ih m v h.2 hv⟩

theorem noLeafChild_getC :
    ∀ (l : List Tok) (i : Nat), noLeafChild l = true →
      isLeafTok (getC l i) = false := by
  intro l
  induction l with
  | nil => intro i _; rfl
  | cons c rest ih =>
    intro i h
    simp only [noLeafChild, Bool.and_eq_true] at h
    cases i with
    | zero => simpa using h.1
    | succ m => exact ih m h.2

theorem noLeafChild_set :
    ∀ (l : List Tok) (i : Nat) (v : Tok), noLeafChild l = true →
      isLeafTok v = false → noLeafChild (l.set i v) = true := by
  intro l
  induction l with
  | nil => intro i v h _; exact h
  | cons c rest ih =>
    intro i v h hv
    simp only [noLeafChild, Bool.and_eq_true] at h
    cases i with
    | zero => simp [List.set, noLeafChild, hv, h.2]
    | succ m =>
      simp only [List.set, noLeafChild, Bool.and_eq_true]
      exact ⟨h.1, ih m v h.2 hv⟩

theorem slotsNlList_set :
    ∀ (l : List Tok) (i : Nat) (v : Tok), slotsNlList l = true →
      slotsNl v = true → slotsNlList (l.set i v) = true := by
  intro l
  induction l with
  | nil => intro i v h _; exact h
  | cons c rest ih =>
    intro i v h hv
    simp only [slotsNlList, Bool.and_eq_true] at h
    cases i with
    | zero => simp [List.set, slotsNlList, hv, h.2]
    | succ m =>
      simp only [List.set, slotsNlList, Bool.and_eq_true]
      exact ⟨h.1, ih m v h.2 hv⟩

theorem isComm_of_noCommentDeep :
    ∀ (c : Tok), noCommentDeep c = true → isCommentTok c = false := by
  intro c h
  cases c with
  | node k ch =>
    simp only [noCommentDeep, Bool.and_eq_true] at h
    simpa [isCommentTok] using h.1
  | str v => rfl
  | none => rfl
  | intTok n => rfl
  | floatTok raw => rfl
  | leaf v => rfl

theorem noCommentChild_of_deepList :
    ∀ (l : List Tok), noCommentDeepList l = true →
      noCommentChild l = true := by
  intro l
  induction l with
  | nil => intro _; rfl
  | cons c rest ih =>
    intro h
    simp only [noCommentDeepList, Bool.and_eq_true] at h
    simp only [noCommentChild, Bool.and_eq_true]
    exact ⟨by simp [isComm_of_noCommentDeep c h.1], ih h.2⟩

mutual

theorem slotsNl_of_deep : ∀ (t : Tok), noCommentDeep t = true →
    slotsNl t = true
  | .node k ch, h => by
    simp only [noCommentDeep, Bool.and_eq_true] at h
    simp only [slotsNl, Bool.and_eq_true]
    exact ⟨slotGo_of_noComment 1 ch Option.none
      (noCommentChild_of_deepList ch h.2), slotsNlList_of_deep ch h.2⟩
  | .str v, _ => rfl
  | .none, _ => rfl
  | .intTok n, _ => rfl
  | .floatTok raw, _ => rfl
  | .leaf v, _ => rfl

theorem slotsNlList_of_deep : ∀ (l : List Tok), noCommentDeepList l = true →
    slotsNlList l = true
  | [], _ => rfl
  | c :: rest, h => by
    simp only [noCommentDeepList, Bool.and_eq_true] at h
    simp only [slotsNlList, Bool.and_eq_true]
    exact ⟨slotsNl_of_deep c h.1, slotsNlList_of_deep rest h.2⟩

end

mutual

theorem spaced_of_deep : ∀ (t : Tok), noCommentDeep t = true →
    spaced t = true
  | .node k ch, h => by
    simp only [noCommentDeep, Bool.and_eq_true] at h
    simp only [spaced, Bool.and_eq_true]
    exact ⟨spacedGo_of_noComment ch Option.none Option.none
      (noCommentChild_of_deepList ch h.2), spacedList_of_deep ch h.2⟩
  | .str v, _ => rfl
  | .none, _ => rfl
  | .intTok n, _ => rfl
  | .floatTok raw, _ => rfl
  | .leaf v, _ => rfl

theorem spacedList_of_deep : ∀ (l : List Tok), noCommentDeepList l = true →
    spacedList l = true
  | [], _ => rfl
  | c :: rest, h => by
    simp only [noCommentDeepList, Bool.and_eq_true] at h
    simp only [spacedList, Bool.and_eq_true]
    exact ⟨spaced_of_deep c h.1, spacedList_of_deep rest h.2⟩

end

theorem pass_leaf (P : Tok → Tok) (G : Kind → List Tok → List Tok)
    (h6 : ∀ k ch, P (.node k ch) = .node k (G k (ch.map P)))
    (h0 : ∀ t, nonNode t → P t = t) (c : Tok) :
    isLeafTok (P c) = isLeafTok c := by
  cases c with
  | node k ch => rw [h6]; rfl
  | str v => rw [h0 (.str v) True.intro]
  | none => rw [h0 .none True.intro]
  | intTok n => rw [h0 (.intTok n) True.intro]
  | floatTok raw => rw [h0 (.floatTok raw) True.intro]
  | leaf v => rw [h0 (.leaf v) True.intro]

theorem pass_noLeaf (P : Tok → Tok) (G : Kind → List Tok → List Tok)
    (h6 : ∀ k ch, P (.node k ch) = .node k (G k (ch.map P)))
    (h0 : ∀ t, nonNode t → P t = t) :
    ∀ (l : List Tok), noLeafChild l = true →
      noLeafChild (l.map P) = true := by
  intro l
  induction l with
  | nil => intro _; rfl
  | cons c rest ih =>
    intro h
    simp only [noLeafChild, Bool.and_eq_true] at h
    simp only [List.map_cons, noLeafChild, Bool.and_eq_true]
    refine ⟨?_, ih h.2⟩
    rw [pass_leaf P G h6 h0 c]
    exact h.1

mutual

theorem pass_deep (P : Tok → Tok) (G : Kind → List Tok → List Tok)
    (h6 : ∀ k ch, P (.node k ch) = .node k (G k (ch.map P)))
    (h0 : ∀ t, nonNode t → P t = t)
    (hGdeep : ∀ k l, noCommentDeepList l = true →
      noCommentDeepList (G k l) = true) :
    ∀ (t : Tok), noCommentDeep t = true → noCommentDeep (P t) = true
  | .node k ch, h => by
    simp only [noCommentDeep, Bool.and_eq_true] at h
    rw [h6]
    simp only [noCommentDeep, Bool.and_eq_true]
    exact ⟨h.1, hGdeep k _ (pass_deepList P G h6 h0 hGdeep ch h.2)⟩
  | .str v, h => by rw [h0 (.str v) True.intro]; exact h
  | .none, h => by rw [h0 .none True.intro]; exact h
  | .intTok n, h => by rw [h0 (.intTok n) True.intro]; exact h
  | .floatTok raw, h => by rw [h0 (.floatTok raw) True.intro]; exact h
  | .leaf v, h => by rw [h0 (.leaf v) True.intro]; exact h

theorem pass_deepList (P : Tok → Tok) (G : Kind → List Tok → List Tok)
    (h6 : ∀ k ch, P (.node k ch) = .node k (G k (ch.map P)))
    (h0 : ∀ t, nonNode t → P t = t)
    (hGdeep : ∀ k l, noCommentDeepList l = true →
      noCommentDeepList (G k l) = true) :
    ∀ (l : List Tok), noCommentDeepList l = true →
      noCommentDeepList (l.map P) = true
  | [], h => h
  | c :: rest, h => by
    simp only [noCommentDeepList, Bool.and_eq_true] at h
    simp only [List.map_cons, noCommentDeepList, Bool.and_eq_true]
    exact ⟨pass_deep P G h6 h0 hGdeep c h.1,
      pass_deepList P G h6 h0 hGdeep rest h.2⟩

end

mutual

theorem pass_tidy (P : Tok → Tok) (G : Kind → List Tok → List Tok)
    (h6 : ∀ k ch, P (.node k ch) = .node k (G k (ch.map P)))
    (h0 : ∀ t, nonNode t → P t = t)
    (hGcode : ∀ l, G .code l = l)
    (hGdeep : ∀ k l, noCommentDeepList l = true →
      noCommentDeepList (G k l) = true)
    (hGtidy : ∀ k l, tidyList l = true → tidyList (G k l) = true) :
    ∀ (t : Tok), tidy t = true → tidy (P t) = true
  | .node k ch, h => by
    rw [h6]
    by_cases hks : (k == Kind.statementK) = true
    · simp only [tidy, if_pos hks] at h ⊢
      exact hGdeep k _ (pass_deepList P G h6 h0 hGdeep ch h)
    · simp only [tidy, if_neg hks, Bool.and_eq_true] at h ⊢
      refine ⟨?_, hGtidy k _
        (pass_tidyList P G h6 h0 hGcode hGdeep hGtidy ch h.2)⟩
      by_cases hkc : (k == Kind.code) = true
      · rw [if_pos hkc] at h ⊢
        have hkk : k = Kind.code := by simpa using hkc
        subst hkk
        rw [hGcode]
        exact pass_noLeaf P G h6 h0 ch h.1
      · rw [if_neg hkc]
  | .str v, h => by rw [h0 (.str v) True.intro]; exact h
  | .none, h => by rw [h0 .none True.intro]; exact h
  | .intTok n, h => by rw [h0 (.intTok n) True.intro]; exact h
  | .floatTok raw, h => by rw [h0 (.floatTok raw) True.intro]; exact h
  | .leaf v, h => by rw [h0 (.leaf v) True.intro]; exact h

theorem pass_tidyList (P : Tok → Tok) (G : Kind → List Tok → List Tok)
    (h6 : ∀ k ch, P (.node k ch) = .node k (G k (ch.map P)))
    (h0 : ∀ t, nonNode t → P t = t)
    (hGcode : ∀ l, G .code l = l)
    (hGdeep : ∀ k l, noCommentDeepList l = true →
      noCommentDeepList (G k l) = true)
    (hGtidy : ∀ k l, tidyList l = true → tidyList (G k l) = true) :
    ∀ (l : List Tok), tidyList l = true → tidyList (l.map P) = true
  | [], h => h
  | c :: rest, h => by
    simp only [tidyList, Bool.and_eq_true] at h
    simp only [List.map_cons, tidyList, Bool.and_eq_true]
    exact ⟨pass_tidy P G h6 h0 hGcode hGdeep hGtidy c h.1,
      pass_tidyList P G h6 h0 hGcode hGdeep hGtidy rest h.2⟩

end

theorem pass_slotGo (P : Tok → Tok) (G : Kind → List Tok → List Tok)
    (h6 : ∀ k ch, P (.node k ch) = .node k (G k (ch.map P)))
    (h0 : ∀ t, nonNode t → P t = t) (req : Nat) :
    ∀ (l : List Tok) (prev : Option Tok), slotGo req prev l = true →
      slotGo req (prev.map P) (l.map P) = true := by
  intro l
  induction l with
  | nil => intro prev _; rfl
  | cons c rest ih =>
    intro prev h
    simp only [slotGo, Bool.and_eq_true] at h
    simp only [List.map_cons, slotGo, Bool.and_eq_true]
    constructor
    · rw [pass_comment P G h6 h0 c]
      by_cases hc : isCommentTok c = true
      · rw [if_pos hc] at h ⊢
        cases prev with
        | none => rfl
        | some t =>
          simp only [Option.map_some']
          cases t with
          | str p =>
            rw [h0 (.str p) True.intro]
            exact h.1
          | node k ch => rw [h6]
          | none => rw [h0 .none True.intro]
          | intTok n => rw [h0 (.intTok n) True.intro]
          | floatTok raw => rw [h0 (.floatTok raw) True.intro]
          | leaf v => rw [h0 (.leaf v) True.intro]
      · rw [if_neg hc]
    · have := ih (some c) h.2
      simpa using this

mutual

theorem pass_slots (P : Tok → Tok) (G : Kind → List Tok → List Tok)
    (h6 : ∀ k ch, P (.node k ch) = .node k (G k (ch.map P)))
    (h0 : ∀ t, nonNode t → P t = t)
    (hGcode : ∀ l, G .code l = l)
    (hGnc : ∀ k l, noCommentChild l = true → noCommentChild (G k l) = true)
    (hGslots : ∀ k l, slotsNlList l = true → slotsNlList (G k l) = true) :
    ∀ (t : Tok), placed t = true → slotsNl t = true → slotsNl (P t) = true
  | .node k ch, hpl, h => by
    rw [h6]
    simp only [placed, Bool.and_eq_true] at hpl
    simp only [slotsNl, Bool.and_eq_true] at h ⊢
    refine ⟨?_, hGslots k _
      (pass_slotsList P G h6 h0 hGcode hGnc hGslots ch hpl.2 h.2)⟩
    by_cases hkc : (k == Kind.code) = true
    · have hkk : k = Kind.code := by simpa using hkc
      subst hkk
      rw [hGcode]
      have := pass_slotGo P G h6 h0 1 ch Option.none h.1
      simpa using this
    · rw [if_neg hkc] at hpl
      exact slotGo_of_noComment 1 _ Option.none
        (hGnc k _ (pass_noComment P G h6 h0 ch hpl.1))
  | .str v, _, h => by rw [h0 (.str v) True.intro]; exact h
  | .none, _, h => by rw [h0 .none True.intro]; exact h
  | .intTok n, _, h => by rw [h0 (.intTok n) True.intro]; exact h
  | .floatTok raw, _, h => by rw [h0 (.floatTok raw) True.intro]; exact h
  | .leaf v, _, h => by rw [h0 (.leaf v) True.intro]; exact h

theorem pass_slotsList (P : Tok → Tok) (G : Kind → List Tok → List Tok)
    (h6 : ∀ k ch, P (.node k ch) = .node k (G k (ch.map P)))
    (h0 : ∀ t, nonNode t → P t = t)
    (hGcode : ∀ l, G .code l = l)
    (hGnc : ∀ k l, noCommentChild l = true → noCommentChild (G k l) = true)
    (hGslots : ∀ k l, slotsNlList l = true → slotsNlList (G k l) = true) :
    ∀ (l : List Tok), placedList l = true → slotsNlList l = true →
      slotsNlList (l.map P) = true
  | [], _, h => h
  | c :: rest, hpl, h => by
    simp only [placedList, Bool.and_eq_true] at hpl
    simp only [slotsNlList, Bool.and_eq_true] at h
    simp only [List.map_cons, slotsNlList, Bool.and_eq_true]
    exact ⟨pass_slots P G h6 h0 hGcode hGnc hGslots c hpl.1 h.1,
      pass_slotsList P G h6 h0 hGcode hGnc hGslots rest hpl.2 h.2⟩

end

/-! ### `tidy`-preservation of the slot-rewriting passes -/

theorem delimSpace_deep (ek : Kind) (i : Nat) (t : Tok)
    (h : noCommentDeep t = true) : noCommentDeep (delimSpace ek i t) = true := by
  simp only [delimSpace]
  split
  · exact h
  · split
    · rfl
    · exact h

theorem delimSpace_tidy (ek : Kind) (i : Nat) (t : Tok)
    (h : tidy t = true) : tidy (delimSpace ek i t) = true := by
  simp only [delimSpace]
  split
  · exact h
  · split
    · rfl
    · exact h

theorem delimSpace_leafEq (ek : Kind) (i : Nat) (t : Tok) :
    isLeafTok (delimSpace ek i t) = isLeafTok t := by
  simp only [delimSpace]
  split
  · rfl
  · split <;> rfl

theorem delimSpaceList_deep (ek : Kind) :
    ∀ (i : Nat) (l : List Tok), noCommentDeepList l = true →
      noCommentDeepList (delimSpaceList ek i l) = true := by
  intro i l
  induction l generalizing i with
  | nil => intro _; rfl
  | cons c rest ih =>
    intro h
    simp only [noCommentDeepList, Bool.and_eq_true] at h
    simp only [delimSpaceList, noCommentDeepList, Bool.and_eq_true]
    exact ⟨delimSpace_deep ek i c h.1, ih (i + 1) h.2⟩

theorem delimSpaceList_tidy (ek : Kind) :
    ∀ (i : Nat) (l : List Tok), tidyList l = true →
      tidyList (delimSpaceList ek i l) = true := by
  intro i l
  induction l generalizing i with
  | nil => intro _; rfl
  | cons c rest ih =>
    intro h
    simp only [tidyList, Bool.and_eq_true] at h
    simp only [delimSpaceList, tidyList, Bool.and_eq_true]
    exact ⟨delimSpace_tidy ek i c h.1, ih (i + 1) h.2⟩

theorem delimSpaceList_noLeaf (ek : Kind) :
    ∀ (i : Nat) (l : List Tok), noLeafChild l = true →
      noLeafChild (delimSpaceList ek i l) = true := by
  intro i l
  induction l generalizing i with
  | nil => intro _; rfl
  | cons c rest ih =>
    intro h
    simp only [noLeafChild, Bool.and_eq_true] at h
    simp only [delimSpaceList, noLeafChild, Bool.and_eq_true]
    refine ⟨?_, ih (i + 1) h.2⟩
    rw [delimSpace_leafEq]
    exact h.1

theorem mapElementsList_deep (ek : Kind) (l : List Tok)
    (h : noCommentDeepList l = true) :
    noCommentDeepList (mapElementsList (delimSpaceList ek 0) l) = true := by
  simp only [mapElementsList]
  split
  · rename_i pk pch heq
    split
    · rename_i dk dch heq2
      refine noCommentDeepList_set _ 0 _ h ?_
      have hp0 := noCommentDeepList_getC l 0 h
      rw [heq] at hp0
      simp only [noCommentDeep, Bool.and_eq_true] at hp0 ⊢
      have hp2 := noCommentDeepList_getC pch 2 hp0.2
      rw [heq2] at hp2
      simp only [noCommentDeep, Bool.and_eq_true] at hp2
      refine ⟨hp0.1, noCommentDeepList_set _ 2 _ hp0.2 ?_⟩
      simp only [noCommentDeep, Bool.and_eq_true]
      exact ⟨hp2.1, delimSpaceList_deep ek 0 dch hp2.2⟩
    · exact h
  · exact h

theorem mapElementsList_tidy (ek : Kind) (l : List Tok)
    (h : tidyList l = true) :
    tidyList (mapElementsList (delimSpaceList ek 0) l) = true := by
  simp only [mapElementsList]
  split
  · rename_i pk pch heq
    split
    · rename_i dk dch heq2
      refine tidyList_set _ 0 _ h ?_
      have hp0 := tidyList_getC l 0 h
      rw [heq] at hp0
      by_cases hps : (pk == Kind.statementK) = true
      · simp only [tidy, if_pos hps] at hp0 ⊢
        refine noCommentDeepList_set _ 2 _ hp0 ?_
        have hp2 := noCommentDeepList_getC pch 2 hp0
        rw [heq2] at hp2
        simp only [noCommentDeep, Bool.and_eq_true] at hp2 ⊢
        exact ⟨hp2.1, delimSpaceList_deep ek 0 dch hp2.2⟩
      · simp only [tidy, if_neg hps, Bool.and_eq_true] at hp0 ⊢
        constructor
        · by_cases hpc : (pk == Kind.code) = true
          · rw [if_pos hpc] at hp0 ⊢
            exact noLeafChild_set _ 2 _ hp0.1 rfl
          · rw [if_neg hpc]
        · refine tidyList_set _ 2 _ hp0.2 ?_
          have hp2 := tidyList_getC pch 2 hp0.2
          rw [heq2] at hp2
          by_cases hds : (dk == Kind.statementK) = true
          · simp only [tidy, if_pos hds] at hp2 ⊢
            exact delimSpaceList_deep ek 0 dch hp2
          · simp only [tidy, if_neg hds, Bool.and_eq_true] at hp2 ⊢
            refine ⟨?_, delimSpaceList_tidy ek 0 dch hp2.2⟩
            by_cases hdc : (dk == Kind.code) = true
            · rw [if_pos hdc] at hp2 ⊢
              exact delimSpaceList_noLeaf ek 0 dch hp2.1
            · rw [if_neg hdc]
    · exact h
  · exact h

theorem gNormWsArgs_deep : ∀ k l, noCommentDeepList l = true →
    noCommentDeepList (gNormWsArgs k l) = true := by
  intro k l h
  simp only [gNormWsArgs]
  split
  · exact mapElementsList_deep k l h
  · exact h

theorem gNormWsArgs_tidy : ∀ k l, tidyList l = true →
    tidyList (gNormWsArgs k l) = true := by
  intro k l h
  simp only [gNormWsArgs]
  split
  · exact mapElementsList_tidy k l h
  · exact h

theorem tidy_normWsArgs (t : Tok) (h : tidy t = true) :
    tidy (normWsArgs t) = true :=
  pass_tidy normWsArgs gNormWsArgs normWsArgs_shape normWsArgs_id
    gNormWsArgs_code gNormWsArgs_deep gNormWsArgs_tidy t h

theorem gNormWsParen_deep : ∀ k l, noCommentDeepList l = true →
    noCommentDeepList (gNormWsParen k l) = true := by
  intro k l h
  simp only [gNormWsParen]
  split
  · exact noCommentDeepList_set _ 3 _ (noCommentDeepList_set _ 1 _ h rfl) rfl
  · exact h

theorem gNormWsParen_tidy : ∀ k l, tidyList l = true →
    tidyList (gNormWsParen k l) = true := by
  intro k l h
  simp only [gNormWsParen]
  split
  · exact tidyList_set _ 3 _ (tidyList_set _ 1 _ h rfl) rfl
  · exact h

theorem tidy_normWsParen (t : Tok) (h : tidy t = true) :
    tidy (normWsParen t) = true :=
  pass_tidy normWsParen gNormWsParen normWsParen_shape normWsParen_id
    gNormWsParen_code gNormWsParen_deep gNormWsParen_tidy t h

theorem gNormWsAssign_deep : ∀ k l, noCommentDeepList l = true →
    noCommentDeepList (gNormWsAssign k l) = true := by
  intro k l h
  simp only [gNormWsAssign]
  split
  · exact noCommentDeepList_set _ 3 _ (noCommentDeepList_set _ 1 _ h rfl) rfl
  · exact h

theorem gNormWsAssign_tidy : ∀ k l, tidyList l = true →
    tidyList (gNormWsAssign k l) = true := by
  intro k l h
  simp only [gNormWsAssign]
  split
  · exact tidyList_set _ 3 _ (tidyList_set _ 1 _ h rfl) rfl
  · exact h

theorem tidy_normWsAssign (t : Tok) (h : tidy t = true) :
    tidy (normWsAssign t) = true :=
  pass_tidy normWsAssign gNormWsAssign normWsAssign_shape normWsAssign_id
    gNormWsAssign_code gNormWsAssign_deep gNormWsAssign_tidy t h

theorem gRmSemiAfterEnd_deep : ∀ k l, noCommentDeepList l = true →
    noCommentDeepList (gRmSemiAfterEnd k l) = true := by
  intro k l h
  simp only [gRmSemiAfterEnd]
  split
  · exact noCommentDeepList_set _ _ _ h rfl
  · exact h

theorem gRmSemiAfterEnd_tidy : ∀ k l, tidyList l = true →
    tidyList (gRmSemiAfterEnd k l) = true := by
  intro k l h
  simp only [gRmSemiAfterEnd]
  split
  · exact tidyList_set _ _ _ h rfl
  · exact h

theorem tidy_rmSemiAfterEnd (t : Tok) (h : tidy t = true) :
    tidy (rmSemiAfterEnd t) = true :=
  pass_tidy rmSemiAfterEnd gRmSemiAfterEnd rmSemiAfterEnd_shape
    rmSemiAfterEnd_id gRmSemiAfterEnd_code gRmSemiAfterEnd_deep
    gRmSemiAfterEnd_tidy t h

theorem gRmSemiAfterIfCond_deep : ∀ k l, noCommentDeepList l = true →
    noCommentDeepList (gRmSemiAfterIfCond k l) = true := by
  intro k l h
  simp only [gRmSemiAfterIfCond]
  split
  · split
    · rename_i hk hch heq
      split
      · refine noCommentDeepList_set _ 2 _ h ?_
        have hp2 := noCommentDeepList_getC l 2 h
        rw [heq] at hp2
        simp only [noCommentDeep, Bool.and_eq_true] at hp2 ⊢
        exact ⟨hp2.1, noCommentDeepList_set _ _ _ hp2.2 rfl⟩
      · exact h
    · exact h
  · exact h

theorem gRmSemiAfterIfCond_tidy : ∀ k l, tidyList l = true →
    tidyList (gRmSemiAfterIfCond k l) = true := by
  intro k l h
  simp only [gRmSemiAfterIfCond]
  split
  · split
    · rename_i hk hch heq
      split
      · refine tidyList_set _ 2 _ h ?_
        have hp2 := tidyList_getC l 2 h
        rw [heq] at hp2
        by_cases hks : (hk == Kind.statementK) = true
        · simp only [tidy, if_pos hks] at hp2 ⊢
          exact noCommentDeepList_set _ _ _ hp2 rfl
        · simp only [tidy, if_neg hks, Bool.and_eq_true] at hp2 ⊢
          refine ⟨?_, tidyList_set _ _ _ hp2.2 rfl⟩
          by_cases hkc : (hk == Kind.code) = true
          · rw [if_pos hkc] at hp2 ⊢
            exact noLeafChild_set _ _ _ hp2.1 rfl
          · rw [if_neg hkc]
      · exact h
    · exact h
  · exact h

theorem tidy_rmSemiAfterIfCond (t : Tok) (h : tidy t = true) :
    tidy (rmSemiAfterIfCond t) = true :=
  pass_tidy rmSemiAfterIfCond gRmSemiAfterIfCond rmSemiAfterIfCond_shape
    rmSemiAfterIfCond_id gRmSemiAfterIfCond_code gRmSemiAfterIfCond_deep
    gRmSemiAfterIfCond_tidy t h

theorem gRmWsBeforeSemi_deep : ∀ k l, noCommentDeepList l = true →
    noCommentDeepList (gRmWsBeforeSemi k l) = true := by
  intro k l h
  simp only [gRmWsBeforeSemi]
  split
  · exact noCommentDeepList_set _ _ _ h rfl
  · exact h

theorem gRmWsBeforeSemi_tidy : ∀ k l, tidyList l = true →
    tidyList (gRmWsBeforeSemi k l) = true := by
  intro k l h
  simp only [gRmWsBeforeSemi]
  split
  · exact tidyList_set _ _ _ h rfl
  · exact h

theorem tidy_rmWsBeforeSemi (t : Tok) (h : tidy t = true) :
    tidy (rmWsBeforeSemi t) = true :=
  pass_tidy rmWsBeforeSemi gRmWsBeforeSemi rmWsBeforeSemi_shape
    rmWsBeforeSemi_id gRmWsBeforeSemi_code gRmWsBeforeSemi_deep
    gRmWsBeforeSemi_tidy t h

theorem gRmSemiAfterKeyword_deep : ∀ k l, noCommentDeepList l = true →
    noCommentDeepList (gRmSemiAfterKeyword k l) = true := by
  intro k l h
  simp only [gRmSemiAfterKeyword]
  split
  · split
    · split
      · exact noCommentDeepList_set _ _ _
          (noCommentDeepList_set _ _ _ h rfl) rfl
      · exact h
    · exact h
  · exact h

theorem gRmSemiAfterKeyword_tidy : ∀ k l, tidyList l = true →
    tidyList (gRmSemiAfterKeyword k l) = true := by
  intro k l h
  simp only [gRmSemiAfterKeyword]
  split
  · split
    · split
      · exact tidyList_set _ _ _ (tidyList_set _ _ _ h rfl) rfl
      · exact h
    · exact h
  · exact h

theorem tidy_rmSemiAfterKeyword (t : Tok) (h : tidy t = true) :
    tidy (rmSemiAfterKeyword t) = true :=
  pass_tidy rmSemiAfterKeyword gRmSemiAfterKeyword rmSemiAfterKeyword_shape
    rmSemiAfterKeyword_id gRmSemiAfterKeyword_code gRmSemiAfterKeyword_deep
    gRmSemiAfterKeyword_tidy t h

theorem gEnsureFunctionEnd_deep : ∀ k l, noCommentDeepList l = true →
    noCommentDeepList (gEnsureFunctionEnd k l) = true := by
  intro k l h
  simp only [gEnsureFunctionEnd]
  split
  · refine noCommentDeepList_set _ 6 _ ?_ rfl
    split
    · exact noCommentDeepList_set _ 5 _ h rfl
    · exact h
  · exact h

theorem gEnsureFunctionEnd_tidy : ∀ k l, tidyList l = true →
    tidyList (gEnsureFunctionEnd k l) = true := by
  intro k l h
  simp only [gEnsureFunctionEnd]
  split
  · refine tidyList_set _ 6 _ ?_ rfl
    split
    · exact tidyList_set _ 5 _ h rfl
    · exact h
  · exact h

theorem tidy_ensureFunctionEnd (t : Tok) (h : tidy t = true) :
    tidy (ensureFunctionEnd t) = true :=
  pass_tidy ensureFunctionEnd gEnsureFunctionEnd ensureFunctionEnd_shape
    ensureFunctionEnd_id gEnsureFunctionEnd_code gEnsureFunctionEnd_deep
    gEnsureFunctionEnd_tidy t h

theorem gEnsureFunctionEnd_slots : ∀ k l, slotsNlList l = true →
    slotsNlList (gEnsureFunctionEnd k l) = true := by
  intro k l h
  simp only [gEnsureFunctionEnd]
  split
  · refine slotsNlList_set _ 6 _ ?_ rfl
    split
    · exact slotsNlList_set _ 5 _ h rfl
    · exact h
  · exact h

theorem slots_ensureFunctionEnd (t : Tok) (hp : placed t = true)
    (h : slotsNl t = true) : slotsNl (ensureFunctionEnd t) = true :=
  pass_slots ensureFunctionEnd gEnsureFunctionEnd ensureFunctionEnd_shape
    ensureFunctionEnd_id gEnsureFunctionEnd_code gEnsureFunctionEnd_nc
    gEnsureFunctionEnd_slots t hp h

/-! ### Structure of the indentation walk

Every child list emitted by `indentGo` is the input list with each
element either walked recursively or overwritten by a plain string (the
predecessor-slot rewrites).  That characterization gives preservation of
`placed` and `tidy`. -/

def predOk2 (orig : List Tok) (i : Nat) : Bool :=
  decide (2 ≤ i) && !tokIsNone (getC orig (i - 1))

def prev2Of (k : Kind) (orig : List Tok) (i : Nat) (lvl1 : Int)
    (prev : Option Tok) (c : Tok) : Option Tok :=
  match (indentWalk c (predOk2 orig i) lvl1).2 with
  | some v => some (.str v)
  | Option.none =>
    if indentQualifies k orig i c && predOk2 orig i then
      match getC orig (i - 1) with
      | .str p => some (.str (indentRewrite p lvl1))
      | _ => prev
    else prev

theorem indentGo_nil (k : Kind) (orig : List Tok) (n : Nat) (hasPred : Bool)
    (i : Nat) (lvl : Int) (prev : Option Tok) :
    indentGo k orig n hasPred i lvl prev [] =
      ((match prev with | some p => [p] | Option.none => []),
        Option.none) := by
  simp only [indentGo]

theorem indentGo_cons (k : Kind) (orig : List Tok) (n : Nat) (hasPred : Bool)
    (i : Nat) (lvl : Int) (prev : Option Tok) (c : Tok) (rest : List Tok) :
    indentGo k orig n hasPred i lvl prev (c :: rest) =
      ((match prev2Of k orig i (stepLevel k n i lvl c).1 prev c with
        | some p => p ::
            (indentGo k orig n hasPred (i + 1) (stepLevel k n i lvl c).2
              (some (indentWalk c (predOk2 orig i)
                (stepLevel k n i lvl c).1).1) rest).1
        | Option.none =>
            (indentGo k orig n hasPred (i + 1) (stepLevel k n i lvl c).2
              (some (indentWalk c (predOk2 orig i)
                (stepLevel k n i lvl c).1).1) rest).1),
       (match (indentGo k orig n hasPred (i + 1) (stepLevel k n i lvl c).2
              (some (indentWalk c (predOk2 orig i)
                (stepLevel k n i lvl c).1).1) rest).2 with
        | some d => some d
        | Option.none =>
            if indentQualifies k orig i c && !predOk2 orig i && hasPred then
              some ('\n' :: indentOf (stepLevel k n i lvl c).1)
            else Option.none)) := by
  simp only [indentGo, predOk2, prev2Of]

theorem indentGo_snd_false (k : Kind) (orig : List Tok) (n : Nat) :
    ∀ (l : List Tok) (i : Nat) (lvl : Int) (prev : Option Tok),
      (indentGo k orig n false i lvl prev l).2 = Option.none := by
  intro l
  induction l with
  | nil =>
    intro i lvl prev
    rw [indentGo_nil]
  | cons c rest ih =>
    intro i lvl prev
    rw [indentGo_cons]
    rw [ih]
    simp

theorem indentWalk_node (k : Kind) (ch : List Tok) (hp : Bool) (lvl : Int) :
    indentWalk (.node k ch) hp lvl =
      (.node k (indentGo k ch ch.length hp 0 lvl Option.none ch).1,
       (indentGo k ch ch.length hp 0 lvl Option.none ch).2) := by
  simp only [indentWalk]

theorem indentWalk_str (v : List Char) (hp : Bool) (lvl : Int) :
    indentWalk (.str v) hp lvl = (.str v, Option.none) := by
  simp only [indentWalk]

theorem indentWalk_noneT (hp : Bool) (lvl : Int) :
    indentWalk .none hp lvl = (.none, Option.none) := by
  simp only [indentWalk]

theorem indentWalk_intTok (n : Int) (hp : Bool) (lvl : Int) :
    indentWalk (.intTok n) hp lvl = (.intTok n, Option.none) := by
  simp only [indentWalk]

theorem indentWalk_floatTok (raw : List Char) (hp : Bool) (lvl : Int) :
    indentWalk (.floatTok raw) hp lvl = (.floatTok raw, Option.none) := by
  simp only [indentWalk]

theorem indentWalk_leaf (v : List Char) (hp : Bool) (lvl : Int) :
    indentWalk (.leaf v) hp lvl = (.leaf v, Option.none) := by
  simp only [indentWalk]

theorem indentWalk_snd_false (c : Tok) (lvl : Int) :
    (indentWalk c false lvl).2 = Option.none := by
  cases c with
  | node k ch =>
    rw [indentWalk_node]
    exact indentGo_snd_false k ch ch.length ch 0 lvl Option.none
  | str v => rw [indentWalk_str]
  | none => rw [indentWalk_noneT]
  | intTok n => rw [indentWalk_intTok]
  | floatTok raw => rw [indentWalk_floatTok]
  | leaf v => rw [indentWalk_leaf]

/-- An output slot is either a plain-string overwrite or the walked
input element. -/
def walkOut (a b : Tok) : Prop :=
  (∃ v, b = Tok.str v) ∨ (∃ hp lvl, b = (indentWalk a hp lvl).1)

theorem walkOut_comment (a b : Tok) (hr : walkOut a b)
    (h : isCommentTok a = false) : isCommentTok b = false := by
  cases hr with
  | inl h1 =>
    obtain ⟨v, rfl⟩ := h1
    rfl
  | inr h2 =>
    obtain ⟨hp, lvl, rfl⟩ := h2
    cases a with
    | node k ch =>
      rw [indentWalk_node]
      simpa [isCommentTok] using h
    | str v => rw [indentWalk_str]; exact h
    | none => rw [indentWalk_noneT]; exact h
    | intTok n => rw [indentWalk_intTok]; exact h
    | floatTok raw => rw [indentWalk_floatTok]; exact h
    | leaf v => rw [indentWalk_leaf]; exact h

theorem walkOut_leaf (a b : Tok) (hr : walkOut a b)
    (h : isLeafTok a = false) : isLeafTok b = false := by
  cases hr with
  | inl h1 =>
    obtain ⟨v, rfl⟩ := h1
    rfl
  | inr h2 =>
    obtain ⟨hp, lvl, rfl⟩ := h2
    cases a with
    | node k ch => rw [indentWalk_node]; rfl
    | str v => rw [indentWalk_str]; exact h
    | none => rw [indentWalk_noneT]; exact h
    | intTok n => rw [indentWalk_intTok]; exact h
    | floatTok raw => rw [indentWalk_floatTok]; exact h
    | leaf v => rw [indentWalk_leaf]; exact h

theorem walkOut_str (a b : Tok) (hr : walkOut a b) (v : List Char)
    (ha : a = .str v) : ∃ w, b = Tok.str w := by
  cases hr with
  | inl h1 => exact h1
  | inr h2 =>
    obtain ⟨hp, lvl, rfl⟩ := h2
    subst ha
    rw [indentWalk_str]
    exact ⟨v, rfl⟩

theorem forall2_noComment :
    ∀ (as bs : List Tok), List.Forall₂ walkOut as bs →
      noCommentChild as = true → noCommentChild bs = true := by
  intro as bs hrel
  induction hrel with
  | nil => intro h; exact h
  | cons h1 h2 ih =>
    rename_i a b as' bs'
    intro h
    simp only [noCommentChild, Bool.and_eq_true] at h ⊢
    refine ⟨?_, ih h.2⟩
    rw [walkOut_comment a b h1 (by simpa using h.1)]
    rfl

theorem forall2_noLeaf :
    ∀ (as bs : List Tok), List.Forall₂ walkOut as bs →
      noLeafChild as = true → noLeafChild bs = true := by
  intro as bs hrel
  induction hrel with
  | nil => intro h; exact h
  | cons h1 h2 ih =>
    rename_i a b as' bs'
    intro h
    simp only [noLeafChild, Bool.and_eq_true] at h ⊢
    refine ⟨?_, ih h.2⟩
    rw [walkOut_leaf a b h1 (by simpa using h.1)]
    rfl

theorem forall2_alt :
    ∀ (as : List Tok), altShape as = true → ∀ (bs : List Tok),
      List.Forall₂ walkOut as bs → altShape bs = true := by
  intro as
  induction as using altShape.induct with
  | case1 =>
    intro _ bs hrel
    cases hrel
    rfl
  | case2 b0 =>
    intro _ bs hrel
    cases hrel with
    | cons h1 h2 =>
      cases h2
      rfl
  | case3 b v c rest ih =>
    intro h bs hrel
    have h' : altShape (c :: rest) = true := h
    cases hrel with
    | cons h1 h2 =>
      rename_i x bs1
      cases h2 with
      | cons h3 h4 =>
        rename_i y bs2
        obtain ⟨w, rfl⟩ := walkOut_str _ y h3 v rfl
        have htail := ih h' bs2 h4
        cases h4 with
        | cons h5 h6 =>
          rename_i z bs3
          show altShape (z :: bs3) = true
          exact htail
  | case4 l h1 h2 h3 =>
    intro hp
    simp [altShape] at hp

def prevRel : List Tok → Option Tok → Prop
  | [], Option.none => True
  | [a], some p => walkOut a p
  | _, _ => False

theorem indentGo_rel (k : Kind) (orig : List Tok) (n : Nat) (hasPred : Bool) :
    ∀ (l : List Tok) (i : Nat) (lvl : Int) (prev : Option Tok)
      (as : List Tok), prevRel as prev →
      (prev = Option.none → predOk2 orig i = false) →
      List.Forall₂ walkOut (as ++ l)
        (indentGo k orig n hasPred i lvl prev l).1 := by
  intro l
  induction l with
  | nil =>
    intro i lvl prev as hrel hna
    rw [indentGo_nil]
    cases prev with
    | none =>
      cases as with
      | nil => exact List.Forall₂.nil
      | cons a as' => exact absurd hrel (by simp [prevRel])
    | some p =>
      cases as with
      | nil => exact absurd hrel (by simp [prevRel])
      | cons a as' =>
        cases as' with
        | nil => exact List.Forall₂.cons hrel List.Forall₂.nil
        | cons a2 as2 => exact absurd hrel (by simp [prevRel])
  | cons c rest ih =>
    intro i lvl prev as hrel hna
    rw [indentGo_cons]
    have htail := ih (i + 1) (stepLevel k n i lvl c).2
      (some (indentWalk c (predOk2 orig i) (stepLevel k n i lvl c).1).1) [c]
      (Or.inr ⟨predOk2 orig i, (stepLevel k n i lvl c).1, rfl⟩)
      (by intro hh; cases hh)
    cases prev with
    | none =>
      have hae : as = [] := by
        cases as with
        | nil => rfl
        | cons a as' => exact absurd hrel (by simp [prevRel])
      subst hae
      have hp0 : predOk2 orig i = false := hna rfl
      have hnone : prev2Of k orig i (stepLevel k n i lvl c).1 Option.none c
          = Option.none := by
        simp [prev2Of, hp0, indentWalk_snd_false]
      rw [hnone]
      simpa using htail
    | some p =>
      have ha : ∃ a, as = [a] ∧ walkOut a p := by
        cases as with
        | nil => exact absurd hrel (by simp [prevRel])
        | cons a as' =>
          cases as' with
          | nil => exact ⟨a, rfl, hrel⟩
          | cons a2 as2 => exact absurd hrel (by simp [prevRel])
      obtain ⟨a, rfl, hwa⟩ := ha
      simp only [prev2Of]
      cases hw : (indentWalk c (predOk2 orig i) (stepLevel k n i lvl c).1).2 with
      | some v =>
        exact List.Forall₂.cons (Or.inl ⟨v, rfl⟩) (by simpa using htail)
      | none =>
        by_cases hq : (indentQualifies k orig i c && predOk2 orig i) = true
        · rw [if_pos hq]
          cases hg : getC orig (i - 1) with
          | str p0 =>
            exact List.Forall₂.cons (Or.inl ⟨_, rfl⟩) (by simpa using htail)
          | node k2 ch2 =>
            exact List.Forall₂.cons hwa (by simpa using htail)
          | none => exact List.Forall₂.cons hwa (by simpa using htail)
          | intTok n2 => exact List.Forall₂.cons hwa (by simpa using htail)
          | floatTok raw2 =>
            exact List.Forall₂.cons hwa (by simpa using htail)
          | leaf v2 => exact List.Forall₂.cons hwa (by simpa using htail)
        · rw [if_neg hq]
          exact List.Forall₂.cons hwa (by simpa using htail)

theorem indentGo_forall2 (k : Kind) (ch : List Tok) (hp : Bool) (lvl : Int) :
    List.Forall₂ walkOut ch
      (indentGo k ch ch.length hp 0 lvl Option.none ch).1 := by
  have := indentGo_rel k ch ch.length hp ch 0 lvl Option.none [] trivial
    (fun _ => rfl)
  simpa using this

mutual

theorem indentWalk_deep : ∀ (t : Tok) (hp : Bool) (lvl : Int),
    noCommentDeep t = true → noCommentDeep (indentWalk t hp lvl).1 = true
  | .node k ch, hp, lvl, h => by
    rw [indentWalk_node]
    simp only [noCommentDeep, Bool.and_eq_true] at h ⊢
    exact ⟨h.1, indentList_deep ch _ (indentGo_forall2 k ch hp lvl) h.2⟩
  | .str v, hp, lvl, h => by rw [indentWalk_str]; exact h
  | .none, hp, lvl, h => by rw [indentWalk_noneT]; exact h
  | .intTok n, hp, lvl, h => by
    rw [indentWalk_intTok]; exact h
  | .floatTok raw, hp, lvl, h => by
    rw [indentWalk_floatTok]; exact h
  | .leaf v, hp, lvl, h => by rw [indentWalk_leaf]; exact h

theorem indentList_deep : ∀ (l out : List Tok), List.Forall₂ walkOut l out →
    noCommentDeepList l = true → noCommentDeepList out = true
  | [], out, hrel, h => by cases hrel; exact h
  | c :: rest, out, hrel, h => by
    cases hrel with
    | cons h1 h2 =>
      rename_i b bs
      simp only [noCommentDeepList, Bool.and_eq_true] at h ⊢
      refine ⟨?_, indentList_deep rest bs h2 h.2⟩
      cases h1 with
      | inl hstr =>
        obtain ⟨v, rfl⟩ := hstr
        rfl
      | inr hwalk =>
        obtain ⟨hp, lvl, rfl⟩ := hwalk
        exact indentWalk_deep c hp lvl h.1

end

mutual

theorem indentWalk_placed : ∀ (t : Tok) (hp : Bool) (lvl : Int),
    placed t = true → placed (indentWalk t hp lvl).1 = true
  | .node k ch, hp, lvl, h => by
    rw [indentWalk_node]
    simp only [placed, Bool.and_eq_true] at h ⊢
    refine ⟨?_, indentList_placed ch _ (indentGo_forall2 k ch hp lvl) h.2⟩
    by_cases hk : (k == Kind.code) = true
    · rw [if_pos hk] at h ⊢
      exact forall2_alt ch h.1 _ (indentGo_forall2 k ch hp lvl)
    · rw [if_neg hk] at h ⊢
      exact forall2_noComment ch _ (indentGo_forall2 k ch hp lvl) h.1
  | .str v, hp, lvl, h => by rw [indentWalk_str]; exact h
  | .none, hp, lvl, h => by rw [indentWalk_noneT]; exact h
  | .intTok n, hp, lvl, h => by
    rw [indentWalk_intTok]; exact h
  | .floatTok raw, hp, lvl, h => by
    rw [indentWalk_floatTok]; exact h
  | .leaf v, hp, lvl, h => by rw [indentWalk_leaf]; exact h

theorem indentList_placed : ∀ (l out : List Tok), List.Forall₂ walkOut l out →
    placedList l = true → placedList out = true
  | [], out, hrel, h => by cases hrel; exact h
  | c :: rest, out, hrel, h => by
    cases hrel with
    | cons h1 h2 =>
      rename_i b bs
      simp only [placedList, Bool.and_eq_true] at h ⊢
      refine ⟨?_, indentList_placed rest bs h2 h.2⟩
      cases h1 with
      | inl hstr =>
        obtain ⟨v, rfl⟩ := hstr
        rfl
      | inr hwalk =>
        obtain ⟨hp, lvl, rfl⟩ := hwalk
        exact indentWalk_placed c hp lvl h.1

end

mutual

theorem indentWalk_tidy : ∀ (t : Tok) (hp : Bool) (lvl : Int),
    tidy t = true → tidy (indentWalk t hp lvl).1 = true
  | .node k ch, hp, lvl, h => by
    rw [indentWalk_node]
    by_cases hks : (k == Kind.statementK) = true
    · simp only [tidy, if_pos hks] at h ⊢
      exact indentList_deep ch _ (indentGo_forall2 k ch hp lvl) h
    · simp only [tidy, if_neg hks, Bool.and_eq_true] at h ⊢
      refine ⟨?_, indentList_tidy ch _ (indentGo_forall2 k ch hp lvl) h.2⟩
      by_cases hkc : (k == Kind.code) = true
      · rw [if_pos hkc] at h ⊢
        exact forall2_noLeaf ch _ (indentGo_forall2 k ch hp lvl) h.1
      · rw [if_neg hkc]
  | .str v, hp, lvl, h => by rw [indentWalk_str]; exact h
  | .none, hp, lvl, h => by rw [indentWalk_noneT]; exact h
  | .intTok n, hp, lvl, h => by
    rw [indentWalk_intTok]; exact h
  | .floatTok raw, hp, lvl, h => by
    rw [indentWalk_floatTok]; exact h
  | .leaf v, hp, lvl, h => by rw [indentWalk_leaf]; exact h

theorem indentList_tidy : ∀ (l out : List Tok), List.Forall₂ walkOut l out →
    tidyList l = true → tidyList out = true
  | [], out, hrel, h => by cases hrel; exact h
  | c :: rest, out, hrel, h => by
    cases hrel with
    | cons h1 h2 =>
      rename_i b bs
      simp only [tidyList, Bool.and_eq_true] at h ⊢
      refine ⟨?_, indentList_tidy rest bs h2 h.2⟩
      cases h1 with
      | inl hstr =>
        obtain ⟨v, rfl⟩ := hstr
        rfl
      | inr hwalk =>
        obtain ⟨hp, lvl, rfl⟩ := hwalk
        exact indentWalk_tidy c hp lvl h.1

end

theorem placed_normIndent (t : Tok) (h : placed t = true) :
    placed (normIndent t) = true :=
  indentWalk_placed t false 0 h

theorem tidy_normIndent (t : Tok) (h : tidy t = true) :
    tidy (normIndent t) = true :=
  indentWalk_tidy t false 0 h

/-! ### The indentation pass puts a newline before every comment

In a `Code` list every comment qualifies for the indentation rewrite
(it is a `Construct`, `Code` is not a block, and the element two places
back is never an `elseif` leaf), so its predecessor slot is overwritten
with `rstrip + "\n" + indent` (or, via a child demand, `"\n" + indent`),
both of which contain a newline. -/

theorem getC_of_ge (l : List Tok) (i : Nat) (h : l.length ≤ i) :
    getC l i = .none := by
  have h2 : l[i]? = Option.none := List.getElem?_eq_none h
  simp [getC, List.getD, h2]

theorem drop_cons_getC :
    ∀ (i : Nat) (orig : List Tok) (c : Tok) (rest : List Tok),
      List.drop i orig = c :: rest →
      getC orig i = c ∧ List.drop (i + 1) orig = rest := by
  intro i
  induction i with
  | zero =>
    intro orig c rest h
    simp only [List.drop_zero] at h
    subst h
    exact ⟨rfl, by simp⟩
  | succ m ih =>
    intro orig c rest h
    cases orig with
    | nil => simp at h
    | cons o os =>
      simp only [List.drop_succ_cons] at h
      obtain ⟨h1, h2⟩ := ih os c rest h
      constructor
      · simpa [getC, List.getD_cons_succ] using h1
      · simpa [List.drop_succ_cons] using h2

theorem lt_of_drop_cons (i : Nat) (orig : List Tok) (c : Tok)
    (rest : List Tok) (h : List.drop i orig = c :: rest) :
    i < orig.length := by
  by_contra hge
  push_neg at hge
  rw [List.drop_eq_nil_of_le hge] at h
  cases h

theorem altShape_oddStr :
    ∀ (l : List Tok), altShape l = true → ∀ (i : Nat), i % 2 = 1 →
      i < l.length → ∃ p, getC l i = Tok.str p := by
  intro l
  induction l using altShape.induct with
  | case1 =>
    intro _ i _ hlen
    simp at hlen
  | case2 b =>
    intro _ i hodd hlen
    simp only [List.length_singleton] at hlen
    omega
  | case3 b v c rest ih =>
    intro h i hodd hlen
    have h' : altShape (c :: rest) = true := h
    cases i with
    | zero => omega
    | succ m =>
      cases m with
      | zero => exact ⟨v, rfl⟩
      | succ m2 =>
        have hodd2 : m2 % 2 = 1 := by omega
        have hlen2 : m2 < (c :: rest).length := by
          simp only [List.length_cons] at hlen ⊢
          omega
        obtain ⟨p, hp⟩ := ih h' m2 hodd2 hlen2
        refine ⟨p, ?_⟩
        simpa [getC, List.getD_cons_succ] using hp
  | case4 l h1 h2 h3 =>
    intro hp
    simp [altShape] at hp

theorem countNl_cons_nl (w : List Char) : 1 ≤ countNl ('\n' :: w) := by
  simp only [countNl, List.countP_cons]
  simp

theorem countNl_append (a b : List Char) :
    countNl (a ++ b) = countNl a + countNl b := by
  simp [countNl, List.countP_append]

theorem countNl_of_endsWithNl :
    ∀ (v : List Char), endsWithNl v = true → 1 ≤ countNl v := by
  intro v
  induction v with
  | nil => intro h; simp [endsWithNl] at h
  | cons a rest ih =>
    intro h
    cases rest with
    | nil =>
      simp only [endsWithNl, List.getLast?_singleton] at h
      have ha : a = '\n' := by simpa using h
      subst ha
      exact countNl_cons_nl []
    | cons b rest2 =>
      have h2 : endsWithNl (b :: rest2) = true := by
        simpa [endsWithNl, List.getLast?_cons_cons] using h
      have := ih h2
      simp only [countNl, List.countP_cons] at this ⊢
      omega

theorem indentRewrite_nl (p : List Char) (yl : Int) :
    1 ≤ countNl (indentRewrite p yl) := by
  simp only [indentRewrite]
  by_cases he : endsWithNl (rstripSpaces p) = true
  · rw [if_pos he, countNl_append]
    have := countNl_of_endsWithNl (rstripSpaces p) he
    omega
  · rw [if_neg he, countNl_append, countNl_append]
    have h1 : countNl ['\n'] = 1 := rfl
    omega

theorem indentGo_snd_form (k : Kind) (orig : List Tok) (n : Nat)
    (hasPred : Bool) :
    ∀ (l : List Tok) (i : Nat) (lvl : Int) (prev : Option Tok)
      (v : List Char),
      (indentGo k orig n hasPred i lvl prev l).2 = some v →
      ∃ yl, v = '\n' :: indentOf yl := by
  intro l
  induction l with
  | nil =>
    intro i lvl prev v h
    rw [indentGo_nil] at h
    cases h
  | cons c rest ih =>
    intro i lvl prev v h
    rw [indentGo_cons] at h
    cases hr : (indentGo k orig n hasPred (i + 1) (stepLevel k n i lvl c).2
        (some (indentWalk c (predOk2 orig i)
          (stepLevel k n i lvl c).1).1) rest).2 with
    | some d =>
      rw [hr] at h
      have h3 : some d = some v := h
      simp only [Option.some.injEq] at h3
      rw [← h3]
      exact ih (i + 1) (stepLevel k n i lvl c).2 _ d hr
    | none =>
      rw [hr] at h
      have h3 : (if (indentQualifies k orig i c && !predOk2 orig i
            && hasPred) = true
          then some ('\n' :: indentOf (stepLevel k n i lvl c).1)
          else Option.none) = some v := h
      split at h3
      · simp only [Option.some.injEq] at h3
        exact ⟨(stepLevel k n i lvl c).1, h3.symm⟩
      · exact absurd h3 (by simp)

theorem indentWalk_snd_form (c : Tok) (hp : Bool) (lvl : Int) (v : List Char)
    (h : (indentWalk c hp lvl).2 = some v) :
    ∃ yl, v = '\n' :: indentOf yl := by
  cases c with
  | node k ch =>
    rw [indentWalk_node] at h
    exact indentGo_snd_form k ch ch.length hp ch 0 lvl Option.none v h
  | str w => rw [indentWalk_str] at h; cases h
  | none => rw [indentWalk_noneT] at h; cases h
  | intTok n => rw [indentWalk_intTok] at h; cases h
  | floatTok raw => rw [indentWalk_floatTok] at h; cases h
  | leaf w => rw [indentWalk_leaf] at h; cases h

theorem indentWalk_commEq (c : Tok) (hp : Bool) (lvl : Int) :
    isCommentTok (indentWalk c hp lvl).1 = isCommentTok c := by
  cases c with
  | node k ch => rw [indentWalk_node]; rfl
  | str v => rw [indentWalk_str]
  | none => rw [indentWalk_noneT]
  | intTok n => rw [indentWalk_intTok]
  | floatTok raw => rw [indentWalk_floatTok]
  | leaf v => rw [indentWalk_leaf]

theorem comment_predStr (orig : List Tok) (halt : altShape orig = true)
    (i : Nat) (hi : 1 ≤ i) (hlen : i < orig.length) (c : Tok)
    (hgi : getC orig i = c) (hc : isCommentTok c = true) :
    2 ≤ i ∧ ∃ p, getC orig (i - 1) = Tok.str p := by
  have hieven : i % 2 = 0 := by
    by_contra hodd
    have h1 : i % 2 = 1 := by omega
    obtain ⟨p, hp⟩ := altShape_oddStr orig halt i h1 hlen
    rw [hgi] at hp
    subst hp
    simp [isCommentTok] at hc
  have h2 : 2 ≤ i := by omega
  have hodd : (i - 1) % 2 = 1 := by omega
  have hlt : i - 1 < orig.length := by omega
  exact ⟨h2, altShape_oddStr orig halt (i - 1) hodd hlt⟩

theorem comment_qualifies (orig : List Tok) (halt : altShape orig = true)
    (hnl : noLeafChild orig = true) (i : Nat) (hi : 1 ≤ i)
    (hlen : i < orig.length) (c : Tok) (hgi : getC orig i = c)
    (hc : isCommentTok c = true) :
    (indentQualifies Kind.code orig i c && predOk2 orig i) = true := by
  obtain ⟨h2, p, hp⟩ := comment_predStr orig halt i hi hlen c hgi hc
  have hpo : predOk2 orig i = true := by
    simp only [predOk2, hp, tokIsNone]
    simp [h2]
  have htrig : isConstructTok c = true := by
    cases c with
    | node k0 cch =>
      have hk0 : k0 = Kind.commentK := by simpa [isCommentTok] using hc
      subst hk0
      rfl
    | str v => simp [isCommentTok] at hc
    | none => simp [isCommentTok] at hc
    | intTok n => simp [isCommentTok] at hc
    | floatTok raw => simp [isCommentTok] at hc
    | leaf v => simp [isCommentTok] at hc
  have hbk : blockKinds.contains Kind.code = false := by decide
  have hq : indentQualifies Kind.code orig i c = true := by
    simp only [indentQualifies]
    cases hg2 : getC orig (i - 2) with
    | leaf v =>
      have hnlf := noLeafChild_getC orig (i - 2) hnl
      rw [hg2] at hnlf
      simp [isLeafTok] at hnlf
    | node k2 ch2 =>
      simp [htrig]
      exact Or.inl (Or.inl (by decide))
    | str v =>
      simp [htrig]
      exact Or.inl (Or.inl (by decide))
    | none =>
      simp [htrig]
      exact Or.inl (Or.inl (by decide))
    | intTok n2 =>
      simp [htrig]
      exact Or.inl (Or.inl (by decide))
    | floatTok raw2 =>
      simp [htrig]
      exact Or.inl (Or.inl (by decide))
  simp [hq, hpo]

theorem indentGo_slots_code (orig : List Tok) (halt : altShape orig = true)
    (hnl : noLeafChild orig = true) (hasPred : Bool) :
    ∀ (l : List Tok) (i : Nat) (lvl : Int) (prev seed : Option Tok),
      List.drop i orig = l →
      (prev = Option.none → i = 0 ∧ seed = Option.none) →
      (∀ pv, prev = some pv → 1 ≤ i) →
      (∀ pv, prev = some pv → isCommentTok pv = true →
        (match seed with
         | some (Tok.str p) => 1 ≤ countNl p
         | _ => True)) →
      slotGo 1 seed
        (indentGo Kind.code orig orig.length hasPred i lvl prev l).1
        = true := by
  intro l
  induction l with
  | nil =>
    intro i lvl prev seed hdrop hz hs1 hseed
    rw [indentGo_nil]
    cases prev with
    | none => rfl
    | some pv =>
      show slotGo 1 seed [pv] = true
      simp only [slotGo, Bool.and_eq_true]
      refine ⟨?_, trivial⟩
      by_cases hcp : isCommentTok pv = true
      · rw [if_pos hcp]
        have hm := hseed pv rfl hcp
        cases seed with
        | none => rfl
        | some t =>
          cases t with
          | str p => exact decide_eq_true hm
          | node k2 ch2 => rfl
          | none => rfl
          | intTok n2 => rfl
          | floatTok raw2 => rfl
          | leaf v2 => rfl
      · rw [if_neg hcp]
  | cons c rest ih =>
    intro i lvl prev seed hdrop hz hs1 hseed
    obtain ⟨hgi, hdrop2⟩ := drop_cons_getC i orig c rest hdrop
    have hilen : i < orig.length := lt_of_drop_cons i orig c rest hdrop
    rw [indentGo_cons]
    cases prev with
    | none =>
      obtain ⟨hi0, hseed0⟩ := hz rfl
      subst hi0
      subst hseed0
      have hnone : prev2Of Kind.code orig 0
          (stepLevel Kind.code orig.length 0 lvl c).1 Option.none c
          = Option.none := by
        have hp0 : predOk2 orig 0 = false := rfl
        simp [prev2Of, hp0, indentWalk_snd_false]
      rw [hnone]
      exact ih 1 (stepLevel Kind.code orig.length 0 lvl c).2
        (some (indentWalk c (predOk2 orig 0)
          (stepLevel Kind.code orig.length 0 lvl c).1).1) Option.none
        hdrop2 (fun h => nomatch h) (fun _ _ => le_refl 1)
        (fun _ _ _ => trivial)
    | some pv =>
      have hi1 : 1 ≤ i := hs1 pv rfl
      cases hpv2 : prev2Of Kind.code orig i
          (stepLevel Kind.code orig.length i lvl c).1 (some pv) c with
      | none =>
        exfalso
        simp only [prev2Of] at hpv2
        cases hw : (indentWalk c (predOk2 orig i)
            (stepLevel Kind.code orig.length i lvl c).1).2 with
        | some v => rw [hw] at hpv2; cases hpv2
        | none =>
          rw [hw] at hpv2
          by_cases hq : (indentQualifies Kind.code orig i c
              && predOk2 orig i) = true
          · rw [if_pos hq] at hpv2
            cases hg : getC orig (i - 1) with
            | str p0 => rw [hg] at hpv2; cases hpv2
            | node k2 ch2 => rw [hg] at hpv2; cases hpv2
            | none => rw [hg] at hpv2; cases hpv2
            | intTok n2 => rw [hg] at hpv2; cases hpv2
            | floatTok raw2 => rw [hg] at hpv2; cases hpv2
            | leaf v2 => rw [hg] at hpv2; cases hpv2
          · rw [if_neg hq] at hpv2
            cases hpv2
      | some e =>
        have hE : (∃ v, e = Tok.str v ∧ 1 ≤ countNl v) ∨
            (e = pv ∧ isCommentTok c = false) := by
          simp only [prev2Of] at hpv2
          cases hw : (indentWalk c (predOk2 orig i)
              (stepLevel Kind.code orig.length i lvl c).1).2 with
          | some v =>
            rw [hw] at hpv2
            simp only [Option.some.injEq] at hpv2
            obtain ⟨yl, hv⟩ := indentWalk_snd_form c _ _ v hw
            refine Or.inl ⟨v, hpv2.symm, ?_⟩
            rw [hv]
            exact countNl_cons_nl _
          | none =>
            rw [hw] at hpv2
            by_cases hcc : isCommentTok c = true
            · have hqq := comment_qualifies orig halt hnl i hi1 hilen c
                hgi hcc
              rw [if_pos hqq] at hpv2
              obtain ⟨h2i, p, hp⟩ := comment_predStr orig halt i hi1 hilen c
                hgi hcc
              rw [hp] at hpv2
              simp only [Option.some.injEq] at hpv2
              exact Or.inl ⟨_, hpv2.symm, indentRewrite_nl p _⟩
            · have hccF : isCommentTok c = false := by simpa using hcc
              by_cases hq : (indentQualifies Kind.code orig i c
                  && predOk2 orig i) = true
              · rw [if_pos hq] at hpv2
                cases hg : getC orig (i - 1) with
                | str p0 =>
                  rw [hg] at hpv2
                  simp only [Option.some.injEq] at hpv2
                  exact Or.inl ⟨_, hpv2.symm, indentRewrite_nl p0 _⟩
                | node k2 ch2 =>
                  rw [hg] at hpv2
                  simp only [Option.some.injEq] at hpv2
                  exact Or.inr ⟨hpv2.symm, hccF⟩
                | none =>
                  rw [hg] at hpv2
                  simp only [Option.some.injEq] at hpv2
                  exact Or.inr ⟨hpv2.symm, hccF⟩
                | intTok n2 =>
                  rw [hg] at hpv2
                  simp only [Option.some.injEq] at hpv2
                  exact Or.inr ⟨hpv2.symm, hccF⟩
                | floatTok raw2 =>
                  rw [hg] at hpv2
                  simp only [Option.some.injEq] at hpv2
                  exact Or.inr ⟨hpv2.symm, hccF⟩
                | leaf v2 =>
                  rw [hg] at hpv2
                  simp only [Option.some.injEq] at hpv2
                  exact Or.inr ⟨hpv2.symm, hccF⟩
              · rw [if_neg hq] at hpv2
                simp only [Option.some.injEq] at hpv2
                exact Or.inr ⟨hpv2.symm, hccF⟩
        have htail : slotGo 1 (some e)
            (indentGo Kind.code orig orig.length hasPred (i + 1)
              (stepLevel Kind.code orig.length i lvl c).2
              (some (indentWalk c (predOk2 orig i)
                (stepLevel Kind.code orig.length i lvl c).1).1) rest).1
            = true := by
          refine ih (i + 1) (stepLevel Kind.code orig.length i lvl c).2
            (some (indentWalk c (predOk2 orig i)
              (stepLevel Kind.code orig.length i lvl c).1).1) (some e)
            hdrop2 (fun h => nomatch h) (fun _ _ => by omega) ?_
          intro pv' hpv' hcp'
          have hpw : pv' = (indentWalk c (predOk2 orig i)
              (stepLevel Kind.code orig.length i lvl c).1).1 := by
            injection hpv' with hh
            exact hh.symm
          rw [hpw, indentWalk_commEq] at hcp'
          cases hE with
          | inl hEs =>
            obtain ⟨v, he, hcnt⟩ := hEs
            subst he
            exact hcnt
          | inr hEp =>
            rw [hEp.2] at hcp'
            cases hcp'
        show slotGo 1 seed (e ::
          (indentGo Kind.code orig orig.length hasPred (i + 1)
            (stepLevel Kind.code orig.length i lvl c).2
            (some (indentWalk c (predOk2 orig i)
              (stepLevel Kind.code orig.length i lvl c).1).1) rest).1)
          = true
        simp only [slotGo, Bool.and_eq_true]
        refine ⟨?_, htail⟩
        cases hE with
        | inl hEs =>
          obtain ⟨v, he, hcnt⟩ := hEs
          subst he
          rw [if_neg (by simp [isCommentTok])]
        | inr hEp =>
          rw [hEp.1]
          by_cases hcp : isCommentTok pv = true
          · rw [if_pos hcp]
            have hm := hseed pv rfl hcp
            cases seed with
            | none => rfl
            | some t =>
              cases t with
              | str p => exact decide_eq_true hm
              | node k2 ch2 => rfl
              | none => rfl
              | intTok n2 => rfl
              | floatTok raw2 => rfl
              | leaf v2 => rfl
          · rw [if_neg hcp]

mutual

theorem indentWalk_slots : ∀ (t : Tok) (hp : Bool) (lvl : Int),
    placed t = true → tidy t = true →
    slotsNl (indentWalk t hp lvl).1 = true
  | .node k ch, hp, lvl, hpl, htd => by
    by_cases hks : (k == Kind.statementK) = true
    · refine slotsNl_of_deep _ (indentWalk_deep _ hp lvl ?_)
      simp only [tidy, if_pos hks] at htd
      have hkk : k = Kind.statementK := by simpa using hks
      subst hkk
      simp only [noCommentDeep, Bool.and_eq_true]
      exact ⟨rfl, htd⟩
    · rw [indentWalk_node]
      simp only [placed, Bool.and_eq_true] at hpl
      simp only [tidy, if_neg hks, Bool.and_eq_true] at htd
      simp only [slotsNl, Bool.and_eq_true]
      refine ⟨?_, indentList_slots ch _ (indentGo_forall2 k ch hp lvl)
        hpl.2 htd.2⟩
      by_cases hkc : (k == Kind.code) = true
      · rw [if_pos hkc] at hpl htd
        have hkk : k = Kind.code := by simpa using hkc
        subst hkk
        exact indentGo_slots_code ch hpl.1 htd.1 hp ch 0 lvl Option.none
          Option.none (by simp) (fun _ => ⟨rfl, rfl⟩)
          (fun _ h => nomatch h) (fun _ h => nomatch h)
      · rw [if_neg hkc] at hpl
        exact slotGo_of_noComment 1 _ Option.none
          (forall2_noComment ch _ (indentGo_forall2 k ch hp lvl) hpl.1)
  | .str v, hp, lvl, _, _ => by rw [indentWalk_str]; rfl
  | .none, hp, lvl, _, _ => by rw [indentWalk_noneT]; rfl
  | .intTok n, hp, lvl, _, _ => by rw [indentWalk_intTok]; rfl
  | .floatTok raw, hp, lvl, _, _ => by rw [indentWalk_floatTok]; rfl
  | .leaf v, hp, lvl, _, _ => by rw [indentWalk_leaf]; rfl

theorem indentList_slots : ∀ (l out : List Tok),
    List.Forall₂ walkOut l out → placedList l = true → tidyList l = true →
    slotsNlList out = true
  | [], out, hrel, _, _ => by cases hrel; rfl
  | c :: rest, out, hrel, hpl, htd => by
    cases hrel with
    | cons h1 h2 =>
      rename_i b bs
      simp only [placedList, Bool.and_eq_true] at hpl
      simp only [tidyList, Bool.and_eq_true] at htd
      simp only [slotsNlList, Bool.and_eq_true]
      refine ⟨?_, indentList_slots rest bs h2 hpl.2 htd.2⟩
      cases h1 with
      | inl hstr =>
        obtain ⟨v, rfl⟩ := hstr
        rfl
      | inr hwalk =>
        obtain ⟨hp, lvl, rfl⟩ := hwalk
        exact indentWalk_slots c hp lvl hpl.1 htd.1

end

theorem slots_normIndent (t : Tok) (hp : placed t = true)
    (ht : tidy t = true) : slotsNl (normIndent t) = true :=
  indentWalk_slots t false 0 hp ht

/-! ### Passes 10 and 11: the root-slot rewrites

Both passes overwrite one string slot of the file node itself; the file
kind is neither `Code` nor `Statement`, so all three invariants are
preserved by the corresponding `set` lemmas. -/

theorem rootSet_placed (k : Kind) (ch : List Tok) (i : Nat) (v : List Char)
    (hkc : (k == Kind.code) = false)
    (hp : placed (.node k ch) = true) :
    placed (.node k (setC ch i (.str v))) = true := by
  simp only [placed, hkc, Bool.and_eq_true, if_false] at hp ⊢
  exact ⟨noCommentChild_set ch i _ hp.1 rfl,
    placedList_set ch i _ hp.2 rfl⟩

theorem rootSet_tidy (k : Kind) (ch : List Tok) (i : Nat) (v : List Char)
    (hkc : (k == Kind.code) = false) (hks : (k == Kind.statementK) = false)
    (ht : tidy (.node k ch) = true) :
    tidy (.node k (setC ch i (.str v))) = true := by
  simp only [tidy, hkc, hks, Bool.and_eq_true, if_false, Bool.true_and]
    at ht ⊢
  exact tidyList_set ch i _ ht rfl

theorem rootSet_slots (k : Kind) (ch : List Tok) (i : Nat) (v : List Char)
    (hkc : (k == Kind.code) = false)
    (hp : placed (.node k ch) = true)
    (hs : slotsNl (.node k ch) = true) :
    slotsNl (.node k (setC ch i (.str v))) = true := by
  simp only [placed, hkc, Bool.and_eq_true, if_false] at hp
  simp only [slotsNl, Bool.and_eq_true] at hs ⊢
  exact ⟨slotGo_of_noComment 1 _ Option.none
    (noCommentChild_set ch i _ hp.1 rfl),
    slotsNlList_set ch i _ hs.2 rfl⟩

theorem normLeading_props (k : Kind) (ch : List Tok)
    (hkc : (k == Kind.code) = false) (hks : (k == Kind.statementK) = false)
    (hp : placed (.node k ch) = true) (ht : tidy (.node k ch) = true)
    (hs : slotsNl (.node k ch) = true) :
    placed (normLeading (.node k ch)) = true ∧
      tidy (normLeading (.node k ch)) = true ∧
      slotsNl (normLeading (.node k ch)) = true := by
  simp only [normLeading]
  exact ⟨rootSet_placed k ch 0 [] hkc hp, rootSet_tidy k ch 0 [] hkc hks ht,
    rootSet_slots k ch 0 [] hkc hp hs⟩

theorem normTrailing_props (k : Kind) (ch : List Tok)
    (hkc : (k == Kind.code) = false) (hks : (k == Kind.statementK) = false)
    (hp : placed (.node k ch) = true) (ht : tidy (.node k ch) = true)
    (hs : slotsNl (.node k ch) = true) :
    placed (normTrailing (.node k ch)) = true ∧
      tidy (normTrailing (.node k ch)) = true ∧
      slotsNl (normTrailing (.node k ch)) = true := by
  simp only [normTrailing]
  exact ⟨rootSet_placed k ch 2 ['\n'] hkc hp,
    rootSet_tidy k ch 2 ['\n'] hkc hks ht,
    rootSet_slots k ch 2 ['\n'] hkc hp hs⟩

/-! ### Pass 12 establishes the two-newline property

`ensure_empty_line_before_comment` prepends one newline to the slot
before a comment when it holds fewer than two; after the indentation
pass that slot already holds at least one, so afterwards every comment
that does not directly follow another comment sits behind at least two
newlines. -/

theorem epl_node (k : Kind) (ch : List Tok) :
    ensureEmptyLineBeforeComment (.node k ch) = .node k (commentGo ch 0 ch)
    := by
  simp only [ensureEmptyLineBeforeComment]

theorem epl_nonNode : ∀ (t : Tok), nonNode t →
    ensureEmptyLineBeforeComment t = t
  | .str v, _ => by simp only [ensureEmptyLineBeforeComment]
  | .none, _ => by simp only [ensureEmptyLineBeforeComment]
  | .intTok n, _ => by simp only [ensureEmptyLineBeforeComment]
  | .floatTok raw, _ => by simp only [ensureEmptyLineBeforeComment]
  | .leaf v, _ => by simp only [ensureEmptyLineBeforeComment]
  | .node k ch, h => h.elim

theorem epl_comment (t : Tok) :
    isCommentTok (ensureEmptyLineBeforeComment t) = isCommentTok t := by
  cases t with
  | node k ch => rw [epl_node]; rfl
  | str v => rw [epl_nonNode (.str v) True.intro]
  | none => rw [epl_nonNode .none True.intro]
  | intTok n => rw [epl_nonNode (.intTok n) True.intro]
  | floatTok raw => rw [epl_nonNode (.floatTok raw) True.intro]
  | leaf v => rw [epl_nonNode (.leaf v) True.intro]

theorem epl_leafEq (t : Tok) :
    isLeafTok (ensureEmptyLineBeforeComment t) = isLeafTok t := by
  cases t with
  | node k ch => rw [epl_node]; rfl
  | str v => rw [epl_nonNode (.str v) True.intro]
  | none => rw [epl_nonNode .none True.intro]
  | intTok n => rw [epl_nonNode (.intTok n) True.intro]
  | floatTok raw => rw [epl_nonNode (.floatTok raw) True.intro]
  | leaf v => rw [epl_nonNode (.leaf v) True.intro]

/-- An output slot of the comment-spacing pass: either the prepended
newline over the original string slot, or the recursive transform. -/
def cgOut (a b : Tok) : Prop :=
  (∃ p, a = Tok.str p ∧ b = Tok.str ('\n' :: p)) ∨
    b = ensureEmptyLineBeforeComment a

theorem cgOut_comment (a b : Tok) (h : cgOut a b) :
    isCommentTok b = isCommentTok a := by
  cases h with
  | inl h1 =>
    obtain ⟨p, rfl, rfl⟩ := h1
    rfl
  | inr h2 =>
    rw [h2]
    exact epl_comment a

theorem cgOut_leaf (a b : Tok) (h : cgOut a b) :
    isLeafTok b = isLeafTok a := by
  cases h with
  | inl h1 =>
    obtain ⟨p, rfl, rfl⟩ := h1
    rfl
  | inr h2 =>
    rw [h2]
    exact epl_leafEq a

theorem cgOut_str (a b : Tok) (h : cgOut a b) (v : List Char)
    (ha : a = .str v) : ∃ w, b = Tok.str w := by
  cases h with
  | inl h1 =>
    obtain ⟨p, rfl, rfl⟩ := h1
    exact ⟨_, rfl⟩
  | inr h2 =>
    subst ha
    rw [h2, epl_nonNode (.str v) True.intro]
    exact ⟨v, rfl⟩

theorem commentGo_rel (orig : List Tok) :
    ∀ (l : List Tok) (j : Nat), List.drop j orig = l →
      List.Forall₂ cgOut l (commentGo orig j l) := by
  intro l
  induction l with
  | nil =>
    intro j _
    simp only [commentGo]
    exact List.Forall₂.nil
  | cons c rest ih =>
    intro j hdrop
    obtain ⟨hgj, hdrop2⟩ := drop_cons_getC j orig c rest hdrop
    simp only [commentGo]
    refine List.Forall₂.cons ?_ (ih (j + 1) hdrop2)
    by_cases htr : commentTriggerAt orig j = true
    · rw [if_pos htr]
      cases hg : getC orig j with
      | str p =>
        refine Or.inl ⟨p, ?_, rfl⟩
        rw [← hgj, hg]
      | node k2 ch2 => exact Or.inr rfl
      | none => exact Or.inr rfl
      | intTok n2 => exact Or.inr rfl
      | floatTok raw2 => exact Or.inr rfl
      | leaf v2 => exact Or.inr rfl
    · rw [if_neg htr]
      exact Or.inr rfl

theorem forall2R_noComment (R : Tok → Tok → Prop)
    (hR : ∀ a b, R a b → isCommentTok a = false → isCommentTok b = false) :
    ∀ (as bs : List Tok), List.Forall₂ R as bs →
      noCommentChild as = true → noCommentChild bs = true := by
  intro as bs hrel
  induction hrel with
  | nil => intro h; exact h
  | cons h1 h2 ih =>
    rename_i a b as' bs'
    intro h
    simp only [noCommentChild, Bool.and_eq_true] at h ⊢
    refine ⟨?_, ih h.2⟩
    rw [hR a b h1 (by simpa using h.1)]
    rfl

theorem forall2R_noLeaf (R : Tok → Tok → Prop)
    (hR : ∀ a b, R a b → isLeafTok a = false → isLeafTok b = false) :
    ∀ (as bs : List Tok), List.Forall₂ R as bs →
      noLeafChild as = true → noLeafChild bs = true := by
  intro as bs hrel
  induction hrel with
  | nil => intro h; exact h
  | cons h1 h2 ih =>
    rename_i a b as' bs'
    intro h
    simp only [noLeafChild, Bool.and_eq_true] at h ⊢
    refine ⟨?_, ih h.2⟩
    rw [hR a b h1 (by simpa using h.1)]
    rfl

mutual

theorem epl_deep : ∀ (t : Tok), noCommentDeep t = true →
    noCommentDeep (ensureEmptyLineBeforeComment t) = true
  | .node k ch, h => by
    rw [epl_node]
    simp only [noCommentDeep, Bool.and_eq_true] at h ⊢
    exact ⟨h.1, epl_deepList ch _ (commentGo_rel ch ch 0 (by simp)) h.2⟩
  | .str v, h => by rw [epl_nonNode (.str v) True.intro]; exact h
  | .none, h => by rw [epl_nonNode .none True.intro]; exact h
  | .intTok n, h => by rw [epl_nonNode (.intTok n) True.intro]; exact h
  | .floatTok raw, h => by
    rw [epl_nonNode (.floatTok raw) True.intro]; exact h
  | .leaf v, h => by rw [epl_nonNode (.leaf v) True.intro]; exact h

theorem epl_deepList : ∀ (l out : List Tok), List.Forall₂ cgOut l out →
    noCommentDeepList l = true → noCommentDeepList out = true
  | [], out, hrel, h => by cases hrel; exact h
  | c :: rest, out, hrel, h => by
    cases hrel with
    | cons h1 h2 =>
      rename_i b bs
      simp only [noCommentDeepList, Bool.and_eq_true] at h ⊢
      refine ⟨?_, epl_deepList rest bs h2 h.2⟩
      cases h1 with
      | inl hstr =>
        obtain ⟨p, hpa, rfl⟩ := hstr
        rfl
      | inr hb =>
        rw [hb]
        exact epl_deep c h.1

end

mutual

theorem epl_tidy : ∀ (t : Tok), tidy t = true →
    tidy (ensureEmptyLineBeforeComment t) = true
  | .node k ch, h => by
    rw [epl_node]
    by_cases hks : (k == Kind.statementK) = true
    · simp only [tidy, if_pos hks] at h ⊢
      exact epl_deepList ch _ (commentGo_rel ch ch 0 (by simp)) h
    · simp only [tidy, if_neg hks, Bool.and_eq_true] at h ⊢
      refine ⟨?_, epl_tidyList ch _ (commentGo_rel ch ch 0 (by simp)) h.2⟩
      by_cases hkc : (k == Kind.code) = true
      · rw [if_pos hkc] at h ⊢
        exact forall2R_noLeaf cgOut
          (fun a b hab ha => by rw [cgOut_leaf a b hab]; exact ha)
          ch _ (commentGo_rel ch ch 0 (by simp)) h.1
      · rw [if_neg hkc]
  | .str v, h => by rw [epl_nonNode (.str v) True.intro]; exact h
  | .none, h => by rw [epl_nonNode .none True.intro]; exact h
  | .intTok n, h => by rw [epl_nonNode (.intTok n) True.intro]; exact h
  | .floatTok raw, h => by
    rw [epl_nonNode (.floatTok raw) True.intro]; exact h
  | .leaf v, h => by rw [epl_nonNode (.leaf v) True.intro]; exact h

theorem epl_tidyList : ∀ (l out : List Tok), List.Forall₂ cgOut l out →
    tidyList l = true → tidyList out = true
  | [], out, hrel, h => by cases hrel; exact h
  | c :: rest, out, hrel, h => by
    cases hrel with
    | cons h1 h2 =>
      rename_i b bs
      simp only [tidyList, Bool.and_eq_true] at h ⊢
      refine ⟨?_, epl_tidyList rest bs h2 h.2⟩
      cases h1 with
      | inl hstr =>
        obtain ⟨p, hpa, rfl⟩ := hstr
        rfl
      | inr hb =>
        rw [hb]
        exact epl_tidy c h.1

end

theorem commentGo_spaced (orig : List Tok) (halt : altShape orig = true) :
    ∀ (l : List Tok) (j : Nat) (sprev pp pv : Option Tok),
      List.drop j orig = l →
      slotGo 1 sprev l = true →
      ((match pv with
        | some t => isCommentTok t
        | Option.none => false)
        = (if 1 ≤ j then isCommentTok (getC orig (j - 1)) else false)) →
      (isCommentTok (getC orig j) = true →
        (match pp with
         | some t2 => isCommentTok t2
         | Option.none => false) = false →
        (match pv with
         | some (Tok.str p) => 2 ≤ countNl p
         | _ => True)) →
      spacedGo pp pv (commentGo orig j l) = true := by
  intro l
  induction l with
  | nil =>
    intro j sprev pp pv _ _ _ _
    simp only [commentGo]
    rfl
  | cons c rest ih =>
    intro j sprev pp pv hdrop hs hpc hpv
    obtain ⟨hgj, hdrop2⟩ := drop_cons_getC j orig c rest hdrop
    have hjlen : j < orig.length := lt_of_drop_cons j orig c rest hdrop
    have hstail : slotGo 1 (some c) rest = true := by
      have hsx := hs
      simp only [slotGo, Bool.and_eq_true] at hsx
      exact hsx.2
    simp only [commentGo]
    by_cases htr : commentTriggerAt orig j = true
    · have htr' := htr
      simp only [commentTriggerAt, Bool.and_eq_true] at htr'
      obtain ⟨⟨⟨hc1, hj1⟩, hnn⟩, h4⟩ := htr'
      rw [if_pos htr]
      cases hg : getC orig j with
      | str p =>
        have hc : c = Tok.str p := by rw [← hgj, hg]
        rw [hg] at h4
        show spacedGo pp pv
          (Tok.str ('\n' :: p) :: commentGo orig (j + 1) rest) = true
        have hcnt1 : 1 ≤ countNl p := by
          cases hrest : rest with
          | nil =>
            exfalso
            rw [hrest] at hdrop2
            have hlen0 := congrArg List.length hdrop2
            simp only [List.length_drop, List.length_nil] at hlen0
            have hge : orig.length ≤ j + 1 := by omega
            rw [getC_of_ge orig (j + 1) hge] at hc1
            simp [isCommentTok] at hc1
          | cons r0 rest2 =>
            have hdrop3 := hdrop2
            rw [hrest] at hdrop3
            obtain ⟨hgr0, -⟩ := drop_cons_getC (j + 1) orig r0 rest2 hdrop3
            have hsx := hstail
            rw [hrest] at hsx
            simp only [slotGo, Bool.and_eq_true] at hsx
            have hr0c : isCommentTok r0 = true := by rw [← hgr0]; exact hc1
            have hB := hsx.1
            rw [if_pos hr0c, hc] at hB
            have hB2 : decide (1 ≤ countNl p) = true := hB
            exact of_decide_eq_true hB2
        have h2c : 2 ≤ countNl ('\n' :: p) := by
          have hstep : countNl ('\n' :: p) = countNl p + 1 := by
            simp [countNl, List.countP_cons]
          omega
        simp only [spacedGo, Bool.and_eq_true]
        constructor
        · rw [if_neg (by simp [isCommentTok])]
        · refine ih (j + 1) (some c) pv (some (Tok.str ('\n' :: p)))
            hdrop2 hstail ?_ ?_
          · simp [hg, isCommentTok]
          · intro _ _
            exact h2c
      | node k2 ch2 => rw [hg] at h4; simp at h4
      | none => rw [hg] at h4; simp at h4
      | intTok n2 => rw [hg] at h4; simp at h4
      | floatTok raw2 => rw [hg] at h4; simp at h4
      | leaf v2 => rw [hg] at h4; simp at h4
    · rw [if_neg htr]
      simp only [spacedGo, Bool.and_eq_true]
      constructor
      · cases pp with
        | none =>
          by_cases hce : isCommentTok (ensureEmptyLineBeforeComment c) = true
          · have hcc : isCommentTok c = true := by
              rw [epl_comment] at hce
              exact hce
            have hm := hpv (by rw [hgj]; exact hcc) rfl
            rw [if_pos (by simp [hce])]
            cases pv with
            | none => rfl
            | some t =>
              cases t with
              | str p => exact decide_eq_true hm
              | node k2 ch2 => rfl
              | none => rfl
              | intTok n2 => rfl
              | floatTok raw2 => rfl
              | leaf v2 => rfl
          · have hceF : isCommentTok (ensureEmptyLineBeforeComment c)
                = false := by simpa using hce
            rw [if_neg (by simp [hceF])]
        | some t2 =>
          by_cases hppc : isCommentTok t2 = true
          · rw [if_neg (by simp [hppc])]
          · have hppcF : isCommentTok t2 = false := by simpa using hppc
            by_cases hce : isCommentTok (ensureEmptyLineBeforeComment c)
                = true
            · have hcc : isCommentTok c = true := by
                rw [epl_comment] at hce
                exact hce
              have hm := hpv (by rw [hgj]; exact hcc) hppcF
              rw [if_pos (by simp [hce, hppcF])]
              cases pv with
              | none => rfl
              | some t =>
                cases t with
                | str p => exact decide_eq_true hm
                | node k2 ch2 => rfl
                | none => rfl
                | intTok n2 => rfl
                | floatTok raw2 => rfl
                | leaf v2 => rfl
            · have hceF : isCommentTok (ensureEmptyLineBeforeComment c)
                  = false := by simpa using hce
              rw [if_neg (by simp [hceF])]
      · refine ih (j + 1) (some c) pv
          (some (ensureEmptyLineBeforeComment c)) hdrop2 hstail ?_ ?_
        · simp [epl_comment, hgj]
        · intro hc1 hc2
          have hrange : j + 1 < orig.length := by
            by_contra hge
            push_neg at hge
            rw [getC_of_ge orig (j + 1) hge] at hc1
            simp [isCommentTok] at hc1
          have hjodd : j % 2 = 1 := by
            by_contra hje
            have hj2 : (j + 1) % 2 = 1 := by omega
            obtain ⟨q, hq⟩ := altShape_oddStr orig halt (j + 1) hj2 hrange
            rw [hq] at hc1
            simp [isCommentTok] at hc1
          obtain ⟨p, hp⟩ := altShape_oddStr orig halt j hjodd (by omega)
          have hcstr : c = Tok.str p := by rw [← hgj, hp]
          have hj1 : 1 ≤ j := by omega
          have hprevc : isCommentTok (getC orig (j - 1)) = false := by
            rw [hpc] at hc2
            rw [if_pos hj1] at hc2
            exact hc2
          have hfin : ¬ countNl p < 2 := by
            intro hlt
            apply htr
            simp only [commentTriggerAt, hp]
            simp [hc1, hj1, tokIsNone, hprevc, hlt]
          rw [hcstr, epl_nonNode (.str p) True.intro]
          show 2 ≤ countNl p
          omega

mutual

theorem epl_spaced : ∀ (t : Tok), placed t = true → tidy t = true →
    slotsNl t = true → spaced (ensureEmptyLineBeforeComment t) = true
  | .node k ch, hpl, htd, hsl => by
    by_cases hks : (k == Kind.statementK) = true
    · refine spaced_of_deep _ (epl_deep _ ?_)
      simp only [tidy, if_pos hks] at htd
      have hkk : k = Kind.statementK := by simpa using hks
      subst hkk
      simp only [noCommentDeep, Bool.and_eq_true]
      exact ⟨rfl, htd⟩
    · rw [epl_node]
      simp only [placed, Bool.and_eq_true] at hpl
      simp only [tidy, if_neg hks, Bool.and_eq_true] at htd
      simp only [slotsNl, Bool.and_eq_true] at hsl
      simp only [spaced, Bool.and_eq_true]
      refine ⟨?_, epl_spacedList ch _ (commentGo_rel ch ch 0 (by simp))
        hpl.2 htd.2 hsl.2⟩
      by_cases hkc : (k == Kind.code) = true
      · rw [if_pos hkc] at hpl
        exact commentGo_spaced ch hpl.1 ch 0 Option.none Option.none
          Option.none (by simp) hsl.1 (by simp) (fun _ _ => trivial)
      · rw [if_neg hkc] at hpl
        exact spacedGo_of_noComment _ Option.none Option.none
          (forall2R_noComment cgOut
            (fun a b hab ha => by rw [cgOut_comment a b hab]; exact ha)
            ch _ (commentGo_rel ch ch 0 (by simp)) hpl.1)
  | .str v, _, _, _ => by rw [epl_nonNode (.str v) True.intro]; rfl
  | .none, _, _, _ => by rw [epl_nonNode .none True.intro]; rfl
  | .intTok n, _, _, _ => by rw [epl_nonNode (.intTok n) True.intro]; rfl
  | .floatTok raw, _, _, _ => by
    rw [epl_nonNode (.floatTok raw) True.intro]; rfl
  | .leaf v, _, _, _ => by rw [epl_nonNode (.leaf v) True.intro]; rfl

theorem epl_spacedList : ∀ (l out : List Tok), List.Forall₂ cgOut l out →
    placedList l = true → tidyList l = true → slotsNlList l = true →
    spacedList out = true
  | [], out, hrel, _, _, _ => by cases hrel; rfl
  | c :: rest, out, hrel, hpl, htd, hsl => by
    cases hrel with
    | cons h1 h2 =>
      rename_i b bs
      simp only [placedList, Bool.and_eq_true] at hpl
      simp only [tidyList, Bool.and_eq_true] at htd
      simp only [slotsNlList, Bool.and_eq_true] at hsl
      simp only [spacedList, Bool.and_eq_true]
      refine ⟨?_, epl_spacedList rest bs h2 hpl.2 htd.2 hsl.2⟩
      cases h1 with
      | inl hstr =>
        obtain ⟨p, hpa, rfl⟩ := hstr
        rfl
      | inr hb =>
        rw [hb]
        exact epl_spaced c hpl.1 htd.1 hsl.1

end

/-! ### Pass 13 keeps the spacing property

`break_arguments` rewrites only inside `Statement` subtrees, which are
comment-free at every depth, and otherwise transforms children in place
without moving or rewriting comment slots. -/

theorem breakWalk_node (m : Nat) (k : Kind) (ch : List Tok) (lvl : Int) :
    breakWalk m (.node k ch) lvl = .node k (breakGo m k ch.length 0 lvl ch)
    := by
  simp only [breakWalk]

theorem breakWalk_str (m : Nat) (v : List Char) (lvl : Int) :
    breakWalk m (.str v) lvl = .str v := by
  simp only [breakWalk]

theorem breakWalk_noneT (m : Nat) (lvl : Int) :
    breakWalk m .none lvl = .none := by
  simp only [breakWalk]

theorem breakWalk_intTok (m : Nat) (n : Int) (lvl : Int) :
    breakWalk m (.intTok n) lvl = .intTok n := by
  simp only [breakWalk]

theorem breakWalk_floatTok (m : Nat) (raw : List Char) (lvl : Int) :
    breakWalk m (.floatTok raw) lvl = .floatTok raw := by
  simp only [breakWalk]

theorem breakWalk_leaf (m : Nat) (v : List Char) (lvl : Int) :
    breakWalk m (.leaf v) lvl = .leaf v := by
  simp only [breakWalk]

theorem breakGo_nil (m : Nat) (k : Kind) (n i : Nat) (lvl : Int) :
    breakGo m k n i lvl [] = [] := by
  simp only [breakGo]

theorem breakGo_cons (m : Nat) (k : Kind) (n i : Nat) (lvl : Int) (c : Tok)
    (rest : List Tok) :
    breakGo m k n i lvl (c :: rest) =
      (match breakWalk m c (stepLevel k n i lvl c).1 with
       | .node .statementK sch =>
          Tok.node .statementK
            (breakRewrite m (stepLevel k n i lvl c).1 sch)
       | t => t) :: breakGo m k n (i + 1) (stepLevel k n i lvl c).2 rest
    := by
  simp only [breakGo]

theorem breakDelims_deep (inner : List Char) :
    ∀ (i : Nat) (l : List Tok), noCommentDeepList l = true →
      noCommentDeepList (breakDelims inner i l) = true := by
  intro i l
  induction l generalizing i with
  | nil => intro _; rfl
  | cons t rest ih =>
    intro h
    simp only [noCommentDeepList, Bool.and_eq_true] at h
    simp only [breakDelims, noCommentDeepList, Bool.and_eq_true]
    refine ⟨?_, ih (i + 1) h.2⟩
    split
    · exact h.1
    · rfl

theorem breakRewrite_deep (m : Nat) (lvl : Int) (ch : List Tok)
    (h : noCommentDeepList ch = true) :
    noCommentDeepList (breakRewrite m lvl ch) = true := by
  simp only [breakRewrite]
  split
  · exact h
  · split
    · rename_i cch heq1
      split
      · exact h
      · split
        · rename_i ak ach heq2
          split
          · rename_i pk pch heq3
            have hcch : noCommentDeep (Tok.node Kind.callK cch) = true := by
              have hx := noCommentDeepList_getC ch 1 h
              rw [heq1] at hx
              exact hx
            simp only [noCommentDeep, Bool.and_eq_true] at hcch
            have hach : noCommentDeep (Tok.node ak ach) = true := by
              have hx := noCommentDeepList_getC cch 1 hcch.2
              rw [heq2] at hx
              exact hx
            simp only [noCommentDeep, Bool.and_eq_true] at hach
            have hpch : noCommentDeep (Tok.node pk pch) = true := by
              have hx := noCommentDeepList_getC ach 0 hach.2
              rw [heq3] at hx
              exact hx
            simp only [noCommentDeep, Bool.and_eq_true] at hpch
            refine noCommentDeepList_set _ 1 _ h ?_
            simp only [noCommentDeep, Bool.and_eq_true]
            refine ⟨hcch.1, noCommentDeepList_set _ 1 _ hcch.2 ?_⟩
            simp only [noCommentDeep, Bool.and_eq_true]
            refine ⟨hach.1, noCommentDeepList_set _ 0 _ hach.2 ?_⟩
            simp only [noCommentDeep, Bool.and_eq_true]
            refine ⟨hpch.1, ?_⟩
            have hpch1 : noCommentDeepList
                (setC pch 1 (.str (cs " ...\n" ++ indentOf (lvl + 1))))
                = true := noCommentDeepList_set _ 1 _ hpch.2 rfl
            refine noCommentDeepList_set _ 3 _ ?_ rfl
            split
            · rename_i dk dch heq4
              have hdch : noCommentDeep (Tok.node dk dch) = true := by
                have hx := noCommentDeepList_getC _ 2 hpch1
                rw [heq4] at hx
                exact hx
              simp only [noCommentDeep, Bool.and_eq_true] at hdch
              refine noCommentDeepList_set _ 2 _ hpch1 ?_
              simp only [noCommentDeep, Bool.and_eq_true]
              exact ⟨hdch.1, breakDelims_deep _ 0 dch hdch.2⟩
            · exact hpch1
          · exact h
        · exact h
    · exact h

mutual

theorem breakWalk_deep : ∀ (m : Nat) (t : Tok) (lvl : Int),
    noCommentDeep t = true → noCommentDeep (breakWalk m t lvl) = true
  | m, .node k ch, lvl, h => by
    rw [breakWalk_node]
    simp only [noCommentDeep, Bool.and_eq_true] at h ⊢
    exact ⟨h.1, breakGo_deep m k ch.length ch 0 lvl h.2⟩
  | m, .str v, lvl, h => by rw [breakWalk_str]; exact h
  | m, .none, lvl, h => by rw [breakWalk_noneT]; exact h
  | m, .intTok n, lvl, h => by rw [breakWalk_intTok]; exact h
  | m, .floatTok raw, lvl, h => by rw [breakWalk_floatTok]; exact h
  | m, .leaf v, lvl, h => by rw [breakWalk_leaf]; exact h

theorem breakGo_deep : ∀ (m : Nat) (k : Kind) (n : Nat) (l : List Tok)
    (i : Nat) (lvl : Int), noCommentDeepList l = true →
    noCommentDeepList (breakGo m k n i lvl l) = true
  | m, k, n, [], i, lvl, h => by rw [breakGo_nil]; exact h
  | m, k, n, c :: rest, i, lvl, h => by
    rw [breakGo_cons]
    simp only [noCommentDeepList, Bool.and_eq_true] at h ⊢
    refine ⟨?_, breakGo_deep m k n rest (i + 1) (stepLevel k n i lvl c).2
      h.2⟩
    have hw := breakWalk_deep m c (stepLevel k n i lvl c).1 h.1
    split
    · rename_i sch heq
      rw [heq] at hw
      simp only [noCommentDeep, Bool.and_eq_true] at hw ⊢
      exact ⟨hw.1, breakRewrite_deep m _ sch hw.2⟩
    · exact hw

end

/-- Pointwise relation between a child and its `break_arguments` image:
comment-status is unchanged and plain strings are untouched (in both
directions). -/
def spRel (a b : Tok) : Prop :=
  isCommentTok b = isCommentTok a ∧
    (∀ v, a = Tok.str v → b = Tok.str v) ∧
    (∀ v, b = Tok.str v → a = Tok.str v)

def spRelO : Option Tok → Option Tok → Prop
  | Option.none, Option.none => True
  | some a, some b => spRel a b
  | _, _ => False

theorem spacedCheck_transfer (a b : Tok) (pa pb qa qb : Option Tok)
    (h1 : spRel a b) (hp : spRelO pa pb) (hq : spRelO qa qb)
    (hs : spacedGo pa qa [a] = true) : spacedGo pb qb [b] = true := by
  cases qb with
  | none => simp [spacedGo]
  | some b1 =>
    cases b1 with
    | str pB =>
      cases qa with
      | none => exact absurd hq (by simp [spRelO])
      | some a1 =>
        have ha1 : a1 = Tok.str pB := hq.2.2 pB rfl
        subst ha1
        cases pa with
        | none =>
          cases pb with
          | some b0 => exact absurd hp (by simp [spRelO])
          | none =>
            simp only [spacedGo, Bool.not_false, Bool.and_true] at hs ⊢
            by_cases hcb : isCommentTok b = true
            · rw [if_pos hcb]
              have hca : isCommentTok a = true := h1.1.symm.trans hcb
              rw [if_pos hca] at hs
              exact hs
            · rw [if_neg hcb]
        | some a0 =>
          cases pb with
          | none => exact absurd hp (by simp [spRelO])
          | some b0 =>
            simp only [spacedGo, Bool.and_true] at hs ⊢
            by_cases hcb : (isCommentTok b && !isCommentTok b0) = true
            · rw [if_pos hcb]
              have hca : (isCommentTok a && !isCommentTok a0) = true := by
                rw [← h1.1, ← hp.1]
                exact hcb
              rw [if_pos hca] at hs
              exact hs
            · rw [if_neg hcb]
    | node k2 ch2 => simp [spacedGo]
    | none => simp [spacedGo]
    | intTok n2 => simp [spacedGo]
    | floatTok raw2 => simp [spacedGo]
    | leaf v2 => simp [spacedGo]

theorem spacedGo_transfer :
    ∀ (as bs : List Tok), List.Forall₂ spRel as bs →
      ∀ (pa pb qa qb : Option Tok), spRelO pa pb → spRelO qa qb →
      spacedGo pa qa as = true → spacedGo pb qb bs = true := by
  intro as bs hrel
  induction hrel with
  | nil => intro _ _ _ _ _ _ _; rfl
  | cons h1 h2 ih =>
    rename_i a b as' bs'
    intro pa pb qa qb hp hq hs
    simp only [spacedGo, Bool.and_eq_true] at hs ⊢
    refine ⟨?_, ih qa qb (some a) (some b) hq h1 hs.2⟩
    have hsing : spacedGo pa qa [a] = true := by
      simp only [spacedGo, Bool.and_eq_true]
      exact ⟨hs.1, trivial⟩
    have hsing2 := spacedCheck_transfer a b pa pb qa qb h1 hp hq hsing
    simp only [spacedGo, Bool.and_eq_true] at hsing2
    exact hsing2.1

theorem breakWalk_commEq (m : Nat) (c : Tok) (lvl : Int) :
    isCommentTok (breakWalk m c lvl) = isCommentTok c := by
  cases c with
  | node k ch => rw [breakWalk_node]; rfl
  | str v => rw [breakWalk_str]
  | none => rw [breakWalk_noneT]
  | intTok n => rw [breakWalk_intTok]
  | floatTok raw => rw [breakWalk_floatTok]
  | leaf v => rw [breakWalk_leaf]

theorem breakGo_rel (m : Nat) (k : Kind) (n : Nat) :
    ∀ (l : List Tok) (i : Nat) (lvl : Int),
      List.Forall₂ spRel l (breakGo m k n i lvl l) := by
  intro l
  induction l with
  | nil =>
    intro i lvl
    rw [breakGo_nil]
    exact List.Forall₂.nil
  | cons c rest ih =>
    intro i lvl
    rw [breakGo_cons]
    refine List.Forall₂.cons ?_ (ih (i + 1) (stepLevel k n i lvl c).2)
    split
    · rename_i sch heq
      -- the walked child is a statement node, hence so is the input
      cases c with
      | node k2 ch0 =>
        rw [breakWalk_node] at heq
        injection heq with hk hch
        subst hk
        refine ⟨rfl, ?_, ?_⟩
        · intro v hv
          cases hv
        · intro v hv
          cases hv
      | str v =>
        rw [breakWalk_str] at heq
        cases heq
      | none =>
        rw [breakWalk_noneT] at heq
        cases heq
      | intTok n2 =>
        rw [breakWalk_intTok] at heq
        cases heq
      | floatTok raw =>
        rw [breakWalk_floatTok] at heq
        cases heq
      | leaf v =>
        rw [breakWalk_leaf] at heq
        cases heq
    · refine ⟨breakWalk_commEq m c _, ?_, ?_⟩
      · intro v hv
        subst hv
        rw [breakWalk_str]
      · intro v hv
        cases c with
        | node k2 ch0 =>
          rw [breakWalk_node] at hv
          cases hv
        | str v0 =>
          rw [breakWalk_str] at hv
          exact hv
        | none =>
          rw [breakWalk_noneT] at hv
          cases hv
        | intTok n2 =>
          rw [breakWalk_intTok] at hv
          cases hv
        | floatTok raw =>
          rw [breakWalk_floatTok] at hv
          cases hv
        | leaf v0 =>
          rw [breakWalk_leaf] at hv
          cases hv

mutual

theorem breakWalk_spaced : ∀ (m : Nat) (t : Tok) (lvl : Int),
    tidy t = true → spaced t = true → spaced (breakWalk m t lvl) = true
  | m, .node k ch, lvl, htd, hsp => by
    rw [breakWalk_node]
    by_cases hks : (k == Kind.statementK) = true
    · refine spaced_of_deep _ ?_
      simp only [tidy, if_pos hks] at htd
      have hkk : k = Kind.statementK := by simpa using hks
      subst hkk
      simp only [noCommentDeep, Bool.and_eq_true]
      exact ⟨rfl, breakGo_deep m Kind.statementK ch.length ch 0 lvl htd⟩
    · simp only [tidy, if_neg hks, Bool.and_eq_true] at htd
      simp only [spaced, Bool.and_eq_true] at hsp ⊢
      refine ⟨?_, breakGo_spacedList m k ch.length ch 0 lvl htd.2 hsp.2⟩
      exact spacedGo_transfer ch _ (breakGo_rel m k ch.length ch 0 lvl)
        Option.none Option.none Option.none Option.none trivial trivial
        hsp.1
  | m, .str v, lvl, _, _ => by rw [breakWalk_str]; rfl
  | m, .none, lvl, _, _ => by rw [breakWalk_noneT]; rfl
  | m, .intTok n, lvl, _, _ => by rw [breakWalk_intTok]; rfl
  | m, .floatTok raw, lvl, _, _ => by rw [breakWalk_floatTok]; rfl
  | m, .leaf v, lvl, _, _ => by rw [breakWalk_leaf]; rfl

theorem breakGo_spacedList : ∀ (m : Nat) (k : Kind) (n : Nat)
    (l : List Tok) (i : Nat) (lvl : Int), tidyList l = true →
    spacedList l = true → spacedList (breakGo m k n i lvl l) = true
  | m, k, n, [], i, lvl, _, _ => by rw [breakGo_nil]; rfl
  | m, k, n, c :: rest, i, lvl, htd, hsp => by
    rw [breakGo_cons]
    simp only [tidyList, Bool.and_eq_true] at htd
    simp only [spacedList, Bool.and_eq_true] at hsp ⊢
    refine ⟨?_, breakGo_spacedList m k n rest (i + 1)
      (stepLevel k n i lvl c).2 htd.2 hsp.2⟩
    split
    · rename_i sch heq
      cases c with
      | node k2 ch0 =>
        rw [breakWalk_node] at heq
        injection heq with hk hch
        subst hk
        have htd0 := htd.1
        simp only [tidy, if_pos (by rfl : (Kind.statementK
          == Kind.statementK) = true)] at htd0
        refine spaced_of_deep _ ?_
        simp only [noCommentDeep, Bool.and_eq_true]
        refine ⟨rfl, breakRewrite_deep m _ sch ?_⟩
        rw [← hch]
        exact breakGo_deep m Kind.statementK ch0.length ch0 0 _ htd0
      | str v =>
        rw [breakWalk_str] at heq
        cases heq
      | none =>
        rw [breakWalk_noneT] at heq
        cases heq
      | intTok n2 =>
        rw [breakWalk_intTok] at heq
        cases heq
      | floatTok raw =>
        rw [breakWalk_floatTok] at heq
        cases heq
      | leaf v =>
        rw [breakWalk_leaf] at heq
        cases heq
    · exact breakWalk_spaced m c _ htd.1 hsp.1

end

theorem breakArguments_spaced (t : Tok) (htd : tidy t = true)
    (hsp : spaced t = true) : spaced (breakArguments t) = true :=
  breakWalk_spaced 120 t 0 htd hsp

/-! ### The root node keeps its kind through every pass -/

theorem rootKind_normWsArgs (k : Kind) (ch : List Tok) :
    ∃ ch2, normWsArgs (.node k ch) = .node k ch2 := by
  simp only [normWsArgs]
  repeat first
  | exact ⟨_, rfl⟩
  | split

theorem rootKind_normWsParen (k : Kind) (ch : List Tok) :
    ∃ ch2, normWsParen (.node k ch) = .node k ch2 := by
  simp only [normWsParen]
  repeat first
  | exact ⟨_, rfl⟩
  | split

theorem rootKind_normWsAssign (k : Kind) (ch : List Tok) :
    ∃ ch2, normWsAssign (.node k ch) = .node k ch2 := by
  simp only [normWsAssign]
  repeat first
  | exact ⟨_, rfl⟩
  | split

theorem rootKind_rmSemiAfterEnd (k : Kind) (ch : List Tok) :
    ∃ ch2, rmSemiAfterEnd (.node k ch) = .node k ch2 := by
  simp only [rmSemiAfterEnd]
  repeat first
  | exact ⟨_, rfl⟩
  | split

theorem rootKind_rmSemiAfterIfCond (k : Kind) (ch : List Tok) :
    ∃ ch2, rmSemiAfterIfCond (.node k ch) = .node k ch2 := by
  simp only [rmSemiAfterIfCond]
  repeat first
  | exact ⟨_, rfl⟩
  | split

theorem rootKind_rmWsBeforeSemi (k : Kind) (ch : List Tok) :
    ∃ ch2, rmWsBeforeSemi (.node k ch) = .node k ch2 := by
  simp only [rmWsBeforeSemi]
  repeat first
  | exact ⟨_, rfl⟩
  | split

theorem rootKind_rmSemiAfterKeyword (k : Kind) (ch : List Tok) :
    ∃ ch2, rmSemiAfterKeyword (.node k ch) = .node k ch2 := by
  simp only [rmSemiAfterKeyword]
  repeat first
  | exact ⟨_, rfl⟩
  | split

theorem rootKind_normIndent (k : Kind) (ch : List Tok) :
    ∃ ch2, normIndent (.node k ch) = .node k ch2 := by
  simp only [normIndent]
  rw [indentWalk_node]
  exact ⟨_, rfl⟩

theorem rootKind_ensureFunctionEnd (k : Kind) (ch : List Tok) :
    ∃ ch2, ensureFunctionEnd (.node k ch) = .node k ch2 := by
  simp only [ensureFunctionEnd]
  repeat first
  | exact ⟨_, rfl⟩
  | split

/-! ### What the parse entry point guarantees

A successful `parse_string` yields the single `File` node produced by
the grammar, and it satisfies both structural invariants: comments sit
only in `Code` children lists at odd positions, `Code` lists carry no
bare `Leaf` children, and `Statement` subtrees are comment-free at every
depth. -/

theorem parseString_props (fuel : Nat) (s : List Char) (t : Tok)
    (h : parseString fuel s = some t) :
    (∃ ch, t = .node .file ch) ∧ placed t = true ∧ tidy t = true := by
  simp only [parseString] at h
  split at h
  · rename_i toks ex hpr
    simp only [parseRun] at hpr
    split at hpr
    · rename_i j toks' ex' hr
      split at hpr
      · simp only [Option.some.injEq, Prod.mk.injEq] at hpr
        obtain ⟨ht, he⟩ := hpr
        have hplaced := runPE_placed fuel filePE (expandTabs s) 0 j toks'
          ex' commentSafe_filePE hr
        have htidy := runPE_tidy fuel filePE (expandTabs s) 0 j toks' ex'
          tidySafe_filePE hr
        cases fuel with
        | zero => exact absurd hr (by simp [runPE])
        | succ n =>
          simp only [filePE, runPE] at hr
          split at hr
          · rename_i j2 t2 f2 hinner
            simp only [applyAct, Option.some.injEq, Prod.mk.injEq] at hr
            rw [← ht] at h
            rw [← hr.2.1] at h hplaced htidy
            simp only [List.get?, Option.some.injEq] at h
            rw [← h]
            simp only [placedList, Bool.and_eq_true] at hplaced
            simp only [tidyList, Bool.and_eq_true] at htidy
            exact ⟨⟨t2, rfl⟩, hplaced.1, htidy.1⟩
          · exact absurd hr (by simp)
      · exact absurd hpr (by simp)
    · exact absurd hpr (by simp)
  · exact absurd h (by simp)

/-- **C9** (`ensure_empty_line_before_comment`): on any source file the
parser accepts, the formatted tree leaves an empty line before every
comment: in every children list of the output, a comment's preceding
string slot carries at least two newlines unless the element before
that slot is itself a comment. -/
theorem c9_comment_spacing (fuel : Nat) (s : List Char) (t : Tok)
    (h : parseString fuel s = some t) :
    spaced (formatFile t) = true := by
  obtain ⟨⟨ch0, hshape⟩, hpl, htd⟩ := parseString_props fuel s t h
  have hpl1 := placed_normWsArgs t hpl
  have htd1 := tidy_normWsArgs t htd
  have hpl2 := placed_normWsParen _ hpl1
  have htd2 := tidy_normWsParen _ htd1
  have hpl3 := placed_normWsAssign _ hpl2
  have htd3 := tidy_normWsAssign _ htd2
  have hpl4 := placed_rmSemiAfterEnd _ hpl3
  have htd4 := tidy_rmSemiAfterEnd _ htd3
  have hpl5 := placed_rmSemiAfterIfCond _ hpl4
  have htd5 := tidy_rmSemiAfterIfCond _ htd4
  have hpl6 := placed_rmWsBeforeSemi _ hpl5
  have htd6 := tidy_rmWsBeforeSemi _ htd5
  have hpl7 := placed_rmSemiAfterKeyword _ hpl6
  have htd7 := tidy_rmSemiAfterKeyword _ htd6
  have hpl8 := placed_normIndent _ hpl7
  have htd8 := tidy_normIndent _ htd7
  have hsl8 := slots_normIndent _ hpl7 htd7
  have hpl9 := placed_ensureFunctionEnd _ hpl8
  have htd9 := tidy_ensureFunctionEnd _ htd8
  have hsl9 := slots_ensureFunctionEnd _ hpl8 hsl8
  -- track the root node shape up to pass 9
  obtain ⟨c1, hs1⟩ := rootKind_normWsArgs Kind.file ch0
  obtain ⟨c2, hs2⟩ := rootKind_normWsParen Kind.file c1
  obtain ⟨c3, hs3⟩ := rootKind_normWsAssign Kind.file c2
  obtain ⟨c4, hs4⟩ := rootKind_rmSemiAfterEnd Kind.file c3
  obtain ⟨c5, hs5⟩ := rootKind_rmSemiAfterIfCond Kind.file c4
  obtain ⟨c6x, hs6⟩ := rootKind_rmWsBeforeSemi Kind.file c5
  obtain ⟨c7x, hs7⟩ := rootKind_rmSemiAfterKeyword Kind.file c6x
  obtain ⟨c8, hs8⟩ := rootKind_normIndent Kind.file c7x
  obtain ⟨c9x, hs9⟩ := rootKind_ensureFunctionEnd Kind.file c8
  simp only [formatFile]
  rw [hshape, hs1, hs2, hs3, hs4, hs5, hs6, hs7, hs8, hs9]
    at hpl9 htd9 hsl9 ⊢
  obtain ⟨hpl10, htd10, hsl10⟩ := normLeading_props Kind.file c9x
    (by decide) (by decide) hpl9 htd9 hsl9
  have hs10 : normLeading (.node Kind.file c9x)
      = .node Kind.file (setC c9x 0 (.str [])) := rfl
  rw [hs10] at hpl10 htd10 hsl10 ⊢
  obtain ⟨hpl11, htd11, hsl11⟩ := normTrailing_props Kind.file
    (setC c9x 0 (.str [])) (by decide) (by decide) hpl10 htd10 hsl10
  exact breakArguments_spaced _ (epl_tidy _ htd11)
    (epl_spaced _ hpl11 htd11 hsl11)

def c9WitnessTree : Tok :=
  .node .file
    [.str [],
     .node .code
       [.node .statementK
         [.node .outputArguments
           [.node .parenthesizedK
             [.str [], .str [],
              .node .delimitedList
                [.node .callK [.str ['x'], .none]],
              .str [], .str []],
            .str [' '], .str ['='], .str [' ']],
          .intTok 1, .str [], .str []],
        .str ['\n'],
        .node .commentK [.str ['%'], .str [' ', 'h', 'i']]],
     .str ['\n']]

/-- **C9** witness: the two-line program `x = 1` followed by a comment
parses, and its formatted tree satisfies the comment-spacing
property. -/
theorem c9_comment_spacing_witness :
    parseString 400 (cs "x = 1\n% hi\n") = some c9WitnessTree ∧
      spaced (formatFile c9WitnessTree) = true :=
  ⟨by decide,
    c9_comment_spacing 400 (cs "x = 1\n% hi\n") c9WitnessTree (by decide)⟩

end Kakapo
